import Mathlib

/-!
# Recipe converter (`recipes.c`)

A shallow embedding of the line parser and HTML emitter of `recipes.c`.

* A `char` is a `Char`; a C string is a `List Char` without its terminator. A buffer may
  hold NUL characters read from the stream: the string functions see the part before the
  first one (`c_str`).
* `isspace` is the one of the "C" locale, the program never sets another.
* The output stream `html` is the list of characters written so far.
* The input stream `recipe` is the list of characters still to be read; `fgets` hands it
  to the loop one buffer of at most 2047 characters at a time (`read_lines`), and the loop
  works on these buffers. The lines of the input are `split_lines`: they are the buffers
  when each of them holds at most 2047 characters, the newline counted
  (`emit_recipe_fit`); a longer line is read in several buffers, each of which the loop
  takes for a line.
* The locals of `emit_recipe` and the output stream are threaded through the loop as an
  `emit_ctx`. `return false` inside the loop is `none` in `process_line`; the text
  already written stays in the stream.
* `color_index` stays below 4, so the `int` is a `Nat` and `%i` prints `Nat.repr`.
* The kinds of line (`line_class`), the state machine on them (`class_step`) and the
  grammar `recipe_regex` describe which documents are accepted.
* `main_paths` is the path arithmetic of `main` for one directory entry.
-/

namespace Recipes

/-- The enum `recipe_state`. -/
inductive recipe_state
  | RECIPE_LOADED
  | RECIPE_TITLE
  | RECIPE_IMAGE
  | RECIPE_SUBTITLE
  | RECIPE_DESCRIPTION
  | RECIPE_STEP
  | RECIPE_INFO
  deriving DecidableEq

open recipe_state

/-- Position of a state in the declaration order of the enum. -/
def recipe_state.ord : recipe_state → Nat
  | RECIPE_LOADED => 0
  | RECIPE_TITLE => 1
  | RECIPE_IMAGE => 2
  | RECIPE_SUBTITLE => 3
  | RECIPE_DESCRIPTION => 4
  | RECIPE_STEP => 5
  | RECIPE_INFO => 6

/-- The function `is_ws`: `isspace` in the "C" locale (space, `\t`, `\n`, `\v`, `\f`, `\r`). -/
def is_ws (c : Char) : Bool :=
  c = ' ' || c = '\t' || c = '\n' || c = '\x0b' || c = '\x0c' || c = '\r'

/-- The function `is_right_bracket`. -/
def is_right_bracket (c : Char) : Bool :=
  c = ']'

/-- The part of a buffer that C string functions see: the characters before the first NUL. -/
def c_str (buf : List Char) : List Char :=
  buf.takeWhile (fun c => c != '\x00')

/-- The function `trim_right`: walking down from the last character, every character
satisfying `pred` is overwritten with the terminator, until one does not satisfy it. -/
def trim_right (str : List Char) (pred : Char → Bool) : List Char :=
  (str.reverse.dropWhile pred).reverse

/-- The function `trim_left`: the pointer advances while `pred` holds. -/
def trim_left (str : List Char) (pred : Char → Bool) : List Char :=
  str.dropWhile pred

/-- The function `trim`. -/
def trim (str : List Char) : List Char :=
  trim_left (trim_right str is_ws) is_ws

/-- The call `fputs(s, html)`. -/
def fputs (s : List Char) (html : List Char) : List Char :=
  html ++ s

/-- The function `emit_html_start`. -/
def emit_html_start (html : List Char) : List Char :=
  fputs "<!DOCTYPE html><html>".toList html

/-- The function `emit_head`. -/
def emit_head (html : List Char) (title : List Char) : List Char :=
  let html := fputs "<head>".toList html
  let html := html ++ ("<title>".toList ++ title ++ "</title>".toList)
  let html := fputs "<link rel=\"stylesheet\" type=\"text/css\" href=\"css/style.css\">".toList html
  let html := fputs "<link rel=\"stylesheet\" type=\"text/css\" href=\"css/colors.css\">".toList html
  let html := fputs "</head>".toList html
  fputs "<body>".toList html

/-- The function `emit_body_title`. -/
def emit_body_title (html : List Char) (title : List Char) : List Char :=
  html ++ ("<div><h1>".toList ++ title ++ "</h1></div>".toList)

/-- The function `emit_body_img`. -/
def emit_body_img (html : List Char) (path : List Char) : List Char :=
  html ++ ("<div><img src=\"".toList ++ path ++ "\"></div>".toList)

/-- The function `emit_body_subtitle`. -/
def emit_body_subtitle (html : List Char) (subtitle : List Char) : List Char :=
  html ++ ("<div><blockquote>".toList ++ subtitle ++ "</blockquote></div>".toList)

/-- The function `emit_body_description`. -/
def emit_body_description (html : List Char) (info : List Char) : List Char :=
  html ++ ("<div><p>".toList ++ info ++ "</p></div>".toList)

/-- The function `emit_body_step`. -/
def emit_body_step (html : List Char) (text : List Char) (step_started : Bool) : List Char :=
  let html := if !step_started then fputs "<div class=\"step\"><ul>".toList html else html
  html ++ ("<li>".toList ++ text ++ "</li>".toList)

/-- The function `emit_body_info`; `%i` prints the decimal digits of `color_index`. -/
def emit_body_info (html : List Char) (text : List Char) (color_index : Nat) : List Char :=
  let html := fputs "</ul>".toList html
  let html := html ++ ("<div class=\"info c".toList ++ (Nat.repr color_index).toList ++
    "\">".toList ++ text ++ "</div>".toList)
  fputs "</div>".toList html

/-- The function `emit_html_end`. -/
def emit_html_end (html : List Char) : List Char :=
  fputs "</body></html>".toList html

/-- The local variables of `emit_recipe` together with the text written to `html` so far. -/
structure emit_ctx where
  state : recipe_state
  step_started : Bool
  color_index : Nat
  html : List Char
  deriving DecidableEq

/-- The body of the `while` loop of `emit_recipe` for one buffer filled by `fgets`.
The result `none` is `return false`; an empty trimmed line is `continue`. -/
def process_line (linebuf : List Char) (c : emit_ctx) : Option emit_ctx :=
  match trim (c_str linebuf) with
  | [] => some c
  | ch :: tl =>
    -- `trim(&line[1])` cuts the buffer behind `line` too
    let rest_line := trim tl
    let line := ch :: trim_right tl is_ws
    if ch = '#' then
      if c.state ≠ RECIPE_LOADED then none
      else
        some { c with
          state := RECIPE_TITLE
          html := emit_body_title (emit_head c.html rest_line) rest_line }
    else if ch = '>' then
      if c.state = RECIPE_TITLE ∨ c.state = RECIPE_IMAGE then
        some { c with
          state := RECIPE_SUBTITLE
          html := emit_body_subtitle c.html rest_line }
      else if c.state = RECIPE_STEP ∧ c.step_started = true then
        some { state := RECIPE_INFO
               html := emit_body_info c.html rest_line c.color_index
               color_index := (c.color_index + 1) % 4
               step_started := false }
      else none
    else if ch = '[' then
      if c.state ≠ RECIPE_TITLE then none
      else
        some { c with
          state := RECIPE_IMAGE
          html := emit_body_img c.html (trim_right rest_line is_right_bracket) }
    else if ch = '*' then
      if c.state = RECIPE_LOADED then none
      else
        some { c with
          state := RECIPE_STEP
          html := emit_body_step c.html rest_line c.step_started
          step_started := true }
    else
      if c.state ≠ RECIPE_TITLE ∧ c.state ≠ RECIPE_SUBTITLE ∧ c.state ≠ RECIPE_DESCRIPTION then none
      else
        some { c with
          state := RECIPE_DESCRIPTION
          html := emit_body_description c.html line }

/-- The code of `emit_recipe` after the loop: close an open step list, write the end tags,
`return true`. -/
def emit_recipe_finish (c : emit_ctx) : Bool × List Char :=
  let html := if c.step_started then fputs "</ul></div>".toList c.html else c.html
  (true, emit_html_end html)

/-- The `while` loop of `emit_recipe` over the buffers that the successive `fgets` calls
return, followed by the code after the loop. The result is the returned boolean and the
text written to `html`. -/
def emit_recipe_loop : List (List Char) → emit_ctx → Bool × List Char
  | [], c => emit_recipe_finish c
  | linebuf :: more, c =>
    match process_line linebuf c with
    | none => (false, c.html)
    | some c1 => emit_recipe_loop more c1

/-- The locals of `emit_recipe` when the loop is entered. -/
def emit_recipe_init : emit_ctx :=
  { state := RECIPE_LOADED
    step_started := false
    color_index := 0
    html := emit_html_start [] }

/-- The function `emit_recipe` on the sequence of buffers read by `fgets`. -/
def emit_lines (lines : List (List Char)) : Bool × List Char :=
  emit_recipe_loop lines emit_recipe_init

/-- One call `fgets(linebuf, size, recipe)` that is allowed to store `room` characters:
it stops after a newline, at the end of the stream, or when the room is used up.
The result is the buffer and the rest of the stream. -/
def fgets_read : Nat → List Char → List Char × List Char
  | 0, stream => ([], stream)
  | _ + 1, [] => ([], [])
  | room + 1, ch :: stream =>
    if ch = '\n' then ([ch], stream)
    else ((ch :: (fgets_read room stream).1), (fgets_read room stream).2)

/-- The call `fgets(linebuf, size, recipe)`: `none` is `NULL` (end of the stream). -/
def fgets (size : Nat) (recipe : List Char) : Option (List Char × List Char) :=
  if recipe = [] then none else some (fgets_read (size - 1) recipe)

/-- The buffers returned by the successive calls `fgets(linebuf, 2048, recipe)` up to
`NULL`; `fuel` bounds the number of calls. -/
def read_lines : Nat → List Char → List (List Char)
  | 0, _ => []
  | fuel + 1, recipe =>
    match fgets 2048 recipe with
    | none => []
    | some (linebuf, recipe1) => linebuf :: read_lines fuel recipe1

/-- The function `emit_recipe` on the content of the stream `recipe`: every call of `fgets`
takes at least one character, so as many calls as there are characters reach the end. -/
def emit_recipe (recipe : List Char) : Bool × List Char :=
  emit_lines (read_lines recipe.length recipe)

/-- The trimmed line that the loop body works on, for a buffer filled by `fgets`. -/
def trimmed_line (linebuf : List Char) : List Char :=
  trim (c_str linebuf)

/-- The character the `switch` looks at: `line[0]` of the trimmed line, `none` when the
trimmed line is empty (the line is skipped). -/
def line_char (linebuf : List Char) : Option Char :=
  (trimmed_line linebuf).head?

/-- The first characters of the lines that are not skipped, in order. -/
def line_chars (lines : List (List Char)) : List Char :=
  lines.filterMap line_char

/-- The first character of the last line that is not skipped, `none` when all lines are
skipped or there is none. -/
def last_line_char (lines : List (List Char)) : Option Char :=
  (line_chars lines).getLast?

/-- The locals after the loop body has run on each buffer in turn; `none` when one of
them made the function return false. -/
def run_lines : List (List Char) → emit_ctx → Option emit_ctx
  | [], c => some c
  | linebuf :: more, c =>
    match process_line linebuf c with
    | none => none
    | some c1 => run_lines more c1

/-- The text behind the marker character of a line, as the loop body computes it:
`rest_line = trim(&line[1])`. -/
def rest_line (linebuf : List Char) : List Char :=
  trim (trimmed_line linebuf).tail

/-- Whether the loop body takes the info branch for this buffer: a `>` line met in state
Step while the step list is open. -/
def is_info_line (linebuf : List Char) (c : emit_ctx) : Bool :=
  decide (line_char linebuf = some '>' ∧ c.state = RECIPE_STEP ∧ c.step_started = true)

/-- The number of info lines that the loop accepts while it runs over the buffers from the
locals `c`, up to the first violation. -/
def info_count : List (List Char) → emit_ctx → Nat
  | [], _ => 0
  | linebuf :: more, c =>
    match process_line linebuf c with
    | none => 0
    | some c1 => (if is_info_line linebuf c then 1 else 0) + info_count more c1

/-- The text that `emit_head` and `emit_body_title` write for a title. -/
def title_block (title : List Char) : List Char :=
  emit_body_title (emit_head [] title) title

/-- The code of `emit_recipe` between the loop and `return true`, on the locals: an open
step list is closed and `step_started` reset, then the end tags are written. -/
def emit_recipe_close (c : emit_ctx) : emit_ctx :=
  let c1 : emit_ctx :=
    if c.step_started then
      { c with html := fputs "</ul></div>".toList c.html, step_started := false }
    else c
  { c1 with html := emit_html_end c1.html }

/-- The kinds of line that the `switch` tells apart by `line[0]`: `T` for `#`, `I` for
`[`, `Q` for `>`, `P` for `*`, `D` for any other character. -/
inductive line_class
  | T
  | I
  | Q
  | P
  | D
  deriving DecidableEq

/-- The case of the `switch` that a first character selects. -/
def char_class (ch : Char) : line_class :=
  if ch = '#' then line_class.T
  else if ch = '>' then line_class.Q
  else if ch = '[' then line_class.I
  else if ch = '*' then line_class.P
  else line_class.D

/-- The kinds of the lines that are not skipped, in order. -/
def line_classes (lines : List (List Char)) : List line_class :=
  (line_chars lines).map char_class

/-- The tests and assignments of the `switch` on `state` and `step_started` alone, for a
line of kind `k`; `none` is `return false`. -/
def class_step (s : recipe_state) (b : Bool) (k : line_class) :
    Option (recipe_state × Bool) :=
  match k with
  | line_class.T => if s ≠ RECIPE_LOADED then none else some (RECIPE_TITLE, b)
  | line_class.Q =>
    if s = RECIPE_TITLE ∨ s = RECIPE_IMAGE then some (RECIPE_SUBTITLE, b)
    else if s = RECIPE_STEP ∧ b = true then some (RECIPE_INFO, false)
    else none
  | line_class.I => if s ≠ RECIPE_TITLE then none else some (RECIPE_IMAGE, b)
  | line_class.P => if s = RECIPE_LOADED then none else some (RECIPE_STEP, true)
  | line_class.D =>
    if s ≠ RECIPE_TITLE ∧ s ≠ RECIPE_SUBTITLE ∧ s ≠ RECIPE_DESCRIPTION then none
    else some (RECIPE_DESCRIPTION, b)

/-- The state and flag after lines of the given kinds, `none` after a violation. -/
def class_run (s : recipe_state) (b : Bool) : List line_class → Option (recipe_state × Bool)
  | [] => some (s, b)
  | k :: ks =>
    match class_step s b k with
    | none => none
    | some (s1, b1) => class_run s1 b1 ks

/-- An optional part of a pattern: `r?`. -/
def rx_opt (r : RegularExpression line_class) : RegularExpression line_class :=
  1 + r

/-- One or more repetitions of a pattern: `r+`. -/
def rx_many1 (r : RegularExpression line_class) : RegularExpression line_class :=
  r * RegularExpression.star r

/-- The pattern `( I? (Q D*)? | D+ )` for the lines between the title and the steps. -/
def head_regex : RegularExpression line_class :=
  rx_opt (RegularExpression.char line_class.I) *
    rx_opt (RegularExpression.char line_class.Q *
      RegularExpression.star (RegularExpression.char line_class.D)) +
  rx_many1 (RegularExpression.char line_class.D)

/-- The pattern `( P+ (Q P+)* Q? )?` for the step lists with their info lines. -/
def steps_regex : RegularExpression line_class :=
  rx_opt (rx_many1 (RegularExpression.char line_class.P) *
    RegularExpression.star (RegularExpression.char line_class.Q *
      rx_many1 (RegularExpression.char line_class.P)) *
    rx_opt (RegularExpression.char line_class.Q))

/-- The pattern `T ( I? (Q D*)? | D+ ) ( P+ (Q P+)* Q? )?` for the kinds of the lines of
a document. -/
def recipe_regex : RegularExpression line_class :=
  RegularExpression.char line_class.T * head_regex * steps_regex

/-- The pattern for the kinds of the lines that may still follow in a state. -/
def state_regex : recipe_state → RegularExpression line_class
  | RECIPE_LOADED => 1 + recipe_regex
  | RECIPE_TITLE => head_regex * steps_regex
  | RECIPE_IMAGE =>
    rx_opt (RegularExpression.char line_class.Q *
      RegularExpression.star (RegularExpression.char line_class.D)) * steps_regex
  | RECIPE_SUBTITLE => RegularExpression.star (RegularExpression.char line_class.D) * steps_regex
  | RECIPE_DESCRIPTION =>
    RegularExpression.star (RegularExpression.char line_class.D) * steps_regex
  | RECIPE_STEP =>
    RegularExpression.star (RegularExpression.char line_class.P) *
      RegularExpression.star (RegularExpression.char line_class.Q *
        rx_many1 (RegularExpression.char line_class.P)) *
      rx_opt (RegularExpression.char line_class.Q)
  | RECIPE_INFO => steps_regex

/-- The number of positions of `text` at which `pat` occurs. -/
def count_occ (pat : List Char) : List Char → Nat
  | [] => if pat.isPrefixOf [] then 1 else 0
  | ch :: text => (if pat.isPrefixOf (ch :: text) then 1 else 0) + count_occ pat text

/-- The example document of the specification. -/
def tea_example : List Char :=
  "# Tea\n[tea.jpg]\n> Hot drink\nBoil water.\n* Add tea\n* Steep\n> Serve warm\n".toList

/-- The call `strrchr(s, ch)` for a character other than the terminator: the rest of the
string from the last `ch` on, `none` (`NULL`) when there is none. -/
def strrchr : List Char → Char → Option (List Char)
  | [], _ => none
  | c :: s, ch =>
    match strrchr s ch with
    | some r => some r
    | none => if c = ch then some (c :: s) else none

/-- The function `file_ext`. -/
def file_ext (path : List Char) : Option (List Char) :=
  strrchr path '.'

/-- The call `strstr(hay, needle)`: the offset of the first place at which `needle` occurs in
`hay`, `none` (`NULL`) when it does not occur. -/
def strstr : List Char → List Char → Option Nat
  | [], needle => if needle.isPrefixOf [] then some 0 else none
  | c :: hay, needle =>
    if needle.isPrefixOf (c :: hay) then some 0
    else (strstr hay needle).map (fun off => off + 1)

/-- The characters `src` written over the buffer `buf` from offset `off` on. -/
def write_at (buf : List Char) (off : Nat) (src : List Char) : List Char :=
  buf.take off ++ src ++ buf.drop (off + src.length)

/-- The call `strcpy(&buf[off], s)`: the string and its terminator are written. -/
def strcpy (buf : List Char) (off : Nat) (s : List Char) : List Char :=
  write_at buf off (s ++ ['\x00'])

/-- The call `memcpy(&buf[off], src, n)`. -/
def memcpy (buf : List Char) (off : Nat) (src : List Char) (n : Nat) : List Char :=
  write_at buf off (src.take n)

/-- The body of the loop of `main` for one directory entry with the name `d_name`: the
source path and the destination path handed to `convert_files`, `none` when the entry is
passed over. The two path buffers are 1024 zero characters at first; the test
`file_name > 0` compares a pointer that is never null and always holds. When `strstr`
finds nothing the code writes through `NULL`; that is `none` here and does not happen,
the name ends with `.md`. -/
def main_paths (d_name : List Char) : Option (List Char × List Char) :=
  let src_dir := "cookbook/".toList
  let src_ext := ".md".toList
  let dst_dir := "docs/".toList
  let dst_ext := ".html".toList
  let file_name := c_str d_name
  if src_dir.length + file_name.length < 1024 ∧
      dst_dir.length + dst_ext.length + file_name.length < 1024 ∧
      file_ext file_name = some src_ext then
    let src_path := strcpy (strcpy (List.replicate 1024 '\x00') 0 src_dir) src_dir.length file_name
    let dst_path := strcpy (strcpy (List.replicate 1024 '\x00') 0 dst_dir) dst_dir.length file_name
    match strstr (c_str dst_path) src_ext with
    | none => none
    | some off => some (c_str src_path, c_str (memcpy dst_path off dst_ext dst_ext.length))
  else none

/-- The lines of the text in a stream: each one ends with its newline, the last one may
lack it. A call of `fgets` returns such a line when the line fits the buffer. -/
def split_lines : List Char → List (List Char)
  | [] => []
  | ch :: stream =>
    if ch = '\n' then [ch] :: split_lines stream
    else
      match split_lines stream with
      | [] => [[ch]]
      | l :: ls => (ch :: l) :: ls

/-- A document whose second line, a `>` line, has 2050 characters: `fgets` reads it in
two parts, the second of which starts with `*`. -/
def two_quotes_example : List Char :=
  "# T\n".toList ++ (('>' :: List.replicate 2046 'a') ++ "*s\n> info\n".toList)

/-- The same document with a second line that fits the buffer. -/
def two_quotes_short : List Char :=
  "# T\n>aaa*s\n> info\n".toList

/-- A document whose second line, a description line, has 2049 characters. -/
def long_text_example : List Char :=
  "# T\n".toList ++ (List.replicate 2047 'a' ++ "b\n".toList)

/-- A document whose second line, a step line, has 2051 characters: `fgets` reads it in
two parts, the second of which starts with `>`. -/
def long_step_example : List Char :=
  "# T\n".toList ++ (('*' :: List.replicate 2046 'a') ++ "> n\n".toList)

/-- The document `long_step_example` with a step line behind it. -/
def long_step_example_b : List Char :=
  "# T\n".toList ++ (('*' :: List.replicate 2046 'a') ++ "> n\n* b\n".toList)

/-- The document `long_step_example_b` with an info line behind it. -/
def long_step_example_info : List Char :=
  "# T\n".toList ++ (('*' :: List.replicate 2046 'a') ++ "> n\n* b\n> real info\n".toList)

/-- A document whose only line, a title line, has 2051 characters: `fgets` reads it in
two parts, the first of which holds the marker and 2046 characters of the title. -/
def long_title_example : List Char :=
  ('#' :: List.replicate 2046 'a') ++ "bcd\n".toList

/-- A document whose second line, an image line, has 2055 characters: `fgets` reads it in
two parts, the second of which starts with `>`. -/
def long_image_example : List Char :=
  "# T\n".toList ++ (('[' :: List.replicate 2046 'a') ++ "> sub]]\n".toList)

/-! ## Reading the stream -/

theorem fgets_read_append (room : Nat) (stream : List Char) :
    (fgets_read room stream).1 ++ (fgets_read room stream).2 = stream := by
  induction stream generalizing room with
  | nil => cases room <;> rfl
  | cons ch stream ih =>
    cases room with
    | zero => rfl
    | succ room =>
      simp only [fgets_read]
      split
      · rfl
      · simp [ih room]

theorem fgets_read_length (room : Nat) (ch : Char) (stream : List Char) :
    (fgets_read (room + 1) (ch :: stream)).2.length ≤ stream.length := by
  induction stream generalizing room ch with
  | nil =>
    simp only [fgets_read]
    split
    · simp
    · cases room <;> simp [fgets_read]
  | cons d stream ih =>
    simp only [fgets_read]
    split
    · simp
    · cases room with
      | zero => simp [fgets_read]
      | succ room =>
        have := ih room d
        simp only [List.length_cons]
        omega

/-- With as many calls of `fgets` as the stream has characters, every character is read:
the buffers, one after the other, are the stream. -/
theorem read_lines_flatten (fuel : Nat) (recipe : List Char) (h : recipe.length ≤ fuel) :
    (read_lines fuel recipe).flatten = recipe := by
  induction fuel generalizing recipe with
  | zero =>
    have : recipe = [] := List.length_eq_zero.mp (Nat.le_zero.mp h)
    subst this
    rfl
  | succ fuel ih =>
    cases recipe with
    | nil => simp [read_lines, fgets]
    | cons ch stream =>
      simp only [read_lines, fgets, List.cons_ne_nil, if_false, List.flatten_cons]
      have hlen : (fgets_read (2048 - 1) (ch :: stream)).2.length ≤ stream.length :=
        fgets_read_length 2046 ch stream
      simp only [List.length_cons] at h
      rw [ih _ (by omega)]
      exact fgets_read_append _ _

theorem read_lines_fuel (fuel1 fuel2 : Nat) (recipe : List Char)
    (h1 : recipe.length ≤ fuel1) (h2 : recipe.length ≤ fuel2) :
    read_lines fuel1 recipe = read_lines fuel2 recipe := by
  induction fuel1 generalizing fuel2 recipe with
  | zero =>
    have : recipe = [] := List.length_eq_zero.mp (Nat.le_zero.mp h1)
    subst this
    cases fuel2 <;> simp [read_lines, fgets]
  | succ fuel1 ih =>
    cases recipe with
    | nil => cases fuel2 <;> simp [read_lines, fgets]
    | cons ch stream =>
      cases fuel2 with
      | zero => simp at h2
      | succ fuel2 =>
        have hlen : (fgets_read (2048 - 1) (ch :: stream)).2.length ≤ stream.length :=
          fgets_read_length 2046 ch stream
        simp only [List.length_cons] at h1 h2
        simp only [read_lines, fgets, List.cons_ne_nil, if_false, List.cons.injEq, true_and]
        exact ih _ _ (by omega) (by omega)

theorem fgets_read_line_append (room : Nat) (s1 s2 : List Char)
    (h : s1.getLast? = some '\n') :
    fgets_read room (s1 ++ s2) = ((fgets_read room s1).1, (fgets_read room s1).2 ++ s2) := by
  induction s1 generalizing room with
  | nil => simp at h
  | cons ch t ih =>
    cases room with
    | zero => rfl
    | succ room =>
      cases t with
      | nil =>
        simp only [List.getLast?_singleton, Option.some.injEq] at h
        subst h
        simp [fgets_read]
      | cons d t =>
        rw [List.getLast?_cons_cons] at h
        simp only [List.cons_append, fgets_read]
        split
        · rfl
        · have := ih room h
          simp only [List.append_eq, List.cons_append] at this ⊢
          rw [this]

theorem fgets_read_rest_line (room : Nat) (s1 : List Char) (h : s1.getLast? = some '\n') :
    (fgets_read room s1).2 = [] ∨ (fgets_read room s1).2.getLast? = some '\n' := by
  by_cases hr : (fgets_read room s1).2 = []
  · exact Or.inl hr
  · right
    have happ := fgets_read_append room s1
    rw [← happ, List.getLast?_append_of_ne_nil _ hr] at h
    exact h

theorem read_lines_line_append (s1 s2 : List Char)
    (h : s1 = [] ∨ s1.getLast? = some '\n') :
    read_lines (s1 ++ s2).length (s1 ++ s2) =
      read_lines s1.length s1 ++ read_lines s2.length s2 := by
  obtain ⟨n, hn⟩ : ∃ n, s1.length = n := ⟨_, rfl⟩
  induction n using Nat.strong_induction_on generalizing s1 with
  | _ n ih =>
    cases s1 with
    | nil => simp [read_lines]
    | cons ch t =>
      have hlast : (ch :: t).getLast? = some '\n' := by
        rcases h with h | h
        · simp at h
        · exact h
      have hlen : (fgets_read (2048 - 1) (ch :: t)).2.length ≤ t.length :=
        fgets_read_length 2046 ch t
      have hrest := fgets_read_rest_line (2048 - 1) (ch :: t) hlast
      simp only [List.length_cons] at hn
      have e1 : read_lines ((ch :: t) ++ s2).length ((ch :: t) ++ s2) =
          (fgets_read (2048 - 1) (ch :: t)).1 ::
            read_lines (t ++ s2).length ((fgets_read (2048 - 1) (ch :: t)).2 ++ s2) := by
        rw [show ((ch :: t) ++ s2).length = (t ++ s2).length + 1 by simp]
        simp only [read_lines, fgets]
        rw [fgets_read_line_append _ _ _ hlast]
        simp
      have e2 : read_lines (ch :: t).length (ch :: t) =
          (fgets_read (2048 - 1) (ch :: t)).1 ::
            read_lines t.length (fgets_read (2048 - 1) (ch :: t)).2 := by
        simp [read_lines, fgets]
      rw [e1, e2, List.cons_append]
      congr 1
      rw [read_lines_fuel (t ++ s2).length
        ((fgets_read (2048 - 1) (ch :: t)).2 ++ s2).length _
        (by simp only [List.length_append]; omega) (le_refl _)]
      rw [ih _ (by omega) _ hrest rfl]
      congr 1
      exact read_lines_fuel _ _ _ (le_refl _) hlen

theorem read_lines_mem (fuel : Nat) (recipe b : List Char) (h : recipe.length ≤ fuel)
    (hb : b ∈ read_lines fuel recipe) : ∀ ch ∈ b, ch ∈ recipe := by
  intro ch hch
  have := read_lines_flatten fuel recipe h
  rw [← this]
  exact List.mem_flatten.mpr ⟨b, hb, hch⟩

theorem fgets_read_text_line (room : Nat) (body : List Char) (h : '\n' ∉ body)
    (hlen : body.length + 1 ≤ room) :
    fgets_read room (body ++ ['\n']) = (body ++ ['\n'], []) := by
  induction body generalizing room with
  | nil =>
    cases room with
    | zero => simp at hlen
    | succ room => simp [fgets_read]
  | cons ch body ih =>
    cases room with
    | zero => simp at hlen
    | succ room =>
      simp only [List.mem_cons, not_or] at h
      simp only [List.length_cons, Nat.add_le_add_iff_right] at hlen
      have hne : ch ≠ '\n' := fun e => h.1 e.symm
      simp only [List.cons_append, fgets_read, hne, if_false, List.append_eq]
      rw [ih room h.2 hlen]

theorem read_lines_nil (fuel : Nat) : read_lines fuel [] = [] := by
  cases fuel <;> simp [read_lines, fgets]

/-- A stream made of lines that end with their newline and fit into the buffer is read
back line by line. -/
theorem read_lines_text_lines (ls : List (List Char))
    (h : ∀ l ∈ ls, l.length ≤ 2047 ∧ ∃ body, l = body ++ ['\n'] ∧ '\n' ∉ body) :
    read_lines ls.flatten.length ls.flatten = ls := by
  induction ls with
  | nil => rfl
  | cons l ls ih =>
    obtain ⟨hlen, body, rfl, hbody⟩ := h l (by simp)
    rw [List.flatten_cons, read_lines_line_append _ _ (Or.inr (by simp)),
      ih (fun x hx => h x (by simp [hx]))]
    have hone : read_lines (body ++ ['\n']).length (body ++ ['\n']) = [body ++ ['\n']] := by
      simp only [List.length_append, List.length_singleton] at hlen ⊢
      have hne : body ++ ['\n'] ≠ [] := by simp
      simp only [read_lines, fgets, hne, if_false]
      rw [fgets_read_text_line _ _ hbody (by omega), read_lines_nil]
    rw [hone]
    rfl

/-- On such a stream `emit_recipe` is `emit_lines` of its lines. -/
theorem emit_recipe_text_lines (ls : List (List Char))
    (h : ∀ l ∈ ls, l.length ≤ 2047 ∧ ∃ body, l = body ++ ['\n'] ∧ '\n' ∉ body) :
    emit_recipe ls.flatten = emit_lines ls := by
  unfold emit_recipe
  rw [read_lines_text_lines ls h]

/-! ## The loop body -/

theorem process_line_skip {linebuf : List Char} (h : trimmed_line linebuf = [])
    (c : emit_ctx) : process_line linebuf c = some c := by
  unfold trimmed_line at h
  simp [process_line, h]

theorem line_char_none_iff (linebuf : List Char) :
    line_char linebuf = none ↔ trimmed_line linebuf = [] := by
  simp [line_char, List.head?_eq_none_iff]

theorem line_char_some_iff (linebuf : List Char) (ch : Char) :
    line_char linebuf = some ch ↔ ∃ tl, trimmed_line linebuf = ch :: tl := by
  unfold line_char
  cases trimmed_line linebuf <;> simp

/-- No character satisfying `is_ws` is the terminator. -/
theorem c_str_of_ws {b : List Char} (h : ∀ ch ∈ b, is_ws ch = true) : c_str b = b := by
  unfold c_str
  rw [List.takeWhile_eq_self_iff]
  intro ch hch
  have := h ch hch
  by_contra hne
  simp at hne
  subst hne
  simp [is_ws] at this

theorem trim_of_ws {b : List Char} (h : ∀ ch ∈ b, is_ws ch = true) : trim b = [] := by
  have h1 : trim_right b is_ws = [] := by
    simp only [trim_right, List.reverse_eq_nil_iff, List.dropWhile_eq_nil_iff]
    intro ch hch
    exact h ch (List.mem_reverse.mp hch)
  simp [trim, h1, trim_left]

/-- A buffer that holds whitespace only is skipped by the loop. -/
theorem trimmed_line_of_ws {b : List Char} (h : ∀ ch ∈ b, is_ws ch = true) :
    trimmed_line b = [] := by
  unfold trimmed_line
  rw [c_str_of_ws h]
  exact trim_of_ws h

/-! ## The loop -/

theorem run_lines_append (xs ys : List (List Char)) (c : emit_ctx) :
    run_lines (xs ++ ys) c = (run_lines xs c).bind (run_lines ys) := by
  induction xs generalizing c with
  | nil => simp [run_lines]
  | cons x xs ih =>
    simp only [List.cons_append, run_lines]
    cases process_line x c with
    | none => simp
    | some c1 => simpa using ih c1

theorem loop_append_some {xs : List (List Char)} {c c1 : emit_ctx}
    (h : run_lines xs c = some c1) (ys : List (List Char)) :
    emit_recipe_loop (xs ++ ys) c = emit_recipe_loop ys c1 := by
  induction xs generalizing c with
  | nil => simp [run_lines] at h; simp [h]
  | cons x xs ih =>
    simp only [run_lines] at h
    simp only [List.cons_append, emit_recipe_loop]
    cases hp : process_line x c with
    | none => simp [hp] at h
    | some c2 =>
      simp only [hp] at h
      exact ih h

theorem loop_fails_of_line {linebuf : List Char} {c : emit_ctx}
    (h : process_line linebuf c = none) (more : List (List Char)) :
    emit_recipe_loop (linebuf :: more) c = (false, c.html) := by
  simp [emit_recipe_loop, h]

theorem loop_fails_of_run {xs : List (List Char)} {c : emit_ctx}
    (h : run_lines xs c = none) (ys : List (List Char)) :
    (emit_recipe_loop (xs ++ ys) c).1 = false := by
  induction xs generalizing c with
  | nil => simp [run_lines] at h
  | cons x xs ih =>
    simp only [run_lines] at h
    simp only [List.cons_append, emit_recipe_loop]
    cases hp : process_line x c with
    | none => rfl
    | some c2 =>
      simp only [hp] at h
      exact ih h

theorem loop_of_run_some {xs : List (List Char)} {c c1 : emit_ctx}
    (h : run_lines xs c = some c1) :
    emit_recipe_loop xs c = emit_recipe_finish c1 := by
  have := loop_append_some h []
  simpa [emit_recipe_loop] using this

theorem loop_true_iff (xs : List (List Char)) (c : emit_ctx) :
    (emit_recipe_loop xs c).1 = true ↔ ∃ c1, run_lines xs c = some c1 := by
  cases h : run_lines xs c with
  | none =>
    have := loop_fails_of_run h []
    simp at this
    simp [this]
  | some c1 =>
    rw [loop_of_run_some h]
    simp [emit_recipe_finish]

theorem run_lines_skip {bs : List (List Char)} (h : ∀ b ∈ bs, trimmed_line b = [])
    (c : emit_ctx) : run_lines bs c = some c := by
  induction bs with
  | nil => rfl
  | cons b bs ih =>
    have hb : trimmed_line b = [] := h b (by simp)
    simp only [run_lines, process_line_skip hb]
    exact ih (fun x hx => h x (by simp [hx]))

theorem process_line_title {linebuf : List Char} {tl : List Char}
    (h : trimmed_line linebuf = '#' :: tl) (c : emit_ctx) :
    process_line linebuf c =
      if c.state ≠ RECIPE_LOADED then none
      else some { c with
        state := RECIPE_TITLE
        html := emit_body_title (emit_head c.html (trim tl)) (trim tl) } := by
  unfold trimmed_line at h
  simp [process_line, h]

theorem process_line_quote {linebuf : List Char} {tl : List Char}
    (h : trimmed_line linebuf = '>' :: tl) (c : emit_ctx) :
    process_line linebuf c =
      if c.state = RECIPE_TITLE ∨ c.state = RECIPE_IMAGE then
        some { c with
          state := RECIPE_SUBTITLE
          html := emit_body_subtitle c.html (trim tl) }
      else if c.state = RECIPE_STEP ∧ c.step_started = true then
        some { state := RECIPE_INFO
               html := emit_body_info c.html (trim tl) c.color_index
               color_index := (c.color_index + 1) % 4
               step_started := false }
      else none := by
  unfold trimmed_line at h
  simp [process_line, h]

theorem process_line_image {linebuf : List Char} {tl : List Char}
    (h : trimmed_line linebuf = '[' :: tl) (c : emit_ctx) :
    process_line linebuf c =
      if c.state ≠ RECIPE_TITLE then none
      else some { c with
        state := RECIPE_IMAGE
        html := emit_body_img c.html (trim_right (trim tl) is_right_bracket) } := by
  unfold trimmed_line at h
  simp [process_line, h]

theorem process_line_step {linebuf : List Char} {tl : List Char}
    (h : trimmed_line linebuf = '*' :: tl) (c : emit_ctx) :
    process_line linebuf c =
      if c.state = RECIPE_LOADED then none
      else some { c with
        state := RECIPE_STEP
        html := emit_body_step c.html (trim tl) c.step_started
        step_started := true } := by
  unfold trimmed_line at h
  simp [process_line, h]

theorem process_line_text {linebuf : List Char} {ch : Char} {tl : List Char}
    (h : trimmed_line linebuf = ch :: tl)
    (h1 : ch ≠ '#') (h2 : ch ≠ '>') (h3 : ch ≠ '[') (h4 : ch ≠ '*') (c : emit_ctx) :
    process_line linebuf c =
      if c.state ≠ RECIPE_TITLE ∧ c.state ≠ RECIPE_SUBTITLE ∧ c.state ≠ RECIPE_DESCRIPTION
      then none
      else some { c with
        state := RECIPE_DESCRIPTION
        html := emit_body_description c.html (ch :: trim_right tl is_ws) } := by
  unfold trimmed_line at h
  simp [process_line, h, h1, h2, h3, h4]

theorem process_line_loaded {linebuf : List Char} {ch : Char} {tl : List Char}
    (h : trimmed_line linebuf = ch :: tl) (hch : ch ≠ '#') {c : emit_ctx}
    (hs : c.state = RECIPE_LOADED) : process_line linebuf c = none := by
  by_cases e2 : ch = '>'
  · subst e2
    simp [process_line_quote h, hs]
  by_cases e3 : ch = '['
  · subst e3
    simp [process_line_image h, hs]
  by_cases e4 : ch = '*'
  · subst e4
    simp [process_line_step h, hs]
  · simp [process_line_text h hch e2 e3 e4, hs]

/-- C1: for every state, step-list flag and buffer whose trimmed line is `ch :: tl`, the loop
body accepts the line in exactly six cases and moves to the state of that case
(`#` in Loaded to Title; `>` in Title or Image to Subtitle; `>` in Step with the step list
open to Info; `[` in Title to Image; `*` outside Loaded to Step; any other character in
Title, Subtitle or Description to Description); in every other combination the loop body
returns false, and so does `emit_recipe`, whatever lines follow. -/
theorem process_line_transitions (c : emit_ctx) (linebuf : List Char) (ch : Char)
    (tl : List Char) (h : trimmed_line linebuf = ch :: tl) :
    (ch = '#' → c.state = RECIPE_LOADED →
      ∃ c1, process_line linebuf c = some c1 ∧ c1.state = RECIPE_TITLE) ∧
    (ch = '>' → (c.state = RECIPE_TITLE ∨ c.state = RECIPE_IMAGE) →
      ∃ c1, process_line linebuf c = some c1 ∧ c1.state = RECIPE_SUBTITLE) ∧
    (ch = '>' → c.state = RECIPE_STEP → c.step_started = true →
      ∃ c1, process_line linebuf c = some c1 ∧ c1.state = RECIPE_INFO) ∧
    (ch = '[' → c.state = RECIPE_TITLE →
      ∃ c1, process_line linebuf c = some c1 ∧ c1.state = RECIPE_IMAGE) ∧
    (ch = '*' → c.state ≠ RECIPE_LOADED →
      ∃ c1, process_line linebuf c = some c1 ∧ c1.state = RECIPE_STEP) ∧
    (ch ≠ '#' → ch ≠ '>' → ch ≠ '[' → ch ≠ '*' →
      (c.state = RECIPE_TITLE ∨ c.state = RECIPE_SUBTITLE ∨ c.state = RECIPE_DESCRIPTION) →
      ∃ c1, process_line linebuf c = some c1 ∧ c1.state = RECIPE_DESCRIPTION) ∧
    (¬ ((ch = '#' ∧ c.state = RECIPE_LOADED) ∨
        (ch = '>' ∧ (c.state = RECIPE_TITLE ∨ c.state = RECIPE_IMAGE)) ∨
        (ch = '>' ∧ c.state = RECIPE_STEP ∧ c.step_started = true) ∨
        (ch = '[' ∧ c.state = RECIPE_TITLE) ∨
        (ch = '*' ∧ c.state ≠ RECIPE_LOADED) ∨
        (ch ≠ '#' ∧ ch ≠ '>' ∧ ch ≠ '[' ∧ ch ≠ '*' ∧
          (c.state = RECIPE_TITLE ∨ c.state = RECIPE_SUBTITLE ∨
            c.state = RECIPE_DESCRIPTION))) →
      process_line linebuf c = none ∧
      (∀ more, (emit_recipe_loop (linebuf :: more) c).1 = false) ∧
      (∀ pre more, run_lines pre emit_recipe_init = some c →
        (emit_lines (pre ++ linebuf :: more)).1 = false)) := by
  refine ⟨?_, ?_, ?_, ?_, ?_, ?_, ?_⟩
  · rintro rfl hs
    simp [process_line_title h, hs]
  · rintro rfl hs
    rw [process_line_quote h, if_pos hs]
    exact ⟨_, rfl, rfl⟩
  · rintro rfl hs hb
    simp [process_line_quote h, hs, hb]
  · rintro rfl hs
    simp [process_line_image h, hs]
  · rintro rfl hs
    simp [process_line_step h, hs]
  · intro h1 h2 h3 h4 hs
    rw [process_line_text h h1 h2 h3 h4]
    rcases hs with hs | hs | hs <;> simp [hs]
  · intro hno
    have hp : process_line linebuf c = none := by
      simp only [not_or, not_and] at hno
      obtain ⟨n1, n2, n3, n4, n5, n6⟩ := hno
      by_cases e1 : ch = '#'
      · subst e1
        simp [process_line_title h, n1]
      by_cases e2 : ch = '>'
      · subst e2
        have m2 := n2 rfl
        have m3 := n3 rfl
        rw [process_line_quote h, if_neg (fun hc => hc.elim m2.1 m2.2),
          if_neg (fun hc => m3 hc.1 hc.2)]
      by_cases e3 : ch = '['
      · subst e3
        simp [process_line_image h, n4]
      by_cases e4 : ch = '*'
      · subst e4
        have m5 := n5 rfl
        simp only [ne_eq, not_not] at m5
        simp [process_line_step h, m5]
      · have m6 := n6 e1 e2 e3 e4
        rw [process_line_text h e1 e2 e3 e4, if_pos]
        simpa [not_or] using m6
    refine ⟨hp, ?_, ?_⟩
    · intro more
      rw [loop_fails_of_line hp]
    · intro pre more hrun
      unfold emit_lines
      rw [loop_append_some hrun, loop_fails_of_line hp]

theorem process_line_transitions_witness :
    trimmed_line "# Tea\n".toList = '#' :: " Tea".toList ∧
    (∃ c1, process_line "# Tea\n".toList emit_recipe_init = some c1 ∧
      c1.state = RECIPE_TITLE) ∧
    trimmed_line "> Sub2\n".toList = '>' :: " Sub2".toList ∧
    process_line "> Sub2\n".toList
      { state := RECIPE_SUBTITLE, step_started := false, color_index := 0, html := [] } = none :=
  ⟨by decide,
   (process_line_transitions emit_recipe_init "# Tea\n".toList '#' " Tea".toList
      (by decide)).1 rfl rfl,
   by decide,
   ((process_line_transitions
      { state := RECIPE_SUBTITLE, step_started := false, color_index := 0, html := [] }
      "> Sub2\n".toList '>' " Sub2".toList (by decide)).2.2.2.2.2.2 (by decide)).1⟩

/-! ## What the state records about the lines read so far -/

theorem line_chars_append (xs ys : List (List Char)) :
    line_chars (xs ++ ys) = line_chars xs ++ line_chars ys := by
  simp [line_chars]

theorem last_line_char_snoc_skip {l : List Char} (h : line_char l = none)
    (xs : List (List Char)) : last_line_char (xs ++ [l]) = last_line_char xs := by
  simp [last_line_char, line_chars, List.filterMap_append, h]

theorem last_line_char_snoc {l : List Char} {ch : Char} (h : line_char l = some ch)
    (xs : List (List Char)) : last_line_char (xs ++ [l]) = some ch := by
  simp [last_line_char, line_chars, List.filterMap_append, h]

theorem last_line_char_append_skip {bs : List (List Char)} (h : ∀ b ∈ bs, line_char b = none)
    (xs : List (List Char)) : last_line_char (xs ++ bs) = last_line_char xs := by
  have : line_chars bs = [] := by
    simp only [line_chars, List.filterMap_eq_nil_iff]
    exact h
  simp [last_line_char, line_chars_append, this]

theorem run_lines_snoc (xs : List (List Char)) (l : List Char) (c : emit_ctx) :
    run_lines (xs ++ [l]) c = (run_lines xs c).bind (process_line l) := by
  rw [run_lines_append]
  cases run_lines xs c with
  | none => rfl
  | some c1 =>
    show run_lines [l] c1 = process_line l c1
    simp only [run_lines]
    cases process_line l c1 <;> rfl

/-- The step list is open only in state Step, and the state is the one that the first
character of the last line read (skipped lines apart) leads to. -/
theorem run_lines_state {xs : List (List Char)} {c : emit_ctx}
    (h : run_lines xs emit_recipe_init = some c) :
    (c.step_started = true ↔ c.state = RECIPE_STEP) ∧
    (last_line_char xs = none → c.state = RECIPE_LOADED) ∧
    (last_line_char xs = some '#' → c.state = RECIPE_TITLE) ∧
    (last_line_char xs = some '>' → c.state = RECIPE_SUBTITLE ∨ c.state = RECIPE_INFO) ∧
    (last_line_char xs = some '[' → c.state = RECIPE_IMAGE) ∧
    (last_line_char xs = some '*' → c.state = RECIPE_STEP) ∧
    (∀ ch, last_line_char xs = some ch → ch ≠ '#' → ch ≠ '>' → ch ≠ '[' → ch ≠ '*' →
      c.state = RECIPE_DESCRIPTION) := by
  induction xs using List.reverseRecOn generalizing c with
  | nil =>
    simp only [run_lines, Option.some.injEq] at h
    subst h
    simp [emit_recipe_init, last_line_char, line_chars]
  | append_singleton xs l ih =>
    rw [run_lines_snoc] at h
    cases h0 : run_lines xs emit_recipe_init with
    | none => simp [h0] at h
    | some c0 =>
      rw [h0] at h
      change process_line l c0 = some c at h
      have ih0 := ih h0
      cases hl : line_char l with
      | none =>
        rw [process_line_skip ((line_char_none_iff l).mp hl)] at h
        simp only [Option.some.injEq] at h
        subst h
        rw [last_line_char_snoc_skip hl]
        exact ih0
      | some ch =>
        obtain ⟨tl, htl⟩ := (line_char_some_iff l ch).mp hl
        rw [last_line_char_snoc hl]
        obtain ⟨i1, -⟩ := ih0
        by_cases e1 : ch = '#'
        · subst e1
          rw [process_line_title htl] at h
          split at h
          · simp at h
          · simp only [Option.some.injEq] at h
            subst h
            simp_all
        by_cases e2 : ch = '>'
        · subst e2
          rw [process_line_quote htl] at h
          split at h
          · simp only [Option.some.injEq] at h
            subst h
            rename_i hs
            rcases hs with hs | hs <;> simp_all
          · split at h
            · simp only [Option.some.injEq] at h
              subst h
              simp
            · simp at h
        by_cases e3 : ch = '['
        · subst e3
          rw [process_line_image htl] at h
          split at h
          · simp at h
          · simp only [Option.some.injEq] at h
            subst h
            simp_all
        by_cases e4 : ch = '*'
        · subst e4
          rw [process_line_step htl] at h
          split at h
          · simp at h
          · simp only [Option.some.injEq] at h
            subst h
            simp
        · rw [process_line_text htl e1 e2 e3 e4] at h
          split at h
          · simp at h
          · simp only [Option.some.injEq] at h
            subst h
            rename_i hs
            have hs1 : c0.state ≠ RECIPE_STEP := by
              intro hc
              simp [hc] at hs
            have : c0.step_started ≠ true := fun hb => hs1 (i1.mp hb)
            simp_all

/-- C2: when the first line that is not skipped (the lines `pre` before it all trim to the
empty string) has a trimmed text starting with a character other than `#`, `emit_recipe`
returns false, whatever lines follow. -/
theorem emit_fails_without_title (pre post : List (List Char)) (linebuf : List Char)
    (ch : Char) (hpre : ∀ b ∈ pre, line_char b = none) (h : line_char linebuf = some ch)
    (hch : ch ≠ '#') :
    (emit_lines (pre ++ linebuf :: post)).1 = false := by
  have hrun : run_lines pre emit_recipe_init = some emit_recipe_init :=
    run_lines_skip (fun b hb => (line_char_none_iff b).mp (hpre b hb)) _
  obtain ⟨tl, htl⟩ := (line_char_some_iff linebuf ch).mp h
  have hp : process_line linebuf emit_recipe_init = none :=
    process_line_loaded htl hch rfl
  unfold emit_lines
  rw [loop_append_some hrun, loop_fails_of_line hp]

/-- C2, the instance of the claim: the stream `* Step one` followed by a newline is read as
one buffer, a step line in state Loaded, and `emit_recipe` returns false. -/
theorem emit_fails_without_title_witness :
    read_lines 11 "* Step one\n".toList = [] ++ "* Step one\n".toList :: [] ∧
    line_char "* Step one\n".toList = some '*' ∧
    (emit_recipe "* Step one\n".toList).1 = false :=
  ⟨by decide, by decide,
   emit_fails_without_title [] [] "* Step one\n".toList '*' (by simp) (by decide) (by decide)⟩

/-- On the buffers that `fgets` returns, taken as the lines:
when two lines whose trimmed texts start with `>` have only lines of whitespace
characters (or nothing) between them, `emit_recipe` returns false, whatever comes before
and after. -/
theorem emit_fails_two_quotes (pre blanks post : List (List Char)) (q1 q2 : List Char)
    (h1 : line_char q1 = some '>') (hb : ∀ b ∈ blanks, ∀ ch ∈ b, is_ws ch = true)
    (h2 : line_char q2 = some '>') :
    (emit_lines (pre ++ q1 :: (blanks ++ q2 :: post))).1 = false := by
  have hb1 : ∀ b ∈ blanks, line_char b = none := fun b hm =>
    (line_char_none_iff b).mpr (trimmed_line_of_ws (hb b hm))
  have hsplit : pre ++ q1 :: (blanks ++ q2 :: post) = ((pre ++ [q1]) ++ blanks) ++ q2 :: post := by
    simp
  rw [hsplit]
  unfold emit_lines
  cases hrun : run_lines ((pre ++ [q1]) ++ blanks) emit_recipe_init with
  | none => exact loop_fails_of_run hrun _
  | some c =>
    rw [loop_append_some hrun]
    obtain ⟨tl, htl⟩ := (line_char_some_iff q2 _).mp h2
    have hlast : last_line_char ((pre ++ [q1]) ++ blanks) = some '>' := by
      rw [last_line_char_append_skip hb1, last_line_char_snoc h1]
    obtain ⟨i1, -, -, i2, -⟩ := run_lines_state hrun
    have hp : process_line q2 c = none := by
      rw [process_line_quote htl]
      rcases i2 hlast with hs | hs <;> simp [hs]
    rw [loop_fails_of_line hp]

/-- An instance on a stream: the stream of the three lines `# Title`, `> Sub1`,
`> Sub2` is read as three buffers and `emit_recipe` returns false. -/
theorem emit_fails_two_quotes_witness :
    read_lines 23 "# Title\n> Sub1\n> Sub2\n".toList =
      ["# Title\n".toList] ++ "> Sub1\n".toList :: ([] ++ "> Sub2\n".toList :: []) ∧
    (emit_recipe "# Title\n> Sub1\n> Sub2\n".toList).1 = false :=
  ⟨by decide,
   emit_fails_two_quotes ["# Title\n".toList] [] [] "> Sub1\n".toList "> Sub2\n".toList
    (by decide) (by simp) (by decide)⟩

theorem loop_skip_insert (xs ys : List (List Char)) (b : List Char)
    (hb : trimmed_line b = []) (c : emit_ctx) :
    emit_recipe_loop (xs ++ b :: ys) c = emit_recipe_loop (xs ++ ys) c := by
  induction xs generalizing c with
  | nil => simp [emit_recipe_loop, process_line_skip hb]
  | cons x xs ih =>
    simp only [List.cons_append, emit_recipe_loop]
    cases process_line x c with
    | none => rfl
    | some c1 => exact ih c1

theorem loop_skip_insert_many (xs bs ys : List (List Char))
    (hb : ∀ b ∈ bs, trimmed_line b = []) (c : emit_ctx) :
    emit_recipe_loop (xs ++ (bs ++ ys)) c = emit_recipe_loop (xs ++ ys) c := by
  induction bs with
  | nil => rfl
  | cons b bs ih =>
    rw [List.cons_append, loop_skip_insert xs (bs ++ ys) b (hb b (by simp))]
    exact ih (fun x hx => hb x (by simp [hx]))

/-- C5: a line `b` that holds only whitespace characters (or nothing), put anywhere into the
sequence of lines read, changes neither the boolean that `emit_recipe` returns nor the text
it writes; the same holds on the stream, when `b` ends with its newline and is put at the
start of the stream or right behind a newline. -/
theorem emit_blank_line_insert (b : List Char) (hb : ∀ ch ∈ b, is_ws ch = true) :
    (∀ xs ys : List (List Char), emit_lines (xs ++ b :: ys) = emit_lines (xs ++ ys)) ∧
    (∀ s1 s2 : List Char, (s1 = [] ∨ s1.getLast? = some '\n') → b.getLast? = some '\n' →
      emit_recipe (s1 ++ (b ++ s2)) = emit_recipe (s1 ++ s2)) := by
  constructor
  · intro xs ys
    exact loop_skip_insert xs ys b (trimmed_line_of_ws hb) emit_recipe_init
  · intro s1 s2 h1 hnl
    unfold emit_recipe emit_lines
    rw [read_lines_line_append s1 (b ++ s2) h1, read_lines_line_append b s2 (Or.inr hnl),
      read_lines_line_append s1 s2 h1]
    apply loop_skip_insert_many
    intro x hx
    apply trimmed_line_of_ws
    intro ch hch
    exact hb ch (read_lines_mem _ _ _ (le_refl _) hx ch hch)

theorem emit_blank_line_insert_witness :
    (∀ ch ∈ " \t\r\n".toList, is_ws ch = true) ∧
    emit_lines (["# Tea\n".toList] ++ " \t\r\n".toList :: ["* Add tea\n".toList]) =
      emit_lines (["# Tea\n".toList] ++ ["* Add tea\n".toList]) ∧
    emit_recipe ("# Tea\n".toList ++ (" \t\r\n".toList ++ "* Add tea\n".toList)) =
      emit_recipe ("# Tea\n".toList ++ "* Add tea\n".toList) :=
  ⟨by decide,
   (emit_blank_line_insert " \t\r\n".toList (by decide)).1 _ _,
   (emit_blank_line_insert " \t\r\n".toList (by decide)).2 _ _ (Or.inr (by decide))
     (by decide)⟩

/-! ## What the loop body writes -/

/-- Every way in which the loop body can accept a buffer, with the locals it leaves. -/
theorem process_line_some {linebuf : List Char} {c c1 : emit_ctx}
    (h : process_line linebuf c = some c1) :
    (line_char linebuf = none ∧ c1 = c) ∨
    (line_char linebuf = some '#' ∧ c.state = RECIPE_LOADED ∧
      c1 = { c with
        state := RECIPE_TITLE
        html := emit_body_title (emit_head c.html (rest_line linebuf)) (rest_line linebuf) }) ∨
    (line_char linebuf = some '>' ∧ (c.state = RECIPE_TITLE ∨ c.state = RECIPE_IMAGE) ∧
      c1 = { c with
        state := RECIPE_SUBTITLE
        html := emit_body_subtitle c.html (rest_line linebuf) }) ∨
    (line_char linebuf = some '>' ∧ c.state = RECIPE_STEP ∧ c.step_started = true ∧
      c1 = { state := RECIPE_INFO
             html := emit_body_info c.html (rest_line linebuf) c.color_index
             color_index := (c.color_index + 1) % 4
             step_started := false }) ∨
    (line_char linebuf = some '[' ∧ c.state = RECIPE_TITLE ∧
      c1 = { c with
        state := RECIPE_IMAGE
        html := emit_body_img c.html (trim_right (rest_line linebuf) is_right_bracket) }) ∨
    (line_char linebuf = some '*' ∧ c.state ≠ RECIPE_LOADED ∧
      c1 = { c with
        state := RECIPE_STEP
        html := emit_body_step c.html (rest_line linebuf) c.step_started
        step_started := true }) ∨
    (∃ ch tl, trimmed_line linebuf = ch :: tl ∧
      ch ≠ '#' ∧ ch ≠ '>' ∧ ch ≠ '[' ∧ ch ≠ '*' ∧
      (c.state = RECIPE_TITLE ∨ c.state = RECIPE_SUBTITLE ∨ c.state = RECIPE_DESCRIPTION) ∧
      c1 = { c with
        state := RECIPE_DESCRIPTION
        html := emit_body_description c.html (ch :: trim_right tl is_ws) }) := by
  cases hl : line_char linebuf with
  | none =>
    rw [process_line_skip ((line_char_none_iff linebuf).mp hl)] at h
    simp only [Option.some.injEq] at h
    exact Or.inl ⟨rfl, h.symm⟩
  | some ch =>
    obtain ⟨tl, htl⟩ := (line_char_some_iff linebuf ch).mp hl
    have hrest : rest_line linebuf = trim tl := by simp [rest_line, htl]
    right
    by_cases e1 : ch = '#'
    · subst e1
      rw [process_line_title htl] at h
      split at h
      · simp at h
      · rename_i hs
        simp only [ne_eq, not_not] at hs
        simp only [Option.some.injEq] at h
        exact Or.inl ⟨rfl, hs, by rw [hrest]; exact h.symm⟩
    right
    by_cases e2 : ch = '>'
    · subst e2
      rw [process_line_quote htl] at h
      split at h
      · rename_i hs
        simp only [Option.some.injEq] at h
        exact Or.inl ⟨rfl, hs, by rw [hrest]; exact h.symm⟩
      · split at h
        · rename_i hs
          simp only [Option.some.injEq] at h
          exact Or.inr (Or.inl ⟨rfl, hs.1, hs.2, by rw [hrest]; exact h.symm⟩)
        · simp at h
    right; right
    by_cases e3 : ch = '['
    · subst e3
      rw [process_line_image htl] at h
      split at h
      · simp at h
      · rename_i hs
        simp only [ne_eq, not_not] at hs
        simp only [Option.some.injEq] at h
        exact Or.inl ⟨rfl, hs, by rw [hrest]; exact h.symm⟩
    right
    by_cases e4 : ch = '*'
    · subst e4
      rw [process_line_step htl] at h
      split at h
      · simp at h
      · rename_i hs
        simp only [Option.some.injEq] at h
        exact Or.inl ⟨rfl, hs, by rw [hrest]; exact h.symm⟩
    right
    rw [process_line_text htl e1 e2 e3 e4] at h
    split at h
    · simp at h
    · rename_i hs
      simp only [Option.some.injEq] at h
      refine ⟨ch, tl, htl, e1, e2, e3, e4, ?_, h.symm⟩
      by_contra hc
      simp only [not_or] at hc
      exact hs ⟨hc.1, hc.2.1, hc.2.2⟩

theorem emit_body_step_first (html text : List Char) :
    emit_body_step html text false =
      html ++ ("<div class=\"step\"><ul>".toList ++ ("<li>".toList ++ text ++ "</li>".toList)) := by
  simp [emit_body_step, fputs]

theorem emit_body_step_next (html text : List Char) :
    emit_body_step html text true = html ++ ("<li>".toList ++ text ++ "</li>".toList) := by
  simp [emit_body_step]

/-- The loop body only appends to the output. -/
theorem process_line_html {linebuf : List Char} {c c1 : emit_ctx}
    (h : process_line linebuf c = some c1) : ∃ frag, c1.html = c.html ++ frag := by
  rcases process_line_some h with ⟨-, rfl⟩ | ⟨-, -, rfl⟩ | ⟨-, -, rfl⟩ | ⟨-, -, -, rfl⟩ |
    ⟨-, -, rfl⟩ | ⟨-, -, rfl⟩ | ⟨ch, tl, -, -, -, -, -, -, rfl⟩
  · exact ⟨[], by simp⟩
  · exact ⟨_, by simp only [emit_body_title, emit_head, fputs, List.append_assoc]; rfl⟩
  · exact ⟨_, rfl⟩
  · exact ⟨_, by simp only [emit_body_info, fputs, List.append_assoc]; rfl⟩
  · exact ⟨_, rfl⟩
  · show ∃ frag, emit_body_step c.html (rest_line linebuf) c.step_started = c.html ++ frag
    cases c.step_started
    · exact ⟨_, emit_body_step_first _ _⟩
    · exact ⟨_, emit_body_step_next _ _⟩
  · exact ⟨_, rfl⟩

theorem run_lines_html {xs : List (List Char)} {c c1 : emit_ctx}
    (h : run_lines xs c = some c1) : ∃ frags, c1.html = c.html ++ frags := by
  induction xs generalizing c with
  | nil =>
    simp only [run_lines, Option.some.injEq] at h
    subst h
    exact ⟨[], by simp⟩
  | cons x xs ih =>
    simp only [run_lines] at h
    cases hp : process_line x c with
    | none => simp [hp] at h
    | some c2 =>
      simp only [hp] at h
      obtain ⟨f1, hf1⟩ := process_line_html hp
      obtain ⟨f2, hf2⟩ := ih h
      exact ⟨f1 ++ f2, by rw [hf2, hf1, List.append_assoc]⟩


theorem run_lines_state_iff {xs : List (List Char)} {c : emit_ctx}
    (h : run_lines xs emit_recipe_init = some c) :
    (c.state = RECIPE_STEP ↔ last_line_char xs = some '*') ∧
    (c.state = RECIPE_TITLE ↔ last_line_char xs = some '#') ∧
    (c.state = RECIPE_LOADED ↔ last_line_char xs = none) := by
  obtain ⟨-, i0, i1, i2, i3, i4, i5⟩ := run_lines_state h
  cases hl : last_line_char xs with
  | none => simp [i0 hl]
  | some d =>
    by_cases e1 : d = '#'
    · subst e1
      simp [i1 hl]
    by_cases e2 : d = '>'
    · subst e2
      rcases i2 hl with hs | hs <;> simp [hs]
    by_cases e3 : d = '['
    · subst e3
      simp [i3 hl]
    by_cases e4 : d = '*'
    · subst e4
      simp [i4 hl]
    · simp [i5 d hl e1 e2 e3 e4, e1, e4]

/-! ## The colour index -/

theorem process_line_color {linebuf : List Char} {c c1 : emit_ctx}
    (h : process_line linebuf c = some c1) :
    c1.color_index =
      if is_info_line linebuf c then (c.color_index + 1) % 4 else c.color_index := by
  rcases process_line_some h with ⟨hl, rfl⟩ | ⟨hl, hs, rfl⟩ | ⟨hl, hs, rfl⟩ |
    ⟨hl, hs, hb, rfl⟩ | ⟨hl, hs, rfl⟩ | ⟨hl, hs, rfl⟩ | ⟨ch, tl, hl, h1, h2, h3, h4, hs, rfl⟩
  · simp [is_info_line, hl]
  · simp [is_info_line, hl]
  · rcases hs with hs | hs <;> simp [is_info_line, hs]
  · simp [is_info_line, hl, hs, hb]
  · simp [is_info_line, hl]
  · simp [is_info_line, hl]
  · have : line_char linebuf = some ch := (line_char_some_iff _ _).mpr ⟨tl, hl⟩
    simp [is_info_line, this, h2]

theorem run_lines_color {xs : List (List Char)} {c c1 : emit_ctx}
    (h : run_lines xs c = some c1) (hc : c.color_index < 4) :
    c1.color_index = (c.color_index + info_count xs c) % 4 := by
  induction xs generalizing c with
  | nil =>
    simp only [run_lines, Option.some.injEq] at h
    subst h
    simp [info_count, Nat.mod_eq_of_lt hc]
  | cons x xs ih =>
    simp only [run_lines, info_count] at h ⊢
    cases hp : process_line x c with
    | none => simp [hp] at h
    | some c2 =>
      simp only [hp] at h ⊢
      have hcol := process_line_color hp
      have hc2 : c2.color_index < 4 := by
        rw [hcol]
        split
        · exact Nat.mod_lt _ (by decide)
        · exact hc
      rw [ih h hc2, hcol]
      split <;> omega

theorem info_count_snoc {xs : List (List Char)} {c c1 : emit_ctx}
    (h : run_lines xs c = some c1) (l : List Char) (hl : process_line l c1 ≠ none) :
    info_count (xs ++ [l]) c = info_count xs c + (if is_info_line l c1 then 1 else 0) := by
  induction xs generalizing c with
  | nil =>
    simp only [run_lines, Option.some.injEq] at h
    subst h
    simp only [List.nil_append, info_count]
    cases hp : process_line l c with
    | none => exact absurd hp hl
    | some c2 => simp
  | cons x xs ih =>
    simp only [run_lines] at h
    simp only [List.cons_append, info_count]
    cases hp : process_line x c with
    | none => simp [hp] at h
    | some c2 =>
      simp only [hp] at h ⊢
      have := ih h
      simp only [List.append_eq] at this ⊢
      rw [this, Nat.add_assoc]

/-- On the buffers that `fgets` returns, taken as the lines:
when the lines `pre` have been processed without violation and the next line is
accepted as an info line, with `k` info lines accepted before it, the colour index at that
point is `k mod 4` and the line is written as
`</ul><div class="info c(k mod 4)">text</div></div>`; it is the info line number `k`
(counting from 0) however many other lines were read. -/
theorem info_line_colour (pre : List (List Char)) (linebuf : List Char) (c : emit_ctx)
    (hrun : run_lines pre emit_recipe_init = some c)
    (hinfo : is_info_line linebuf c = true) :
    c.color_index = info_count pre emit_recipe_init % 4 ∧
    info_count (pre ++ [linebuf]) emit_recipe_init = info_count pre emit_recipe_init + 1 ∧
    ∃ c1, process_line linebuf c = some c1 ∧
      c1.state = RECIPE_INFO ∧
      c1.html = c.html ++ ("</ul>".toList ++ ("<div class=\"info c".toList ++
        (Nat.repr (info_count pre emit_recipe_init % 4)).toList ++ "\">".toList ++
        rest_line linebuf ++ "</div>".toList) ++ "</div>".toList) := by
  have hcol : c.color_index = info_count pre emit_recipe_init % 4 := by
    have := run_lines_color hrun (by decide)
    simpa [emit_recipe_init] using this
  simp only [is_info_line, decide_eq_true_eq] at hinfo
  obtain ⟨hl, hs, hb⟩ := hinfo
  obtain ⟨tl, htl⟩ := (line_char_some_iff _ _).mp hl
  have hp : process_line linebuf c = some
      { state := RECIPE_INFO
        html := emit_body_info c.html (trim tl) c.color_index
        color_index := (c.color_index + 1) % 4
        step_started := false } := by
    simp [process_line_quote htl, hs, hb]
  refine ⟨hcol, ?_, _, hp, rfl, ?_⟩
  · rw [info_count_snoc hrun linebuf (by simp [hp])]
    simp [is_info_line, hl, hs, hb]
  · simp [emit_body_info, fputs, rest_line, htl, hcol]

theorem info_line_colour_witness :
    ∃ c, run_lines ["# T\n".toList, "* a\n".toList, "> n1\n".toList, "* b\n".toList]
        emit_recipe_init = some c ∧
      is_info_line "> n2\n".toList c = true ∧
      c.color_index = 1 :=
  ⟨_, rfl, by decide,
   (info_line_colour ["# T\n".toList, "* a\n".toList, "> n1\n".toList, "* b\n".toList]
      "> n2\n".toList _ rfl (by decide)).1⟩

/-! ## Step lists -/

theorem run_lines_steps {steps : List (List Char)} (h : ∀ s ∈ steps, line_char s = some '*')
    {c : emit_ctx} (hs : c.state = RECIPE_STEP) (hb : c.step_started = true) :
    ∃ c2, run_lines steps c = some c2 ∧ c2.state = RECIPE_STEP ∧ c2.step_started = true ∧
      c2.html = c.html ++ (steps.map (fun s =>
        "<li>".toList ++ rest_line s ++ "</li>".toList)).flatten := by
  induction steps generalizing c with
  | nil => exact ⟨c, rfl, hs, hb, by simp⟩
  | cons s steps ih =>
    obtain ⟨tl, htl⟩ := (line_char_some_iff _ _).mp (h s (by simp))
    have hp : process_line s c = some { c with
        state := RECIPE_STEP
        html := emit_body_step c.html (trim tl) c.step_started
        step_started := true } := by
      simp [process_line_step htl, hs]
    obtain ⟨c2, r2, s2, b2, h2⟩ := ih (fun x hx => h x (by simp [hx]))
      (c := { c with
        state := RECIPE_STEP
        html := emit_body_step c.html (trim tl) c.step_started
        step_started := true }) rfl rfl
    refine ⟨c2, by simp only [run_lines, hp]; exact r2, s2, b2, ?_⟩
    rw [h2]
    simp [hb, emit_body_step_next, rest_line, htl]

/-- On the buffers that `fgets` returns, taken as the lines:
when the lines `pre` have been processed without violation and the next line is a
step line that is accepted, the text written for it is `<li>text</li>` when the last line
before it that is not skipped is a step line too, and `<div class="step"><ul><li>text</li>`
otherwise; the step lines that follow it directly are all accepted and add one
`<li>text</li>` each and nothing else. -/
theorem step_line_fragment (pre : List (List Char)) (linebuf : List Char) (c c1 : emit_ctx)
    (hrun : run_lines pre emit_recipe_init = some c)
    (hstep : line_char linebuf = some '*')
    (hacc : process_line linebuf c = some c1) :
    c1.html = c.html ++
      (if last_line_char pre = some '*' then
        "<li>".toList ++ rest_line linebuf ++ "</li>".toList
      else
        "<div class=\"step\"><ul>".toList ++
          ("<li>".toList ++ rest_line linebuf ++ "</li>".toList)) ∧
    ∀ steps : List (List Char), (∀ s ∈ steps, line_char s = some '*') →
      ∃ c2, run_lines steps c1 = some c2 ∧
        c2.html = c1.html ++ (steps.map (fun s =>
          "<li>".toList ++ rest_line s ++ "</li>".toList)).flatten := by
  obtain ⟨i1, -⟩ := run_lines_state hrun
  obtain ⟨j1, -⟩ := run_lines_state_iff hrun
  rcases process_line_some hacc with ⟨hl, -⟩ | ⟨hl, -⟩ | ⟨hl, -⟩ | ⟨hl, -⟩ | ⟨hl, -⟩ |
    ⟨-, hs, rfl⟩ | ⟨ch, tl, hl, -, -, -, h4, -⟩
  · rw [hl] at hstep; simp at hstep
  · rw [hl] at hstep; simp at hstep
  · rw [hl] at hstep; simp at hstep
  · rw [hl] at hstep; simp at hstep
  · rw [hl] at hstep; simp at hstep
  · constructor
    · by_cases hlast : last_line_char pre = some '*'
      · have hb : c.step_started = true := i1.mpr (j1.mpr hlast)
        simp only [hlast, if_true, hb]
        exact emit_body_step_next _ _
      · have hb : c.step_started = false := by
          cases hb : c.step_started
          · rfl
          · exact absurd (j1.mp (i1.mp hb)) hlast
        simp only [hlast, if_false, hb]
        exact emit_body_step_first _ _
    · intro steps hsteps
      obtain ⟨c2, r2, -, -, h2⟩ := run_lines_steps hsteps
        (c := { c with
          state := RECIPE_STEP
          html := emit_body_step c.html (rest_line linebuf) c.step_started
          step_started := true }) rfl rfl
      exact ⟨c2, r2, h2⟩
  · have : line_char linebuf = some ch := (line_char_some_iff _ _).mpr ⟨tl, hl⟩
    rw [this] at hstep
    simp only [Option.some.injEq] at hstep
    exact absurd hstep h4

theorem step_line_fragment_witness :
    ∃ c c1, run_lines ["# T\n".toList, "* a\n".toList, "\n".toList] emit_recipe_init = some c ∧
      process_line "* b\n".toList c = some c1 ∧
      c1.html = c.html ++ "<li>b</li>".toList :=
  ⟨_, _, rfl, rfl,
   (step_line_fragment ["# T\n".toList, "* a\n".toList, "\n".toList] "* b\n".toList _ _
      rfl (by decide) rfl).1⟩


/-! ## The end of the document -/

theorem emit_lines_of_run {lines : List (List Char)} {c : emit_ctx}
    (h : run_lines lines emit_recipe_init = some c) :
    emit_lines lines =
      (true, (if c.step_started then c.html ++ "</ul></div>".toList else c.html) ++
        "</body></html>".toList) := by
  unfold emit_lines
  rw [loop_of_run_some h]
  cases hb : c.step_started <;> simp [emit_recipe_finish, emit_html_end, fputs, hb]

/-- Outside state Step the text written so far does not end with `</ul></div>`. -/
theorem process_line_no_list_end {linebuf : List Char} {c c1 : emit_ctx}
    (h : process_line linebuf c = some c1)
    (hc : c.state ≠ RECIPE_STEP → ¬ "</ul></div>".toList <:+ c.html) :
    c1.state ≠ RECIPE_STEP → ¬ "</ul></div>".toList <:+ c1.html := by
  rcases process_line_some h with ⟨-, rfl⟩ | ⟨-, -, rfl⟩ | ⟨-, -, rfl⟩ | ⟨-, -, -, rfl⟩ |
    ⟨-, -, rfl⟩ | ⟨-, -, rfl⟩ | ⟨ch, tl, -, -, -, -, -, -, rfl⟩
  · exact hc
  · intro _
    simp only [emit_body_title]
    rw [← List.reverse_prefix]
    simp
  · intro _
    simp only [emit_body_subtitle]
    rw [← List.reverse_prefix]
    simp
  · intro _
    simp only [emit_body_info, fputs]
    rw [← List.reverse_prefix]
    simp
  · intro _
    simp only [emit_body_img]
    rw [← List.reverse_prefix]
    simp
  · intro hne
    exact absurd rfl hne
  · intro _
    simp only [emit_body_description]
    rw [← List.reverse_prefix]
    simp

theorem run_lines_no_list_end {xs : List (List Char)} {c c1 : emit_ctx}
    (h : run_lines xs c = some c1)
    (hc : c.state ≠ RECIPE_STEP → ¬ "</ul></div>".toList <:+ c.html) :
    c1.state ≠ RECIPE_STEP → ¬ "</ul></div>".toList <:+ c1.html := by
  induction xs generalizing c with
  | nil =>
    simp only [run_lines, Option.some.injEq] at h
    subst h
    exact hc
  | cons x xs ih =>
    simp only [run_lines] at h
    cases hp : process_line x c with
    | none => simp [hp] at h
    | some c2 =>
      simp only [hp] at h
      exact ih h (process_line_no_list_end hp hc)

theorem init_no_list_end :
    emit_recipe_init.state ≠ RECIPE_STEP → ¬ "</ul></div>".toList <:+ emit_recipe_init.html := by
  intro _
  simp only [emit_recipe_init, emit_html_start, fputs]
  rw [← List.reverse_prefix]
  simp

/-- On the buffers that `fgets` returns, taken as the lines:
when `emit_recipe` returns true, the text written is some `body` followed by
`</body></html>`, and `body` ends with `</ul></div>` exactly when the last line that is not
skipped is a step line. -/
theorem emit_end_tags (lines : List (List Char)) (h : (emit_lines lines).1 = true) :
    ∃ body, (emit_lines lines).2 = body ++ "</body></html>".toList ∧
      ("</ul></div>".toList <:+ body ↔ last_line_char lines = some '*') := by
  obtain ⟨c, hrun⟩ := (loop_true_iff lines emit_recipe_init).mp h
  obtain ⟨i1, -⟩ := run_lines_state hrun
  obtain ⟨j1, -⟩ := run_lines_state_iff hrun
  rw [emit_lines_of_run hrun]
  refine ⟨_, rfl, ?_⟩
  cases hb : c.step_started
  · have hs : c.state ≠ RECIPE_STEP := fun hs => by
      rw [i1.mpr hs] at hb
      exact Bool.noConfusion hb
    have hno := run_lines_no_list_end hrun init_no_list_end hs
    have hlast : last_line_char lines ≠ some '*' := fun hl => hs (j1.mpr hl)
    simp only [Bool.false_eq_true, if_false]
    exact ⟨fun hsuf => absurd hsuf hno, fun hl => absurd hl hlast⟩
  · have hlast : last_line_char lines = some '*' := j1.mp (i1.mp hb)
    simp only [if_true]
    exact ⟨fun _ => hlast, fun _ => List.suffix_append _ _⟩

theorem emit_end_tags_witness :
    (emit_lines ["# T\n".toList, "* a\n".toList]).1 = true ∧
    ∃ body, (emit_lines ["# T\n".toList, "* a\n".toList]).2 = body ++ "</body></html>".toList ∧
      ("</ul></div>".toList <:+ body ↔
        last_line_char ["# T\n".toList, "* a\n".toList] = some '*') :=
  ⟨by decide, emit_end_tags ["# T\n".toList, "* a\n".toList] (by decide)⟩

/-! ## Output of an aborted conversion -/

/-- C9: when the lines `xs` are processed without violation, leaving the locals `c`, and
the next line `l` is illegal there, `emit_recipe` returns false on `xs ++ l :: ys` and the
text written is the text that had been written when `xs` was done, for every `ys`: it
starts with the document opening, and it is what a conversion of `xs` alone writes before
it closes the step list and the document. -/
theorem emit_abort_output (xs ys : List (List Char)) (l : List Char) (c : emit_ctx)
    (hrun : run_lines xs emit_recipe_init = some c) (hl : process_line l c = none) :
    emit_lines (xs ++ l :: ys) = (false, c.html) ∧
    (∃ frags, c.html = "<!DOCTYPE html><html>".toList ++ frags) ∧
    emit_lines xs =
      (true, (if c.step_started then c.html ++ "</ul></div>".toList else c.html) ++
        "</body></html>".toList) := by
  refine ⟨?_, ?_, emit_lines_of_run hrun⟩
  · unfold emit_lines
    rw [loop_append_some hrun, loop_fails_of_line hl]
  · obtain ⟨frags, hf⟩ := run_lines_html hrun
    exact ⟨frags, by rw [hf]; rfl⟩

theorem emit_abort_output_witness :
    ∃ c, run_lines ["# T\n".toList, "> s\n".toList] emit_recipe_init = some c ∧
      process_line "[x.png]\n".toList c = none ∧
      emit_lines (["# T\n".toList, "> s\n".toList] ++ "[x.png]\n".toList :: ["* a\n".toList]) =
        (false, c.html) :=
  ⟨_, rfl, rfl,
   (emit_abort_output ["# T\n".toList, "> s\n".toList] ["* a\n".toList] "[x.png]\n".toList _
      rfl rfl).1⟩

/-! ## The document head -/

theorem exists_first_line {lines : List (List Char)} (h : line_chars lines ≠ []) :
    ∃ pre l post ch, lines = pre ++ l :: post ∧ (∀ b ∈ pre, line_char b = none) ∧
      line_char l = some ch := by
  induction lines with
  | nil => simp [line_chars] at h
  | cons x xs ih =>
    cases hx : line_char x with
    | some ch => exact ⟨[], x, xs, ch, rfl, by simp, hx⟩
    | none =>
      have h1 : line_chars xs ≠ [] := by
        simpa [line_chars, List.filterMap_cons, hx] using h
      obtain ⟨pre, l, post, ch, rfl, hpre, hl⟩ := ih h1
      refine ⟨x :: pre, l, post, ch, rfl, ?_, hl⟩
      intro b hb
      rcases List.mem_cons.mp hb with rfl | hb
      · exact hx
      · exact hpre b hb

/-- On the empty stream `emit_recipe` returns true and
writes `<!DOCTYPE html><html></body></html>`, which has no head, no title and no
opened body. -/
theorem emit_empty_no_head :
    emit_recipe [] = (true, "<!DOCTYPE html><html></body></html>".toList) ∧
    ¬ ∃ title rest, (emit_recipe []).2 =
      "<!DOCTYPE html><html>".toList ++ title_block title ++ rest ++
        "</body></html>".toList := by
  refine ⟨by decide, ?_⟩
  rintro ⟨title, rest, h⟩
  have hlen := congrArg List.length h
  have h0 : (emit_recipe []).2.length = 35 := by decide
  have e1 : "<!DOCTYPE html><html>".toList.length = 21 := rfl
  have e2 : "</body></html>".toList.length = 14 := rfl
  have e3 : "<head>".toList.length = 6 := rfl
  simp only [h0, title_block, emit_body_title, emit_head, fputs, List.nil_append,
    List.length_append, e1, e2, e3] at hlen
  omega

/-- On the buffers that `fgets` returns, taken as the lines:
when `emit_recipe` returns true and at least one line is not skipped,
the first such line is a title line, and the text written is `<!DOCTYPE html><html>`,
then the head block with the title payload in `<title>` and the links to `css/style.css`
and `css/colors.css`, then `<body>` and the title heading, then the rest of the body, and
at the end `</body></html>`. -/
theorem emit_complete_document (lines : List (List Char))
    (h : (emit_lines lines).1 = true) (hne : line_chars lines ≠ []) :
    ∃ pre l post rest, lines = pre ++ l :: post ∧ (∀ b ∈ pre, line_char b = none) ∧
      line_char l = some '#' ∧
      (emit_lines lines).2 =
        "<!DOCTYPE html><html>".toList ++
        ("<head>".toList ++ ("<title>".toList ++ rest_line l ++ "</title>".toList) ++
          "<link rel=\"stylesheet\" type=\"text/css\" href=\"css/style.css\">".toList ++
          "<link rel=\"stylesheet\" type=\"text/css\" href=\"css/colors.css\">".toList ++
          "</head>".toList ++ "<body>".toList ++
          ("<div><h1>".toList ++ rest_line l ++ "</h1></div>".toList)) ++
        rest ++ "</body></html>".toList := by
  obtain ⟨pre, l, post, ch, rfl, hpre, hl⟩ := exists_first_line hne
  obtain ⟨c, hrun⟩ := (loop_true_iff _ emit_recipe_init).mp h
  have hrun0 : run_lines pre emit_recipe_init = some emit_recipe_init :=
    run_lines_skip (fun b hb => (line_char_none_iff b).mp (hpre b hb)) _
  have hrun' := hrun
  rw [run_lines_append, hrun0] at hrun'
  change run_lines (l :: post) emit_recipe_init = some c at hrun'
  simp only [run_lines] at hrun'
  obtain ⟨tl, htl⟩ := (line_char_some_iff _ _).mp hl
  cases hp : process_line l emit_recipe_init with
  | none => simp [hp] at hrun'
  | some c1 =>
    simp only [hp] at hrun'
    have hch : ch = '#' := by
      by_contra hne1
      rw [process_line_loaded htl hne1 rfl] at hp
      exact Option.noConfusion hp
    subst hch
    have hc1 : c1.html = "<!DOCTYPE html><html>".toList ++ title_block (rest_line l) := by
      rw [process_line_title htl] at hp
      simp only [emit_recipe_init, ne_eq, not_true_eq_false, if_false, Option.some.injEq] at hp
      subst hp
      simp only [title_block, emit_body_title, emit_head, emit_html_start, fputs, rest_line,
        htl, List.tail_cons, List.nil_append, List.append_assoc]
    obtain ⟨frags, hf⟩ := run_lines_html hrun'
    refine ⟨pre, l, post, frags ++ (if c.step_started then "</ul></div>".toList else []),
      rfl, hpre, hl, ?_⟩
    rw [emit_lines_of_run hrun, hf, hc1]
    cases c.step_started <;>
      simp only [title_block, emit_body_title, emit_head, fputs, List.nil_append,
        List.append_assoc, List.append_nil, if_true, if_false, Bool.false_eq_true]

theorem emit_complete_document_witness :
    (emit_lines ["\n".toList, "# T\n".toList, "* a\n".toList]).1 = true ∧
    line_chars ["\n".toList, "# T\n".toList, "* a\n".toList] ≠ [] ∧
    ∃ pre l post rest, ["\n".toList, "# T\n".toList, "* a\n".toList] = pre ++ l :: post ∧
      (∀ b ∈ pre, line_char b = none) ∧
      line_char l = some '#' ∧
      (emit_lines ["\n".toList, "# T\n".toList, "* a\n".toList]).2 =
        "<!DOCTYPE html><html>".toList ++
        ("<head>".toList ++ ("<title>".toList ++ rest_line l ++ "</title>".toList) ++
          "<link rel=\"stylesheet\" type=\"text/css\" href=\"css/style.css\">".toList ++
          "<link rel=\"stylesheet\" type=\"text/css\" href=\"css/colors.css\">".toList ++
          "</head>".toList ++ "<body>".toList ++
          ("<div><h1>".toList ++ rest_line l ++ "</h1></div>".toList)) ++
        rest ++ "</body></html>".toList :=
  ⟨by decide, by decide,
   emit_complete_document ["\n".toList, "# T\n".toList, "* a\n".toList] (by decide) (by decide)⟩

/-! ## The image path -/

theorem trim_right_split (s : List Char) (pred : Char → Bool) :
    ∃ cut, s = trim_right s pred ++ cut ∧ ∀ ch ∈ cut, pred ch = true := by
  refine ⟨(s.reverse.takeWhile pred).reverse, ?_, ?_⟩
  · have h := List.takeWhile_append_dropWhile pred s.reverse
    have h2 := congrArg List.reverse h
    simp only [List.reverse_append, List.reverse_reverse] at h2
    exact h2.symm
  · intro ch hch
    exact (List.mem_takeWhile_imp (List.mem_reverse.mp hch))

theorem trim_right_last (s : List Char) (pred : Char → Bool) (ch : Char)
    (h : (trim_right s pred).getLast? = some ch) : pred ch = false := by
  have hne : List.rdropWhile pred s ≠ [] := by
    intro hnil
    have : trim_right s pred = [] := hnil
    rw [this] at h
    simp at h
  have hlast := List.rdropWhile_last_not pred s hne
  have heq : (trim_right s pred).getLast? = some ((List.rdropWhile pred s).getLast hne) :=
    List.getLast?_eq_getLast _ hne
  rw [heq] at h
  simp only [Option.some.injEq] at h
  rw [← h]
  simpa using hlast

/-- On the buffers that `fgets` returns, taken as the lines:
for every accepted image line the text written is
`<div><img src="path"></div>`, where `path` is the trimmed text behind `[` without its
whole run of closing brackets at the end: the text behind `[` is `path` followed by
closing brackets only, and `path` does not end with a closing bracket. -/
theorem image_line_path (linebuf : List Char) (c c1 : emit_ctx)
    (himg : line_char linebuf = some '[') (hacc : process_line linebuf c = some c1) :
    (∃ k, rest_line linebuf =
      trim_right (rest_line linebuf) is_right_bracket ++ List.replicate k ']') ∧
    (trim_right (rest_line linebuf) is_right_bracket).getLast? ≠ some ']' ∧
    c1.html = c.html ++ ("<div><img src=\"".toList ++
      trim_right (rest_line linebuf) is_right_bracket ++ "\"></div>".toList) := by
  refine ⟨?_, ?_, ?_⟩
  · obtain ⟨cut, hcut, hall⟩ := trim_right_split (rest_line linebuf) is_right_bracket
    refine ⟨cut.length, ?_⟩
    have : cut = List.replicate cut.length ']' := by
      rw [List.eq_replicate_iff]
      refine ⟨rfl, fun ch hch => ?_⟩
      simpa [is_right_bracket] using hall ch hch
    rw [← this]
    exact hcut
  · intro h
    have := trim_right_last _ _ _ h
    simp [is_right_bracket] at this
  · rcases process_line_some hacc with ⟨hl, -⟩ | ⟨hl, -⟩ | ⟨hl, -⟩ | ⟨hl, -⟩ |
      ⟨-, -, rfl⟩ | ⟨hl, -⟩ | ⟨ch, tl, hl, -, -, h3, -, -⟩
    · rw [hl] at himg; simp at himg
    · rw [hl] at himg; simp at himg
    · rw [hl] at himg; simp at himg
    · rw [hl] at himg; simp at himg
    · rfl
    · rw [hl] at himg; simp at himg
    · have : line_char linebuf = some ch := (line_char_some_iff _ _).mpr ⟨tl, hl⟩
      rw [this] at himg
      simp only [Option.some.injEq] at himg
      exact absurd himg h3

theorem image_line_path_witness :
    trim_right (rest_line "[img.png]]]\n".toList) is_right_bracket = "img.png".toList ∧
    ∃ c1, process_line "[img.png]]]\n".toList
        { state := RECIPE_TITLE, step_started := false, color_index := 0, html := [] } =
        some c1 ∧
      c1.html = [] ++ ("<div><img src=\"".toList ++
        trim_right (rest_line "[img.png]]]\n".toList) is_right_bracket ++
        "\"></div>".toList) :=
  ⟨by decide, _, rfl,
   (image_line_path "[img.png]]]\n".toList
      { state := RECIPE_TITLE, step_started := false, color_index := 0, html := [] } _
      (by decide) rfl).2.2⟩

/-! ## The order of the states -/

/-- C14, the claim as stated fails: after the lines `# T`, `* a`, `> n` the state is Info,
and the step line `* b` is accepted there and moves to Step, an earlier state of the
order, which is neither of the two re-entries. -/
theorem step_after_info_moves_back :
    ∃ c c1, run_lines ["# T\n".toList, "* a\n".toList, "> n\n".toList] emit_recipe_init =
        some c ∧
      process_line "* b\n".toList c = some c1 ∧
      c.state = RECIPE_INFO ∧ c1.state = RECIPE_STEP ∧
      c1.state.ord < c.state.ord ∧
      (emit_recipe "# T\n* a\n> n\n* b\n".toList).1 = true :=
  ⟨_, _, rfl, rfl, rfl, rfl, by decide, by decide⟩

/-- C14, amended: in the order Loaded < Title < Image < Subtitle < Description < Step < Info
every accepted line that is not skipped moves to a strictly later state, except the
re-entries Description to Description and Step to Step and the step line met in state
Info, which moves back to Step. -/
theorem transition_order (linebuf : List Char) (c c1 : emit_ctx)
    (hline : line_char linebuf ≠ none) (hacc : process_line linebuf c = some c1) :
    c.state.ord < c1.state.ord ∨
    (c.state = RECIPE_DESCRIPTION ∧ c1.state = RECIPE_DESCRIPTION) ∨
    (c.state = RECIPE_STEP ∧ c1.state = RECIPE_STEP) ∨
    (c.state = RECIPE_INFO ∧ c1.state = RECIPE_STEP) := by
  rcases process_line_some hacc with ⟨hl, -⟩ | ⟨-, hs, rfl⟩ | ⟨-, hs, rfl⟩ | ⟨-, hs, -, rfl⟩ |
    ⟨-, hs, rfl⟩ | ⟨-, hs, rfl⟩ | ⟨ch, tl, -, -, -, -, -, hs, rfl⟩
  · exact absurd hl hline
  · left; simp [hs, recipe_state.ord]
  · left; rcases hs with hs | hs <;> simp [hs, recipe_state.ord]
  · left; simp [hs, recipe_state.ord]
  · left; simp [hs, recipe_state.ord]
  · cases hst : c.state <;> simp_all [recipe_state.ord]
  · rcases hs with hs | hs | hs <;> simp [hs, recipe_state.ord]

theorem transition_order_witness :
    line_char "* b\n".toList ≠ none ∧
    ∃ c1, process_line "* b\n".toList
        { state := RECIPE_INFO, step_started := false, color_index := 1, html := [] } =
        some c1 ∧
      (RECIPE_INFO.ord < c1.state.ord ∨
       (RECIPE_INFO = RECIPE_DESCRIPTION ∧ c1.state = RECIPE_DESCRIPTION) ∨
       (RECIPE_INFO = RECIPE_STEP ∧ c1.state = RECIPE_STEP) ∨
       (RECIPE_INFO = RECIPE_INFO ∧ c1.state = RECIPE_STEP)) :=
  ⟨by decide, _, rfl,
   transition_order "* b\n".toList
     { state := RECIPE_INFO, step_started := false, color_index := 1, html := [] } _
     (by decide) rfl⟩

/-! ## Where a state is entered from -/

/-- C15, the claim as stated fails: after the lines `# T`, `[x.png]` the state is Image,
and the line `> sub` is accepted there and moves to Subtitle. -/
theorem subtitle_after_image :
    ∃ c c1, run_lines ["# T\n".toList, "[x.png]\n".toList] emit_recipe_init = some c ∧
      process_line "> sub\n".toList c = some c1 ∧
      c.state = RECIPE_IMAGE ∧ c1.state = RECIPE_SUBTITLE ∧
      (emit_recipe "# T\n[x.png]\n> sub\n".toList).1 = true :=
  ⟨_, _, rfl, rfl, rfl, rfl, by decide⟩

/-- C15, amended: for every accepted line that is not skipped, a move into Image starts
in Title; a move into Subtitle starts in Title or Image; a move into Description starts in
Title, Subtitle or Description; a move into Step starts in any state other than Loaded; a
move into Info starts in Step with the step list open. -/
theorem transition_sources (linebuf : List Char) (c c1 : emit_ctx)
    (hline : line_char linebuf ≠ none) (hacc : process_line linebuf c = some c1) :
    (c1.state = RECIPE_IMAGE → c.state = RECIPE_TITLE) ∧
    (c1.state = RECIPE_SUBTITLE → c.state = RECIPE_TITLE ∨ c.state = RECIPE_IMAGE) ∧
    (c1.state = RECIPE_DESCRIPTION →
      c.state = RECIPE_TITLE ∨ c.state = RECIPE_SUBTITLE ∨ c.state = RECIPE_DESCRIPTION) ∧
    (c1.state = RECIPE_STEP → c.state ≠ RECIPE_LOADED) ∧
    (c1.state = RECIPE_INFO → c.state = RECIPE_STEP ∧ c.step_started = true) := by
  rcases process_line_some hacc with ⟨hl, -⟩ | ⟨-, hs, rfl⟩ | ⟨-, hs, rfl⟩ | ⟨-, hs, hb, rfl⟩ |
    ⟨-, hs, rfl⟩ | ⟨-, hs, rfl⟩ | ⟨ch, tl, -, -, -, -, -, hs, rfl⟩
  · exact absurd hl hline
  · simp
  · simp [hs]
  · simp [hs, hb]
  · simp [hs]
  · simp [hs]
  · simp [hs]

theorem transition_sources_witness :
    line_char "> sub\n".toList ≠ none ∧
    ∃ c1, process_line "> sub\n".toList
        { state := RECIPE_IMAGE, step_started := false, color_index := 0, html := [] } =
        some c1 ∧
      c1.state = RECIPE_SUBTITLE ∧
      (c1.state = RECIPE_SUBTITLE → RECIPE_IMAGE = RECIPE_TITLE ∨ RECIPE_IMAGE = RECIPE_IMAGE) :=
  ⟨by decide, _, rfl, rfl,
   (transition_sources "> sub\n".toList
     { state := RECIPE_IMAGE, step_started := false, color_index := 0, html := [] } _
     (by decide) rfl).2.1⟩

/-! ## The guard of the info branch -/

/-- C19: whenever lines have been processed from the initial state without violation,
`step_started` is true exactly when the state is Step; so the test
`state == RECIPE_STEP && step_started` of the info branch holds exactly when
`state == RECIPE_STEP` does, and every `>` line met in state Step is accepted and moves
to Info. -/
theorem step_started_iff_step (xs : List (List Char)) (c : emit_ctx)
    (hrun : run_lines xs emit_recipe_init = some c) :
    (c.step_started = true ↔ c.state = RECIPE_STEP) ∧
    ((c.state = RECIPE_STEP ∧ c.step_started = true) ↔ c.state = RECIPE_STEP) ∧
    ∀ linebuf, line_char linebuf = some '>' → c.state = RECIPE_STEP →
      ∃ c1, process_line linebuf c = some c1 ∧ c1.state = RECIPE_INFO := by
  obtain ⟨i1, -⟩ := run_lines_state hrun
  refine ⟨i1, ⟨fun h => h.1, fun h => ⟨h, i1.mpr h⟩⟩, ?_⟩
  intro linebuf hl hs
  obtain ⟨tl, htl⟩ := (line_char_some_iff _ _).mp hl
  have hb := i1.mpr hs
  have hp : process_line linebuf c = some
      { state := RECIPE_INFO
        html := emit_body_info c.html (trim tl) c.color_index
        color_index := (c.color_index + 1) % 4
        step_started := false } := by
    simp [process_line_quote htl, hs, hb]
  exact ⟨_, hp, rfl⟩

theorem step_started_iff_step_witness :
    ∃ c, run_lines ["# T\n".toList, "* a\n".toList] emit_recipe_init = some c ∧
      (c.step_started = true ↔ c.state = RECIPE_STEP) ∧ c.state = RECIPE_STEP :=
  ⟨_, rfl,
   (step_started_iff_step ["# T\n".toList, "* a\n".toList] _ rfl).1, rfl⟩

/-! ## Trimming -/

theorem trim_head (s : List Char) (ch : Char) (h : (trim s).head? = some ch) :
    is_ws ch = false := by
  have := List.head?_dropWhile_not is_ws (trim_right s is_ws)
  unfold trim trim_left at h
  rw [h] at this
  exact this

theorem trim_last (s : List Char) (ch : Char) (h : (trim s).getLast? = some ch) :
    is_ws ch = false := by
  have hne : trim s ≠ [] := by
    intro hnil
    rw [hnil] at h
    simp at h
  obtain ⟨t, ht⟩ : trim s <:+ trim_right s is_ws := List.dropWhile_suffix is_ws
  apply trim_right_last s is_ws ch
  rw [← ht, List.getLast?_append_of_ne_nil _ hne]
  exact h

theorem trim_right_eq_self (s : List Char) (pred : Char → Bool)
    (h : ∀ ch, s.getLast? = some ch → pred ch = false) : trim_right s pred = s := by
  show List.rdropWhile pred s = s
  rw [List.rdropWhile_eq_self_iff]
  intro hl
  have := h _ (List.getLast?_eq_getLast s hl)
  simp [this]

theorem trim_left_eq_self (s : List Char) (pred : Char → Bool)
    (h : ∀ ch, s.head? = some ch → pred ch = false) : trim_left s pred = s := by
  cases s with
  | nil => rfl
  | cons a t =>
    have := h a rfl
    simp [trim_left, List.dropWhile_cons, this]

theorem trim_split (s : List Char) :
    ∃ pre suf, s = pre ++ trim s ++ suf ∧ (∀ ch ∈ pre, is_ws ch = true) ∧
      (∀ ch ∈ suf, is_ws ch = true) := by
  obtain ⟨cut, hcut, hall⟩ := trim_right_split s is_ws
  refine ⟨(trim_right s is_ws).takeWhile is_ws, cut, ?_, ?_, hall⟩
  · unfold trim trim_left
    rw [List.takeWhile_append_dropWhile]
    exact hcut
  · intro ch hch
    exact List.mem_takeWhile_imp hch

theorem trim_idempotent (s : List Char) : trim (trim s) = trim s := by
  have h1 : trim_right (trim s) is_ws = trim s := trim_right_eq_self _ _ (trim_last s)
  show trim_left (trim_right (trim s) is_ws) is_ws = trim s
  rw [h1]
  exact trim_left_eq_self _ _ (trim_head s)

/-- The call `trim(&line[1])` leaves the buffer behind `line` as it is: the trimmed line
has no whitespace at its end. -/
theorem trimmed_line_tail {linebuf : List Char} {ch : Char} {tl : List Char}
    (h : trimmed_line linebuf = ch :: tl) : trim_right tl is_ws = tl := by
  apply trim_right_eq_self
  intro d hd
  apply trim_last (c_str linebuf) d
  show (trimmed_line linebuf).getLast? = some d
  rw [h]
  cases tl with
  | nil => simp at hd
  | cons a t => rw [List.getLast?_cons_cons]; exact hd

/-- The function `trim` and the payloads of the buffers:
`trim` removes the longest run of `isspace` characters at each end of a string:
the string is whitespace, then the result, then whitespace; the result neither starts nor
ends with whitespace; it is empty for a string of whitespace only; trimming it again
changes nothing. So, for every accepted line, the text written for a title, subtitle, info
or step line is `rest_line`, the trimmed text behind the marker, and the text written for a
description line is the whole trimmed line. -/
theorem trim_spec (s : List Char) :
    (∃ pre suf, s = pre ++ trim s ++ suf ∧ (∀ ch ∈ pre, is_ws ch = true) ∧
      (∀ ch ∈ suf, is_ws ch = true)) ∧
    (∀ ch, (trim s).head? = some ch → is_ws ch = false) ∧
    (∀ ch, (trim s).getLast? = some ch → is_ws ch = false) ∧
    ((∀ ch ∈ s, is_ws ch = true) → trim s = []) ∧
    trim (trim s) = trim s ∧
    ∀ (linebuf : List Char) (c c1 : emit_ctx), process_line linebuf c = some c1 →
      rest_line linebuf = trim (trimmed_line linebuf).tail ∧
      (line_char linebuf = some '#' →
        c1.html = emit_body_title (emit_head c.html (rest_line linebuf)) (rest_line linebuf)) ∧
      (line_char linebuf = some '>' →
        c1.html = emit_body_subtitle c.html (rest_line linebuf) ∨
        c1.html = emit_body_info c.html (rest_line linebuf) c.color_index) ∧
      (line_char linebuf = some '*' →
        c1.html = emit_body_step c.html (rest_line linebuf) c.step_started) ∧
      (∀ ch, line_char linebuf = some ch → ch ≠ '#' → ch ≠ '>' → ch ≠ '[' → ch ≠ '*' →
        c1.html = emit_body_description c.html (trimmed_line linebuf)) := by
  refine ⟨trim_split s, trim_head s, trim_last s, fun h => trim_of_ws h, trim_idempotent s, ?_⟩
  intro linebuf c c1 hacc
  refine ⟨rfl, ?_⟩
  rcases process_line_some hacc with ⟨hl, -⟩ | ⟨hl, -, rfl⟩ | ⟨hl, -, rfl⟩ | ⟨hl, -, -, rfl⟩ |
    ⟨hl, -, rfl⟩ | ⟨hl, -, rfl⟩ | ⟨ch, tl, hl, h1, h2, h3, h4, -, rfl⟩
  · simp [hl]
  · simp [hl]
  · simp [hl]
  · simp [hl]
  · simp [hl]
  · simp [hl]
  · have hc : line_char linebuf = some ch := (line_char_some_iff _ _).mpr ⟨tl, hl⟩
    simp only [hc, Option.some.injEq]
    refine ⟨fun e => absurd e h1, fun e => absurd e h2, fun e => absurd e h4, ?_⟩
    intro d hd _ _ _ _
    rw [trimmed_line_tail hl, hl]

/-! ## The kinds of line and the grammar of a document -/

theorem state_regex_deriv (s : recipe_state) (b : Bool) (hb : b = true ↔ s = RECIPE_STEP)
    (k : line_class) (w : List line_class) :
    w ∈ ((state_regex s).deriv k).matches' ↔
      ∃ s1 b1, class_step s b k = some (s1, b1) ∧ w ∈ (state_regex s1).matches' := by
  cases s <;> cases k <;> cases b <;>
    simp [state_regex, recipe_regex, head_regex, steps_regex, rx_opt, rx_many1, class_step,
      RegularExpression.deriv, RegularExpression.matchEpsilon] at hb ⊢
  rw [add_comm]

theorem state_regex_nil (s : recipe_state) : [] ∈ (state_regex s).matches' := by
  rw [← RegularExpression.rmatch_iff_matches']
  cases s <;> rfl

/-- From a state in which the flag is set exactly in Step, the lines of the kinds `w` are
all accepted exactly when `w` matches the pattern of the state. -/
theorem class_run_iff_regex (w : List line_class) (s : recipe_state) (b : Bool)
    (hb : b = true ↔ s = RECIPE_STEP) :
    (∃ r, class_run s b w = some r) ↔ w ∈ (state_regex s).matches' := by
  induction w generalizing s b with
  | nil => simp [class_run, state_regex_nil]
  | cons k ks ih =>
    have hderiv : k :: ks ∈ (state_regex s).matches' ↔
        ks ∈ ((state_regex s).deriv k).matches' := by
      rw [← RegularExpression.rmatch_iff_matches', ← RegularExpression.rmatch_iff_matches']
      rfl
    rw [hderiv, state_regex_deriv s b hb]
    simp only [class_run]
    cases hstep : class_step s b k with
    | none => simp
    | some p =>
      obtain ⟨s1, b1⟩ := p
      have hb1 : b1 = true ↔ s1 = RECIPE_STEP := by
        cases s <;> cases k <;> cases b <;> simp [class_step] at hb hstep ⊢ <;>
          (obtain ⟨rfl, rfl⟩ := hstep; simp)
      simp only [Option.some.injEq, Prod.mk.injEq, exists_and_left, exists_eq_left']
      rw [ih s1 b1 hb1]
      constructor
      · intro h; exact ⟨s1, b1, ⟨rfl, rfl⟩, h⟩
      · rintro ⟨s2, b2, ⟨rfl, rfl⟩, h⟩; exact h

theorem process_line_class {linebuf : List Char} {ch : Char}
    (h : line_char linebuf = some ch) (c : emit_ctx) :
    (process_line linebuf c).map (fun c1 => (c1.state, c1.step_started)) =
      class_step c.state c.step_started (char_class ch) := by
  obtain ⟨tl, htl⟩ := (line_char_some_iff _ _).mp h
  by_cases e1 : ch = '#'
  · subst e1
    rw [process_line_title htl]
    by_cases hs : c.state = RECIPE_LOADED <;> simp [class_step, char_class, hs]
  by_cases e2 : ch = '>'
  · subst e2
    rw [process_line_quote htl]
    by_cases hs : c.state = RECIPE_TITLE ∨ c.state = RECIPE_IMAGE
    · simp [class_step, char_class, hs]
    · by_cases hs2 : c.state = RECIPE_STEP ∧ c.step_started = true
      · simp [class_step, char_class, hs, hs2]
      · simp only [class_step, char_class, if_neg hs, if_neg hs2]
        simp
  by_cases e3 : ch = '['
  · subst e3
    rw [process_line_image htl]
    by_cases hs : c.state = RECIPE_TITLE <;> simp [class_step, char_class, hs]
  by_cases e4 : ch = '*'
  · subst e4
    rw [process_line_step htl]
    by_cases hs : c.state = RECIPE_LOADED <;> simp [class_step, char_class, hs]
  · rw [process_line_text htl e1 e2 e3 e4]
    by_cases hs : c.state ≠ RECIPE_TITLE ∧ c.state ≠ RECIPE_SUBTITLE ∧
        c.state ≠ RECIPE_DESCRIPTION
    · simp only [class_step, char_class, e1, e2, e3, e4, if_false, if_pos hs]
      simp
    · simp only [class_step, char_class, e1, e2, e3, e4, if_false, if_neg hs]
      simp

theorem line_classes_cons_skip {l : List Char} (h : line_char l = none)
    (ls : List (List Char)) : line_classes (l :: ls) = line_classes ls := by
  simp [line_classes, line_chars, List.filterMap_cons, h]

theorem line_classes_cons {l : List Char} {ch : Char} (h : line_char l = some ch)
    (ls : List (List Char)) : line_classes (l :: ls) = char_class ch :: line_classes ls := by
  simp [line_classes, line_chars, List.filterMap_cons, h]

/-- The state and the flag after the loop has run over the lines depend on the kinds of
the lines only. -/
theorem run_lines_class (xs : List (List Char)) (c : emit_ctx) :
    (run_lines xs c).map (fun c1 => (c1.state, c1.step_started)) =
      class_run c.state c.step_started (line_classes xs) := by
  induction xs generalizing c with
  | nil => rfl
  | cons x xs ih =>
    cases hx : line_char x with
    | none =>
      rw [line_classes_cons_skip hx]
      simp only [run_lines, process_line_skip ((line_char_none_iff x).mp hx)]
      exact ih c
    | some ch =>
      rw [line_classes_cons hx]
      have hstep := process_line_class hx c
      simp only [run_lines, class_run]
      cases hp : process_line x c with
      | none =>
        rw [hp] at hstep
        simp only [Option.map_none'] at hstep
        rw [← hstep]
        rfl
      | some c1 =>
        rw [hp] at hstep
        simp only [Option.map_some'] at hstep
        rw [← hstep]
        exact ih c1

theorem emit_lines_class (lines : List (List Char)) :
    (emit_lines lines).1 = true ↔
      ∃ r, class_run RECIPE_LOADED false (line_classes lines) = some r := by
  unfold emit_lines
  rw [loop_true_iff]
  have h := run_lines_class lines emit_recipe_init
  change _ = class_run RECIPE_LOADED false (line_classes lines) at h
  rw [← h]
  cases run_lines lines emit_recipe_init <;> simp

theorem class_run_append (w1 w2 : List line_class) (s : recipe_state) (b : Bool) :
    class_run s b (w1 ++ w2) =
      (class_run s b w1).bind (fun r => class_run r.1 r.2 w2) := by
  induction w1 generalizing s b with
  | nil => rfl
  | cons k ks ih =>
    simp only [List.cons_append, class_run]
    cases class_step s b k with
    | none => rfl
    | some r => exact ih r.1 r.2

theorem run_lines_after_step {post : List (List Char)} {c c1 : emit_ctx}
    (h : run_lines post c = some c1)
    (hs : c.state = RECIPE_STEP ∨ c.state = RECIPE_INFO) :
    ∀ l ∈ post, line_char l = none ∨ line_char l = some '*' ∨ line_char l = some '>' := by
  induction post generalizing c with
  | nil => simp
  | cons x xs ih =>
    simp only [run_lines] at h
    cases hp : process_line x c with
    | none => simp [hp] at h
    | some c2 =>
      simp only [hp] at h
      intro l hl
      rcases process_line_some hp with ⟨hx, rfl⟩ | ⟨-, hc, -⟩ | ⟨-, hc, -⟩ | ⟨hx, -, -, rfl⟩ |
        ⟨-, hc, -⟩ | ⟨hx, -, rfl⟩ | ⟨ch, tl, -, -, -, -, -, hc, -⟩
      · rcases List.mem_cons.mp hl with rfl | hl
        · exact Or.inl hx
        · exact ih h hs l hl
      · rcases hs with hs | hs <;> simp [hs] at hc
      · rcases hs with hs | hs <;> simp [hs] at hc
      · rcases List.mem_cons.mp hl with rfl | hl
        · exact Or.inr (Or.inr hx)
        · exact ih h (Or.inr rfl) l hl
      · rcases hs with hs | hs <;> simp [hs] at hc
      · rcases List.mem_cons.mp hl with rfl | hl
        · exact Or.inr (Or.inl hx)
        · exact ih h (Or.inl rfl) l hl
      · rcases hs with hs | hs <;> simp [hs] at hc

/-- On the buffers that `fgets` returns, taken as the lines:
`emit_recipe` returns true exactly when the kinds of the lines that are not
skipped form the empty sequence or match `T ( I? (Q D*)? | D+ ) ( P+ (Q P+)* Q? )?`. So
an input without lines, or with skipped lines only, is accepted; a description line whose
last line before it is an image line is rejected; and behind an accepted step line only
skipped lines, `*` lines and `>` lines occur in an accepted input. -/
theorem emit_accepts_iff_grammar (lines : List (List Char)) :
    ((emit_lines lines).1 = true ↔
      line_classes lines = [] ∨ line_classes lines ∈ recipe_regex.matches') ∧
    ((∀ b ∈ lines, line_char b = none) → (emit_lines lines).1 = true) ∧
    (∀ (pre post : List (List Char)) (d : List Char) (ch : Char),
      lines = pre ++ d :: post → last_line_char pre = some '[' →
      line_char d = some ch → char_class ch = line_class.D →
      (emit_lines lines).1 = false) ∧
    (∀ (pre post : List (List Char)) (s : List Char),
      lines = pre ++ s :: post → line_char s = some '*' → (emit_lines lines).1 = true →
      ∀ l ∈ post, line_char l = none ∨ line_char l = some '*' ∨ line_char l = some '>') := by
  have hiff : (emit_lines lines).1 = true ↔
      line_classes lines = [] ∨ line_classes lines ∈ recipe_regex.matches' := by
    rw [emit_lines_class, class_run_iff_regex _ _ _ (by simp)]
    show line_classes lines ∈ (1 + recipe_regex).matches' ↔ _
    rw [RegularExpression.matches'_add, Language.mem_add, RegularExpression.matches'_epsilon,
      Language.mem_one]
  refine ⟨hiff, ?_, ?_, ?_⟩
  · intro hall
    apply hiff.mpr
    left
    simp only [line_classes, line_chars, List.map_eq_nil_iff, List.filterMap_eq_nil_iff]
    exact hall
  · rintro pre post d ch rfl hlast hd hclass
    unfold emit_lines
    cases hrun : run_lines pre emit_recipe_init with
    | none => exact loop_fails_of_run hrun _
    | some c =>
      rw [loop_append_some hrun]
      obtain ⟨-, -, -, -, i3, -⟩ := run_lines_state hrun
      have hs := i3 hlast
      have hstep := process_line_class hd c
      rw [hclass, hs] at hstep
      have hp : process_line d c = none := by
        cases hp : process_line d c with
        | none => rfl
        | some c1 =>
          rw [hp] at hstep
          simp [class_step] at hstep
      rw [loop_fails_of_line hp]
  · rintro pre post s rfl hs htrue
    obtain ⟨c, hrun⟩ := (loop_true_iff _ emit_recipe_init).mp htrue
    rw [run_lines_append] at hrun
    cases hpre : run_lines pre emit_recipe_init with
    | none => simp [hpre] at hrun
    | some c0 =>
      rw [hpre] at hrun
      change run_lines (s :: post) c0 = some c at hrun
      simp only [run_lines] at hrun
      cases hp : process_line s c0 with
      | none => simp [hp] at hrun
      | some c1 =>
        simp only [hp] at hrun
        have hc1 : c1.state = RECIPE_STEP := by
          have hstep := process_line_class hs c0
          rw [hp] at hstep
          simp only [Option.map_some', char_class, class_step] at hstep
          simp only [Char.reduceEq, if_false, if_true] at hstep
          split at hstep
          · simp at hstep
          · simp only [Option.some.injEq, Prod.mk.injEq] at hstep
            exact hstep.1
        exact run_lines_after_step hrun (Or.inl hc1)

theorem emit_accepts_iff_grammar_witness :
    (emit_lines ["# T\n".toList, "[x]\n".toList, "> s\n".toList, "* a\n".toList]).1 = true ∧
    line_classes ["# T\n".toList, "[x]\n".toList, "> s\n".toList, "* a\n".toList] =
      [line_class.T, line_class.I, line_class.Q, line_class.P] ∧
    (line_classes ["# T\n".toList, "[x]\n".toList, "> s\n".toList, "* a\n".toList] = [] ∨
      line_classes ["# T\n".toList, "[x]\n".toList, "> s\n".toList, "* a\n".toList] ∈
        recipe_regex.matches') :=
  ⟨by decide, by decide,
   (emit_accepts_iff_grammar
      ["# T\n".toList, "[x]\n".toList, "> s\n".toList, "* a\n".toList]).1.mp (by decide)⟩

/-- On the buffers that `fgets` returns, taken as the lines:
two inputs whose lines that are not skipped have the same kinds, one by one,
get the same boolean result from `emit_recipe`. -/
theorem emit_result_of_classes (lines1 lines2 : List (List Char))
    (h : line_classes lines1 = line_classes lines2) :
    (emit_lines lines1).1 = (emit_lines lines2).1 := by
  have h1 := emit_lines_class lines1
  have h2 := emit_lines_class lines2
  rw [h] at h1
  cases e1 : (emit_lines lines1).1 <;> cases e2 : (emit_lines lines2).1 <;> simp_all

theorem emit_result_of_classes_witness :
    line_classes ["# Tea\n".toList, "\n".toList, "Boil water.\n".toList, "> no\n".toList] =
      line_classes ["  # Soup  \n".toList, "stir\n".toList, ">\n".toList] ∧
    (emit_lines ["# Tea\n".toList, "\n".toList, "Boil water.\n".toList, "> no\n".toList]).1 =
      (emit_lines ["  # Soup  \n".toList, "stir\n".toList, ">\n".toList]).1 :=
  ⟨by decide, emit_result_of_classes _ _ (by decide)⟩

/-! ## The step list flag -/

theorem char_class_not_step {d : Char} (h1 : d ≠ '*') (h2 : d ≠ '>') :
    class_step RECIPE_STEP true (char_class d) = none := by
  by_cases e1 : d = '#'
  · subst e1; rfl
  by_cases e3 : d = '['
  · subst e3; rfl
  · simp [char_class, class_step, e1, h1, h2, e3]

theorem class_run_cons (s : recipe_state) (b : Bool) (k : line_class)
    (ks : List line_class) :
    class_run s b (k :: ks) = (class_step s b k).bind (fun r => class_run r.1 r.2 ks) := by
  simp only [class_run]
  cases class_step s b k <;> rfl

theorem class_run_step_line (s : recipe_state) (b : Bool) :
    class_step s b line_class.P =
      if s = RECIPE_LOADED then none else some (RECIPE_STEP, true) := rfl

theorem emit_recipe_finish_close (c : emit_ctx) :
    emit_recipe_finish c = (true, (emit_recipe_close c).html) := by
  cases hb : c.step_started <;> simp [emit_recipe_finish, emit_recipe_close, hb]

/-- On the buffers that `fgets` returns, taken as the lines:
when the lines `pre` have been processed without violation, `step_started` is
true exactly when there is a last step line among them and no `>` line (an info line)
behind it; and the code behind the loop leaves the flag false. -/
theorem step_started_iff_open (pre : List (List Char)) (c : emit_ctx)
    (hrun : run_lines pre emit_recipe_init = some c) :
    (c.step_started = true ↔
      ∃ a b, line_chars pre = a ++ '*' :: b ∧ '*' ∉ b ∧ '>' ∉ b) ∧
    (emit_recipe_close c).step_started = false ∧
    emit_lines pre = (true, (emit_recipe_close c).html) := by
  obtain ⟨i1, -⟩ := run_lines_state hrun
  obtain ⟨j1, -⟩ := run_lines_state_iff hrun
  refine ⟨⟨?_, ?_⟩, ?_, ?_⟩
  · intro hb
    have hlast := j1.mp (i1.mp hb)
    obtain ⟨a, ha⟩ := List.getLast?_eq_some_iff.mp hlast
    exact ⟨a, [], ha, by simp, by simp⟩
  · rintro ⟨a, b, hab, hb1, hb2⟩
    have hb : b = [] := by
      cases b with
      | nil => rfl
      | cons d b =>
        exfalso
        simp only [List.mem_cons, not_or] at hb1 hb2
        have hcls := run_lines_class pre emit_recipe_init
        rw [hrun] at hcls
        have hsplit : line_classes pre =
            a.map char_class ++ (line_class.P :: char_class d :: b.map char_class) := by
          simp [line_classes, hab, char_class]
        rw [hsplit, class_run_append] at hcls
        cases h0 : class_run emit_recipe_init.state emit_recipe_init.step_started
            (List.map char_class a) with
        | none => simp [h0] at hcls
        | some r =>
          obtain ⟨s0, b0⟩ := r
          rw [h0] at hcls
          change _ = class_run s0 b0 (line_class.P :: char_class d :: b.map char_class) at hcls
          rw [class_run_cons, class_run_step_line] at hcls
          by_cases hs0 : s0 = RECIPE_LOADED
          · simp [hs0] at hcls
          · rw [if_neg hs0] at hcls
            change _ = class_run RECIPE_STEP true (char_class d :: b.map char_class) at hcls
            rw [class_run_cons, char_class_not_step (fun e => hb1.1 e.symm)
              (fun e => hb2.1 e.symm)] at hcls
            simp at hcls
    subst hb
    have hlast : last_line_char pre = some '*' := by
      simp [last_line_char, hab]
    exact i1.mpr (j1.mpr hlast)
  · cases hb : c.step_started <;> simp [emit_recipe_close, hb]
  · unfold emit_lines
    rw [loop_of_run_some hrun, emit_recipe_finish_close]

theorem step_started_iff_open_witness :
    ∃ c, run_lines ["# T\n".toList, "* a\n".toList, "> n\n".toList, "* b\n".toList]
        emit_recipe_init = some c ∧
      c.step_started = true ∧
      (c.step_started = true ↔ ∃ a b,
        line_chars ["# T\n".toList, "* a\n".toList, "> n\n".toList, "* b\n".toList] =
          a ++ '*' :: b ∧ '*' ∉ b ∧ '>' ∉ b) :=
  ⟨_, rfl, rfl,
   (step_started_iff_open ["# T\n".toList, "* a\n".toList, "> n\n".toList, "* b\n".toList]
      _ rfl).1⟩

/-! ## A whole document -/

set_option maxRecDepth 100000 in
/-- C12, the claim as stated fails: on the example input `emit_recipe` returns true, but
the text `<div class="c0">Serve warm</div>` occurs nowhere in the output. -/
theorem tea_no_plain_colour_div :
    tea_example =
      "# Tea\n[tea.jpg]\n> Hot drink\nBoil water.\n* Add tea\n* Steep\n> Serve warm\n".toList ∧
    (emit_recipe tea_example).1 = true ∧
    count_occ "<div class=\"c0\">Serve warm</div>".toList (emit_recipe tea_example).2 = 0 :=
  ⟨rfl, by decide, by decide⟩

set_option maxRecDepth 100000 in
/-- C12, amended: on the example input `emit_recipe` returns true and writes the document
below, in which `<img src="tea.jpg">`, the blockquote with `Hot drink`, the paragraph with
`Boil water.`, the list `<ul>` with the two `<li>` items and
`<div class="info c0">Serve warm</div>` occur once each. -/
theorem tea_document :
    emit_recipe tea_example = (true,
      ("<!DOCTYPE html><html><head><title>Tea</title>" ++
       "<link rel=\"stylesheet\" type=\"text/css\" href=\"css/style.css\">" ++
       "<link rel=\"stylesheet\" type=\"text/css\" href=\"css/colors.css\">" ++
       "</head><body><div><h1>Tea</h1></div>" ++
       "<div><img src=\"tea.jpg\"></div>" ++
       "<div><blockquote>Hot drink</blockquote></div>" ++
       "<div><p>Boil water.</p></div>" ++
       "<div class=\"step\"><ul><li>Add tea</li><li>Steep</li></ul>" ++
       "<div class=\"info c0\">Serve warm</div></div>" ++
       "</body></html>").toList) ∧
    count_occ "<img src=\"tea.jpg\">".toList (emit_recipe tea_example).2 = 1 ∧
    count_occ "<img".toList (emit_recipe tea_example).2 = 1 ∧
    count_occ "<blockquote>Hot drink</blockquote>".toList (emit_recipe tea_example).2 = 1 ∧
    count_occ "<blockquote>".toList (emit_recipe tea_example).2 = 1 ∧
    count_occ "<p>Boil water.</p>".toList (emit_recipe tea_example).2 = 1 ∧
    count_occ "<p>".toList (emit_recipe tea_example).2 = 1 ∧
    count_occ "<ul><li>Add tea</li><li>Steep</li></ul>".toList (emit_recipe tea_example).2 = 1 ∧
    count_occ "<ul>".toList (emit_recipe tea_example).2 = 1 ∧
    count_occ "<li>".toList (emit_recipe tea_example).2 = 2 ∧
    count_occ "<div class=\"info c0\">Serve warm</div>".toList (emit_recipe tea_example).2 = 1 ∧
    count_occ "<div class=\"info c".toList (emit_recipe tea_example).2 = 1 := by
  refine ⟨by decide, by decide, by decide, by decide, by decide, by decide, by decide,
    by decide, by decide, by decide, by decide, by decide⟩

/-! ## The paths of `main` -/

theorem c_str_no_nul {s : List Char} (h : '\x00' ∉ s) : c_str s = s := by
  unfold c_str
  rw [List.takeWhile_eq_self_iff]
  intro ch hch
  simp only [bne_iff_ne, ne_eq]
  rintro rfl
  exact h hch

theorem c_str_append_nul {s : List Char} (h : '\x00' ∉ s) (rest : List Char) :
    c_str (s ++ '\x00' :: rest) = s := by
  unfold c_str
  induction s with
  | nil => simp
  | cons a s ih =>
    simp only [List.mem_cons, not_or] at h
    have ha : a ≠ '\x00' := fun e => h.1 e.symm
    simp only [List.cons_append, List.takeWhile_cons, bne_iff_ne, ne_eq, ha, not_false_eq_true,
      if_true, List.cons.injEq, true_and]
    exact ih h.2

theorem strrchr_ext (stem ext : List Char) (h : '.' ∉ ext) :
    strrchr (stem ++ '.' :: ext) '.' = some ('.' :: ext) := by
  have hext : strrchr ext '.' = none := by
    induction ext with
    | nil => rfl
    | cons a e ih =>
      simp only [List.mem_cons, not_or] at h
      have ha : a ≠ '.' := fun e => h.1 e.symm
      simp [strrchr, ih h.2, ha]
  induction stem with
  | nil => simp [strrchr, hext]
  | cons a s ih => simp [strrchr, ih]

theorem write_at_append (pre rest s : List Char) :
    write_at (pre ++ rest) pre.length s = pre ++ s ++ rest.drop s.length := by
  unfold write_at
  rw [List.take_left', List.drop_append]
  rfl

theorem c_str_zeros {s : List Char} (h : '\x00' ∉ s) (n : Nat) :
    c_str (s ++ List.replicate (n + 1) '\x00') = s := by
  rw [List.replicate_succ]
  exact c_str_append_nul h _

/-- The two `strcpy` calls that fill a path buffer with a directory and a name. -/
theorem strcpy_path (dir name : List Char) (h : dir.length + name.length < 1024) :
    strcpy (strcpy (List.replicate 1024 '\x00') 0 dir) dir.length name =
      dir ++ name ++ List.replicate (1024 - dir.length - name.length) '\x00' := by
  have e1 : strcpy (List.replicate 1024 '\x00') 0 dir =
      dir ++ List.replicate (1024 - dir.length) '\x00' := by
    have := write_at_append [] (List.replicate 1024 '\x00') (dir ++ ['\x00'])
    simp only [List.nil_append, List.length_nil, List.length_append, List.length_singleton,
      List.drop_replicate] at this
    unfold strcpy
    rw [this]
    have hk : 1024 - dir.length = (1024 - (dir.length + 1)) + 1 := by omega
    rw [hk, List.replicate_succ]
    simp
  rw [e1]
  unfold strcpy
  rw [write_at_append]
  simp only [List.length_append, List.length_singleton, List.drop_replicate]
  have hk : 1024 - dir.length - name.length =
      (1024 - dir.length - (name.length + 1)) + 1 := by omega
  rw [hk, List.replicate_succ]
  simp

/-- For a name whose first `.md` is its extension, the paths of `main` are the source
directory with the name and the destination directory with the name, `.html` in the place
of `.md`. -/
theorem main_paths_of_first_md (stem : List Char) (hnul : '\x00' ∉ stem)
    (hlen : 5 + 5 + (stem.length + 3) < 1024)
    (hfirst : strstr ("docs/".toList ++ (stem ++ ".md".toList)) ".md".toList =
      some (5 + stem.length)) :
    main_paths (stem ++ ".md".toList) =
      some ("cookbook/".toList ++ (stem ++ ".md".toList),
        "docs/".toList ++ (stem ++ ".html".toList)) := by
  have hname : '\x00' ∉ stem ++ ".md".toList := by
    simp only [List.mem_append, not_or]
    exact ⟨hnul, by decide⟩
  have hext : file_ext (stem ++ ".md".toList) = some ".md".toList :=
    strrchr_ext stem "md".toList (by decide)
  have hsrc := strcpy_path "cookbook/".toList (stem ++ ".md".toList)
    (by simp only [List.length_append]; have : "cookbook/".toList.length = 9 := rfl
        have : ".md".toList.length = 3 := rfl; omega)
  have hdst := strcpy_path "docs/".toList (stem ++ ".md".toList)
    (by simp only [List.length_append]; have : "docs/".toList.length = 5 := rfl
        have : ".md".toList.length = 3 := rfl; omega)
  have hk : ∃ k, 1024 - "docs/".toList.length - (stem ++ ".md".toList).length = k + 3 := by
    have e1 : "docs/".toList.length = 5 := rfl
    have e2 : ".md".toList.length = 3 := rfl
    simp only [List.length_append, e1, e2]
    exact ⟨1024 - 5 - (stem.length + 3) - 3, by omega⟩
  have hk2 : ∃ k, 1024 - "cookbook/".toList.length - (stem ++ ".md".toList).length = k + 1 := by
    have e1 : "cookbook/".toList.length = 9 := rfl
    have e2 : ".md".toList.length = 3 := rfl
    simp only [List.length_append, e1, e2]
    exact ⟨1024 - 9 - (stem.length + 3) - 1, by omega⟩
  obtain ⟨k, hk⟩ := hk
  obtain ⟨k2, hk2⟩ := hk2
  rw [hk] at hdst
  rw [hk2] at hsrc
  have hsrc_str : c_str ("cookbook/".toList ++ (stem ++ ".md".toList) ++
      List.replicate (k2 + 1) '\x00') = "cookbook/".toList ++ (stem ++ ".md".toList) :=
    c_str_zeros (by
      simp only [List.mem_append, not_or]
      exact ⟨by decide, hnul, by decide⟩) k2
  have hdst_str : c_str ("docs/".toList ++ (stem ++ ".md".toList) ++
      List.replicate (k + 3) '\x00') = "docs/".toList ++ (stem ++ ".md".toList) :=
    c_str_zeros (by
      simp only [List.mem_append, not_or]
      exact ⟨by decide, hnul, by decide⟩) (k + 2)
  have hcopy : memcpy ("docs/".toList ++ (stem ++ ".md".toList) ++
      List.replicate (k + 3) '\x00') (5 + stem.length) ".html".toList ".html".toList.length =
      ("docs/".toList ++ (stem ++ ".html".toList)) ++ List.replicate (k + 1) '\x00' := by
    have hw := write_at_append ("docs/".toList ++ stem)
      (".md".toList ++ List.replicate (k + 3) '\x00') ".html".toList
    have e1 : ("docs/".toList ++ stem).length = 5 + stem.length := by
      simp only [List.length_append]
      rfl
    rw [e1] at hw
    unfold memcpy
    have e2 : List.take ".html".toList.length ".html".toList = ".html".toList := rfl
    rw [e2]
    have e3 : "docs/".toList ++ (stem ++ ".md".toList) ++ List.replicate (k + 3) '\x00' =
        "docs/".toList ++ stem ++ (".md".toList ++ List.replicate (k + 3) '\x00') := by
      simp only [List.append_assoc]
    rw [e3, hw]
    have e4 : List.drop ".html".toList.length
        (".md".toList ++ List.replicate (k + 3) '\x00') = List.replicate (k + 1) '\x00' := by
      show List.drop 2 (List.replicate (k + 3) '\x00') = _
      simp [List.drop_replicate]
    rw [e4]
    simp only [List.append_assoc]
  have hdst_out : c_str (("docs/".toList ++ (stem ++ ".html".toList)) ++
      List.replicate (k + 1) '\x00') = "docs/".toList ++ (stem ++ ".html".toList) :=
    c_str_zeros (by
      simp only [List.mem_append, not_or]
      exact ⟨by decide, hnul, by decide⟩) k
  have hcond : "cookbook/".toList.length + (stem ++ ".md".toList).length < 1024 ∧
      "docs/".toList.length + ".html".toList.length + (stem ++ ".md".toList).length < 1024 ∧
      file_ext (stem ++ ".md".toList) = some ".md".toList := by
    have e1 : "cookbook/".toList.length = 9 := rfl
    have e2 : ".md".toList.length = 3 := rfl
    have e3 : "docs/".toList.length = 5 := rfl
    have e4 : ".html".toList.length = 5 := rfl
    simp only [List.length_append, e1, e2, e3, e4]
    exact ⟨by omega, by omega, hext⟩
  unfold main_paths
  simp only [c_str_no_nul hname, if_pos hcond, hsrc, hdst, hdst_str, hfirst, hcopy, hdst_out,
    hsrc_str]

set_option maxRecDepth 100000 in
/-- C17: for the entry `soup.md` the paths are `cookbook/soup.md` and `docs/soup.html`; for
the entry `a.md.md`, whose extension is `.md` too, `strstr` finds the first `.md` of the
destination path and the paths are `cookbook/a.md.md` and `docs/a.htmld`. -/
theorem main_paths_first_md :
    main_paths "soup.md".toList = some ("cookbook/soup.md".toList, "docs/soup.html".toList) ∧
    file_ext "a.md.md".toList = some ".md".toList ∧
    main_paths "a.md.md".toList = some ("cookbook/a.md.md".toList, "docs/a.htmld".toList) ∧
    main_paths "a.md.md".toList ≠ some ("cookbook/a.md.md".toList, "docs/a.md.html".toList) := by
  refine ⟨by decide, by decide, by decide, by decide⟩

/-! ## Lines that fit the buffer -/

theorem split_lines_flatten (s : List Char) : (split_lines s).flatten = s := by
  induction s with
  | nil => rfl
  | cons ch s ih =>
    simp only [split_lines]
    split
    · simp [ih]
    · cases h : split_lines s with
      | nil =>
        rw [h] at ih
        simp only [List.flatten_nil] at ih
        simp [← ih]
      | cons l ls =>
        rw [h] at ih
        simp only [List.flatten_cons] at ih ⊢
        rw [List.cons_append, ih]

theorem split_lines_ne_nil (ch : Char) (s : List Char) : split_lines (ch :: s) ≠ [] := by
  simp only [split_lines]
  split
  · simp
  · cases split_lines s <;> simp

/-- One call of `fgets` with room for the first line of the stream reads that line. -/
theorem fgets_read_split (room : Nat) (s : List Char) (l : List Char)
    (ls : List (List Char)) (h : split_lines s = l :: ls) (hlen : l.length ≤ room) :
    fgets_read room s = (l, ls.flatten) := by
  induction s generalizing room l ls with
  | nil => simp [split_lines] at h
  | cons ch s ih =>
    simp only [split_lines] at h
    by_cases hch : ch = '\n'
    · simp only [hch, if_true, List.cons.injEq] at h
      obtain ⟨rfl, rfl⟩ := h
      cases room with
      | zero => simp at hlen
      | succ room => simp [fgets_read, hch, split_lines_flatten]
    · simp only [hch, if_false] at h
      cases room with
      | zero =>
        cases hs : split_lines s with
        | nil => rw [hs] at h; simp only [List.cons.injEq] at h; rw [← h.1] at hlen; simp at hlen
        | cons l1 ls1 =>
          rw [hs] at h; simp only [List.cons.injEq] at h; rw [← h.1] at hlen; simp at hlen
      | succ room =>
        simp only [fgets_read, hch, if_false]
        cases hs : split_lines s with
        | nil =>
          rw [hs] at h
          simp only [List.cons.injEq] at h
          obtain ⟨rfl, rfl⟩ := h
          have hnil : s = [] := by
            cases s with
            | nil => rfl
            | cons a t => exact absurd hs (split_lines_ne_nil a t)
          subst hnil
          cases room <;> simp [fgets_read]
        | cons l1 ls1 =>
          rw [hs] at h
          simp only [List.cons.injEq] at h
          obtain ⟨rfl, rfl⟩ := h
          simp only [List.length_cons, Nat.add_le_add_iff_right] at hlen
          rw [ih room l1 ls1 hs hlen]

theorem split_lines_of_flatten (s : List Char) (l : List Char) (ls : List (List Char))
    (h : split_lines s = l :: ls) : split_lines ls.flatten = ls := by
  induction s generalizing l ls with
  | nil => simp [split_lines] at h
  | cons ch s ih =>
    simp only [split_lines] at h
    by_cases hch : ch = '\n'
    · simp only [hch, if_true, List.cons.injEq] at h
      rw [← h.2, split_lines_flatten]
    · simp only [hch, if_false] at h
      cases hs : split_lines s with
      | nil =>
        rw [hs] at h
        simp only [List.cons.injEq] at h
        rw [← h.2]
        rfl
      | cons l1 ls1 =>
        rw [hs] at h
        simp only [List.cons.injEq] at h
        rw [← h.2]
        exact ih l1 ls1 hs

/-- When every line of the stream, its newline included, has at most 2047 characters, the
buffers that `fgets` returns are the lines of the stream. -/
theorem read_lines_eq_split_lines (s : List Char)
    (hfit : ∀ l ∈ split_lines s, l.length ≤ 2047) :
    read_lines s.length s = split_lines s := by
  obtain ⟨n, hn⟩ : ∃ n, s.length = n := ⟨_, rfl⟩
  induction n using Nat.strong_induction_on generalizing s with
  | _ n ih =>
    cases s with
    | nil => simp [read_lines, split_lines]
    | cons ch t =>
      cases hs : split_lines (ch :: t) with
      | nil => exact absurd hs (split_lines_ne_nil ch t)
      | cons l ls =>
        have hl : l.length ≤ 2047 := hfit l (by rw [hs]; simp)
        have hread := fgets_read_split (2048 - 1) (ch :: t) l ls hs hl
        have hrest := split_lines_of_flatten (ch :: t) l ls hs
        have hlen : ls.flatten.length ≤ t.length := by
          have := fgets_read_length 2046 ch t
          rw [show 2046 + 1 = 2048 - 1 from rfl, hread] at this
          exact this
        simp only [List.length_cons] at hn
        subst hn
        simp only [List.length_cons, read_lines, fgets, List.cons_ne_nil, if_false, hread]
        rw [read_lines_fuel t.length ls.flatten.length ls.flatten hlen (le_refl _)]
        rw [ih ls.flatten.length (by omega) ls.flatten
          (by rw [hrest]; intro x hx; exact hfit x (by rw [hs]; simp [hx])) rfl, hrest]

/-- On such a stream `emit_recipe` works on the lines of the stream. -/
theorem emit_recipe_fit (recipe : List Char)
    (hfit : ∀ l ∈ split_lines recipe, l.length ≤ 2047) :
    emit_recipe recipe = emit_lines (split_lines recipe) := by
  unfold emit_recipe
  rw [read_lines_eq_split_lines recipe hfit]

/-! ## Lines that do not fit the buffer -/

theorem fgets_read_exact (body rest : List Char) (h : '\n' ∉ body) :
    fgets_read body.length (body ++ rest) = (body, rest) := by
  induction body with
  | nil => cases rest <;> rfl
  | cons ch body ih =>
    simp only [List.mem_cons, not_or] at h
    have hne : ch ≠ '\n' := fun e => h.1 e.symm
    simp only [List.length_cons, List.cons_append, fgets_read, hne, if_false, List.append_eq]
    rw [ih h.2]

/-- A line of more than 2047 characters is read in parts: the first call of `fgets` returns
its first 2047 characters. -/
theorem read_lines_long (pre body tail : List Char)
    (hpre : pre = [] ∨ pre.getLast? = some '\n') (hbody : '\n' ∉ body)
    (hlen : body.length = 2047) :
    read_lines (pre ++ (body ++ tail)).length (pre ++ (body ++ tail)) =
      read_lines pre.length pre ++ body :: read_lines tail.length tail := by
  rw [read_lines_line_append pre (body ++ tail) hpre]
  congr 1
  have hne : body ++ tail ≠ [] := by
    intro h
    have := congrArg List.length h
    simp only [List.length_append, hlen, List.length_nil] at this
    omega
  have hl : (body ++ tail).length = (2046 + tail.length) + 1 := by
    simp only [List.length_append, hlen]
    omega
  rw [hl]
  simp only [read_lines, fgets, hne, if_false]
  have hread : fgets_read (2048 - 1) (body ++ tail) = (body, tail) := by
    have := fgets_read_exact body tail hbody
    rw [hlen] at this
    exact this
  rw [hread]
  simp only
  rw [read_lines_fuel (2046 + tail.length) tail.length tail (by omega) (le_refl _)]

theorem split_lines_join (body tail l : List Char) (ls : List (List Char))
    (hbody : '\n' ∉ body) (h : split_lines tail = l :: ls) :
    split_lines (body ++ tail) = (body ++ l) :: ls := by
  induction body with
  | nil => exact h
  | cons ch body ih =>
    simp only [List.mem_cons, not_or] at hbody
    have hne : ch ≠ '\n' := fun e => hbody.1 e.symm
    simp only [List.cons_append, split_lines, hne, if_false, List.append_eq]
    rw [ih hbody.2]

theorem split_lines_append (pre rest : List Char)
    (hpre : pre = [] ∨ pre.getLast? = some '\n') :
    split_lines (pre ++ rest) = split_lines pre ++ split_lines rest := by
  induction pre with
  | nil => rfl
  | cons ch pre ih =>
    have hlast : (ch :: pre).getLast? = some '\n' := by
      rcases hpre with h | h
      · simp at h
      · exact h
    cases pre with
    | nil =>
      simp only [List.getLast?_singleton, Option.some.injEq] at hlast
      subst hlast
      simp [split_lines]
    | cons d pre =>
      rw [List.getLast?_cons_cons] at hlast
      have ih' := ih (Or.inr hlast)
      by_cases hch : ch = '\n'
      · show split_lines (ch :: (d :: pre ++ rest)) = split_lines (ch :: d :: pre) ++ _
        rw [split_lines, split_lines]
        simp only [hch, if_true]
        rw [ih']
        rfl
      · have hne := split_lines_ne_nil d pre
        cases hs : split_lines (d :: pre) with
        | nil => exact absurd hs hne
        | cons l ls =>
          rw [hs] at ih'
          show split_lines (ch :: (d :: pre ++ rest)) = split_lines (ch :: d :: pre) ++ _
          rw [split_lines, split_lines]
          simp only [hch, if_false]
          rw [ih', hs]
          rfl

theorem trim_right_cons (ch : Char) (s : List Char) (pred : Char → Bool)
    (h : pred ch = false) : trim_right (ch :: s) pred = ch :: trim_right s pred := by
  unfold trim_right
  rw [List.reverse_cons, List.dropWhile_append]
  by_cases he : (List.dropWhile pred s.reverse).isEmpty = true
  · simp only [he, if_true]
    have : List.dropWhile pred s.reverse = [] := List.isEmpty_iff.mp he
    simp [this, List.dropWhile_cons, h]
  · simp only [he]
    simp

/-- The first character of a buffer that is neither whitespace nor the terminator is the
character that the `switch` looks at. -/
theorem trimmed_line_cons (ch : Char) (rest : List Char) (h0 : ch ≠ '\x00')
    (hws : is_ws ch = false) :
    trimmed_line (ch :: rest) = ch :: trim_right (c_str rest) is_ws := by
  have hc : c_str (ch :: rest) = ch :: c_str rest := by
    simp [c_str, List.takeWhile_cons, h0]
  unfold trimmed_line trim
  rw [hc, trim_right_cons ch _ is_ws hws]
  simp [trim_left, List.dropWhile_cons, hws]

theorem line_char_cons (ch : Char) (rest : List Char) (h0 : ch ≠ '\x00')
    (hws : is_ws ch = false) : line_char (ch :: rest) = some ch := by
  unfold line_char
  rw [trimmed_line_cons ch rest h0 hws]
  rfl

theorem replicate_no_newline (n : Nat) : '\n' ∉ List.replicate n 'a' := by
  intro h
  have := (List.mem_replicate.mp h).2
  exact absurd this (by decide)

theorem two_quotes_buffers :
    read_lines two_quotes_example.length two_quotes_example =
      ["# T\n".toList, '>' :: List.replicate 2046 'a', "*s\n".toList, "> info\n".toList] := by
  unfold two_quotes_example
  rw [read_lines_long "# T\n".toList ('>' :: List.replicate 2046 'a') "*s\n> info\n".toList
    (Or.inr (by decide))
    (by
      simp only [List.mem_cons, not_or]
      exact ⟨by decide, replicate_no_newline _⟩)
    (by rw [List.length_cons, List.length_replicate])]
  have h1 : read_lines "# T\n".toList.length "# T\n".toList = ["# T\n".toList] := by decide
  have h2 : read_lines "*s\n> info\n".toList.length "*s\n> info\n".toList =
      ["*s\n".toList, "> info\n".toList] := by decide
  rw [h1, h2]
  rfl

theorem two_quotes_lines :
    split_lines two_quotes_example =
      ["# T\n".toList, ('>' :: List.replicate 2046 'a') ++ "*s\n".toList,
        "> info\n".toList] := by
  unfold two_quotes_example
  rw [split_lines_append _ _ (Or.inr (by decide)),
    split_lines_join ('>' :: List.replicate 2046 'a') "*s\n> info\n".toList "*s\n".toList
      ["> info\n".toList]
      (by
        simp only [List.mem_cons, not_or]
        exact ⟨by decide, replicate_no_newline _⟩)
      (by decide)]
  have h1 : split_lines "# T\n".toList = ["# T\n".toList] := by decide
  rw [h1]
  rfl

theorem two_quotes_accepted : (emit_recipe two_quotes_example).1 = true := by
  unfold emit_recipe
  rw [two_quotes_buffers, emit_lines_class]
  have hL : line_char ('>' :: List.replicate 2046 'a') = some '>' :=
    line_char_cons _ _ (by decide) (by decide)
  have h1 : line_char "# T\n".toList = some '#' := by decide
  have h3 : line_char "*s\n".toList = some '*' := by decide
  have h4 : line_char "> info\n".toList = some '>' := by decide
  have hc : line_classes
      ["# T\n".toList, '>' :: List.replicate 2046 'a', "*s\n".toList, "> info\n".toList] =
      [line_class.T, line_class.Q, line_class.P, line_class.Q] := by
    rw [line_classes_cons h1, line_classes_cons hL, line_classes_cons h3,
      line_classes_cons h4]
    rfl
  rw [hc]
  exact ⟨_, rfl⟩

theorem two_quotes_line_classes :
    line_classes (split_lines two_quotes_example) =
      [line_class.T, line_class.Q, line_class.Q] := by
  rw [two_quotes_lines]
  have hL : line_char (('>' :: List.replicate 2046 'a') ++ "*s\n".toList) = some '>' :=
    line_char_cons _ _ (by decide) (by decide)
  have h1 : line_char "# T\n".toList = some '#' := by decide
  have h4 : line_char "> info\n".toList = some '>' := by decide
  rw [line_classes_cons h1, line_classes_cons hL, line_classes_cons h4]
  rfl

/-- C4, the claim as stated fails: the second line of this document starts with `>` and has
2050 characters, the third line starts with `>` too, and `emit_recipe` returns true: `fgets`
reads the long line in two parts, and the second part is a step line. -/
theorem two_quotes_long_line_accepted :
    split_lines two_quotes_example =
      ["# T\n".toList, ('>' :: List.replicate 2046 'a') ++ "*s\n".toList,
        "> info\n".toList] ∧
    line_char (('>' :: List.replicate 2046 'a') ++ "*s\n".toList) = some '>' ∧
    line_char "> info\n".toList = some '>' ∧
    (emit_recipe two_quotes_example).1 = true :=
  ⟨two_quotes_lines, line_char_cons _ _ (by decide) (by decide), by decide,
    two_quotes_accepted⟩

/-- C18, the claim as stated fails: the lines of this document have the kinds `T Q Q`,
which is not the empty sequence and does not match the grammar, and `emit_recipe` returns
true; its second line has 2050 characters. -/
theorem grammar_fails_on_long_line :
    line_classes (split_lines two_quotes_example) =
      [line_class.T, line_class.Q, line_class.Q] ∧
    [line_class.T, line_class.Q, line_class.Q] ∉ recipe_regex.matches' ∧
    (emit_recipe two_quotes_example).1 = true :=
  ⟨two_quotes_line_classes, by decide, two_quotes_accepted⟩

/-- C20, the claim as stated fails: the two documents have lines of the same kinds, one by
one, and differ in the text of the second line only, and `emit_recipe` returns true for
the one whose second line has 2050 characters and false for the other. -/
theorem result_differs_on_long_line :
    line_classes (split_lines two_quotes_example) =
      line_classes (split_lines two_quotes_short) ∧
    (emit_recipe two_quotes_example).1 = true ∧
    (emit_recipe two_quotes_short).1 = false :=
  ⟨by rw [two_quotes_line_classes]; decide, two_quotes_accepted, by decide⟩

theorem loop_step {linebuf : List Char} {c c1 : emit_ctx}
    (h : process_line linebuf c = some c1) (more : List (List Char)) :
    emit_recipe_loop (linebuf :: more) c = emit_recipe_loop more c1 := by
  simp [emit_recipe_loop, h]

set_option maxRecDepth 100000 in
theorem title_T_step :
    process_line "# T\n".toList emit_recipe_init = some
      { state := RECIPE_TITLE
        step_started := false
        color_index := 0
        html := "<!DOCTYPE html><html>".toList ++ title_block "T".toList } := by
  decide

theorem replicate_no_nul (n : Nat) : '\x00' ∉ List.replicate n 'a' := by
  intro h
  have := (List.mem_replicate.mp h).2
  exact absurd this (by decide)

theorem replicate_head (n : Nat) (ch : Char) (h : (List.replicate n 'a').head? = some ch) :
    is_ws ch = false := by
  rw [List.head?_replicate] at h
  split at h
  · exact Option.noConfusion h
  · simp only [Option.some.injEq] at h
    subst h
    rfl

theorem replicate_last (n : Nat) (ch : Char) (h : (List.replicate n 'a').getLast? = some ch) :
    is_ws ch = false := by
  rw [List.getLast?_replicate] at h
  split at h
  · exact Option.noConfusion h
  · simp only [Option.some.injEq] at h
    subst h
    rfl

/-- A buffer of the letter `a` only is its own trimmed line. -/
theorem trimmed_line_replicate (n : Nat) :
    trimmed_line (List.replicate (n + 1) 'a') = List.replicate (n + 1) 'a' := by
  unfold trimmed_line trim
  rw [c_str_no_nul (replicate_no_nul _), trim_right_eq_self _ _ (replicate_last _)]
  exact trim_left_eq_self _ _ (replicate_head _)

theorem trim_replicate (n : Nat) : trim (List.replicate n 'a') = List.replicate n 'a' := by
  cases n with
  | zero => rfl
  | succ n =>
    unfold trim
    rw [trim_right_eq_self _ _ (replicate_last _)]
    exact trim_left_eq_self _ _ (replicate_head _)

theorem long_text_buffers :
    read_lines long_text_example.length long_text_example =
      ["# T\n".toList, List.replicate 2047 'a', "b\n".toList] := by
  unfold long_text_example
  rw [read_lines_long "# T\n".toList (List.replicate 2047 'a') "b\n".toList
    (Or.inr (by decide)) (replicate_no_newline _) (List.length_replicate _ _)]
  have h1 : read_lines "# T\n".toList.length "# T\n".toList = ["# T\n".toList] := by decide
  have h2 : read_lines "b\n".toList.length "b\n".toList = ["b\n".toList] := by decide
  rw [h1, h2]
  rfl

theorem long_text_lines :
    split_lines long_text_example =
      ["# T\n".toList, List.replicate 2047 'a' ++ "b\n".toList] := by
  unfold long_text_example
  rw [split_lines_append _ _ (Or.inr (by decide)),
    split_lines_join (List.replicate 2047 'a') "b\n".toList "b\n".toList []
      (replicate_no_newline _) (by decide)]
  have h1 : split_lines "# T\n".toList = ["# T\n".toList] := by decide
  rw [h1]
  rfl

theorem replicate_append_head (n : Nat) (t : List Char) (ch : Char)
    (h : (List.replicate (n + 1) 'a' ++ t).head? = some ch) : is_ws ch = false := by
  rw [List.replicate_succ] at h
  have : ch = 'a' := (Option.some.inj h).symm
  subst this
  rfl

/-- A line that ends with its newline, has no terminator inside and has no whitespace at
its start or before the newline is trimmed to its text. -/
theorem trimmed_line_text (text : List Char) (h0 : '\x00' ∉ text)
    (hh : ∀ ch, text.head? = some ch → is_ws ch = false)
    (hl : ∀ ch, text.getLast? = some ch → is_ws ch = false) :
    trimmed_line (text ++ ['\n']) = text := by
  have hnul : '\x00' ∉ text ++ ['\n'] := by
    simp only [List.mem_append, List.mem_singleton, not_or]
    exact ⟨h0, by decide⟩
  unfold trimmed_line trim
  rw [c_str_no_nul hnul]
  have hr : trim_right (text ++ ['\n']) is_ws = trim_right text is_ws :=
    List.rdropWhile_concat_pos is_ws text '\n' rfl
  rw [hr, trim_right_eq_self _ _ hl]
  exact trim_left_eq_self _ _ hh

/-- C16, the claim as stated fails for the payload of a description line: the second line
of this document is a description line of 2049 characters, its trimmed text is 2047 times
`a` and then `b`, and the document is accepted and written with two paragraphs, one with
the 2047 `a` and one with `b`. -/
theorem long_description_split :
    split_lines long_text_example =
      ["# T\n".toList, List.replicate 2047 'a' ++ "b\n".toList] ∧
    trimmed_line (List.replicate 2047 'a' ++ "b\n".toList) =
      List.replicate 2047 'a' ++ "b".toList ∧
    emit_recipe long_text_example = (true,
      "<!DOCTYPE html><html>".toList ++ title_block "T".toList ++
      ("<div><p>".toList ++ List.replicate 2047 'a' ++ "</p></div>".toList) ++
      ("<div><p>".toList ++ "b".toList ++ "</p></div>".toList) ++
      "</body></html>".toList) := by
  refine ⟨long_text_lines, ?_, ?_⟩
  · have := trimmed_line_text (List.replicate 2047 'a' ++ "b".toList)
      (by
        simp only [List.mem_append, not_or]
        exact ⟨replicate_no_nul _, by decide⟩)
      (replicate_append_head 2046 _)
      (by
        intro ch h
        rw [List.getLast?_append_of_ne_nil _ (by decide)] at h
        have : ch = 'b' := (Option.some.inj h).symm
        subst this
        rfl)
    rw [List.append_assoc] at this
    exact this
  · have htl : trimmed_line (List.replicate 2047 'a') = 'a' :: List.replicate 2046 'a' :=
      trimmed_line_replicate 2046
    have hp2 : process_line (List.replicate 2047 'a')
        { state := RECIPE_TITLE
          step_started := false
          color_index := 0
          html := "<!DOCTYPE html><html>".toList ++ title_block "T".toList } = some
        { state := RECIPE_DESCRIPTION
          step_started := false
          color_index := 0
          html := emit_body_description
            ("<!DOCTYPE html><html>".toList ++ title_block "T".toList)
            (List.replicate 2047 'a') } := by
      rw [process_line_text htl (by decide) (by decide) (by decide) (by decide),
        if_neg (by decide), trim_right_eq_self _ _ (replicate_last _)]
      rfl
    have htl3 : trimmed_line "b\n".toList = 'b' :: [] := by decide
    have hp3 : process_line "b\n".toList
        { state := RECIPE_DESCRIPTION
          step_started := false
          color_index := 0
          html := emit_body_description
            ("<!DOCTYPE html><html>".toList ++ title_block "T".toList)
            (List.replicate 2047 'a') } = some
        { state := RECIPE_DESCRIPTION
          step_started := false
          color_index := 0
          html := emit_body_description (emit_body_description
            ("<!DOCTYPE html><html>".toList ++ title_block "T".toList)
            (List.replicate 2047 'a')) "b".toList } := by
      rw [process_line_text htl3 (by decide) (by decide) (by decide) (by decide),
        if_neg (by decide)]
      rfl
    unfold emit_recipe emit_lines
    rw [long_text_buffers, loop_step title_T_step, loop_step hp2, loop_step hp3]
    simp only [emit_recipe_loop, emit_recipe_finish, emit_html_end, emit_body_description,
      fputs, List.append_assoc, Bool.false_eq_true, if_false]

theorem long_step_buffers (tail : List Char) :
    read_lines ("# T\n".toList ++ (('*' :: List.replicate 2046 'a') ++ tail)).length
        ("# T\n".toList ++ (('*' :: List.replicate 2046 'a') ++ tail)) =
      "# T\n".toList :: ('*' :: List.replicate 2046 'a') :: read_lines tail.length tail := by
  rw [read_lines_long "# T\n".toList ('*' :: List.replicate 2046 'a') tail
    (Or.inr (by decide))
    (by
      simp only [List.mem_cons, not_or]
      exact ⟨by decide, replicate_no_newline _⟩)
    (by rw [List.length_cons, List.length_replicate])]
  have h1 : read_lines "# T\n".toList.length "# T\n".toList = ["# T\n".toList] := by decide
  rw [h1]
  rfl

theorem long_step_lines (tail l : List Char) (ls : List (List Char))
    (h : split_lines tail = l :: ls) :
    split_lines ("# T\n".toList ++ (('*' :: List.replicate 2046 'a') ++ tail)) =
      "# T\n".toList :: (('*' :: List.replicate 2046 'a') ++ l) :: ls := by
  rw [split_lines_append _ _ (Or.inr (by decide)),
    split_lines_join ('*' :: List.replicate 2046 'a') tail l ls
      (by
        simp only [List.mem_cons, not_or]
        exact ⟨by decide, replicate_no_newline _⟩)
      h]
  have h1 : split_lines "# T\n".toList = ["# T\n".toList] := by decide
  rw [h1]
  rfl

theorem long_step_char (rest : List Char) :
    line_char (('*' :: List.replicate 2046 'a') ++ rest) = some '*' :=
  line_char_cons _ _ (by decide) (by decide)

theorem long_step_char_buffer : line_char ('*' :: List.replicate 2046 'a') = some '*' :=
  line_char_cons _ _ (by decide) (by decide)

theorem line_chars_cons {l : List Char} {ch : Char} (h : line_char l = some ch)
    (ls : List (List Char)) : line_chars (l :: ls) = ch :: line_chars ls := by
  simp [line_chars, List.filterMap_cons, h]

/-- C13, the claim as stated fails: the last line of this document is a step line and no
line follows it, yet after the whole document has been processed without violation
`step_started` is false: the step line has 2051 characters, and the part of it that `fgets`
reads second starts with `>` and closes the step list. -/
theorem flag_closed_after_long_step :
    split_lines long_step_example =
      ["# T\n".toList, ('*' :: List.replicate 2046 'a') ++ "> n\n".toList] ∧
    line_chars (split_lines long_step_example) = ['#', '*'] ∧
    (∃ c, run_lines (read_lines long_step_example.length long_step_example)
        emit_recipe_init = some c ∧ c.step_started = false) ∧
    (emit_recipe long_step_example).1 = true := by
  have hlines := long_step_lines "> n\n".toList "> n\n".toList [] (by decide)
  have hbufs := long_step_buffers "> n\n".toList
  have h2 : read_lines "> n\n".toList.length "> n\n".toList = ["> n\n".toList] := by decide
  rw [h2] at hbufs
  have h1 : line_char "# T\n".toList = some '#' := by decide
  have h3 : line_char "> n\n".toList = some '>' := by decide
  have hc : line_classes
      ["# T\n".toList, '*' :: List.replicate 2046 'a', "> n\n".toList] =
      [line_class.T, line_class.P, line_class.Q] := by
    rw [line_classes_cons h1, line_classes_cons long_step_char_buffer, line_classes_cons h3]
    rfl
  have hrun := run_lines_class
    ["# T\n".toList, '*' :: List.replicate 2046 'a', "> n\n".toList] emit_recipe_init
  rw [hc] at hrun
  refine ⟨hlines, ?_, ?_, ?_⟩
  · unfold long_step_example
    rw [hlines, line_chars_cons h1, line_chars_cons (long_step_char _)]
    rfl
  · unfold long_step_example
    rw [hbufs]
    cases hr : run_lines ["# T\n".toList, '*' :: List.replicate 2046 'a', "> n\n".toList]
        emit_recipe_init with
    | none =>
      rw [hr] at hrun
      exact absurd hrun (by decide)
    | some c =>
      rw [hr] at hrun
      refine ⟨c, rfl, ?_⟩
      have : (c.state, c.step_started) = (RECIPE_INFO, false) := Option.some.inj hrun
      exact (Prod.mk.inj this).2
  · unfold emit_recipe long_step_example
    rw [hbufs, emit_lines_class, hc]
    exact ⟨_, rfl⟩

theorem trimmed_line_marker (ch : Char) (n : Nat) (h0 : ch ≠ '\x00')
    (hws : is_ws ch = false) :
    trimmed_line (ch :: List.replicate n 'a') = ch :: List.replicate n 'a' := by
  rw [trimmed_line_cons ch _ h0 hws, c_str_no_nul (replicate_no_nul _),
    trim_right_eq_self _ _ (replicate_last _)]

/-- The loop body on the first 2047 characters of the long step line, after the title. -/
theorem long_step_step :
    process_line ('*' :: List.replicate 2046 'a')
      { state := RECIPE_TITLE
        step_started := false
        color_index := 0
        html := "<!DOCTYPE html><html>".toList ++ title_block "T".toList } = some
      { state := RECIPE_STEP
        step_started := true
        color_index := 0
        html := "<!DOCTYPE html><html>".toList ++ title_block "T".toList ++
          ("<div class=\"step\"><ul>".toList ++
            ("<li>".toList ++ List.replicate 2046 'a' ++ "</li>".toList)) } := by
  rw [process_line_step (trimmed_line_marker '*' 2046 (by decide) (by decide)),
    if_neg (by decide), trim_replicate, emit_body_step_first]

/-- The loop body on the rest of the long step line, `> n` with the newline. -/
theorem long_step_info :
    process_line "> n\n".toList
      { state := RECIPE_STEP
        step_started := true
        color_index := 0
        html := "<!DOCTYPE html><html>".toList ++ title_block "T".toList ++
          ("<div class=\"step\"><ul>".toList ++
            ("<li>".toList ++ List.replicate 2046 'a' ++ "</li>".toList)) } = some
      { state := RECIPE_INFO
        step_started := false
        color_index := 1
        html := "<!DOCTYPE html><html>".toList ++ title_block "T".toList ++
          ("<div class=\"step\"><ul>".toList ++
            ("<li>".toList ++ List.replicate 2046 'a' ++ "</li>".toList)) ++
          "</ul><div class=\"info c0\">n</div></div>".toList } := by
  have htl : trimmed_line "> n\n".toList = '>' :: " n".toList := by decide
  rw [process_line_quote htl, if_neg (by decide), if_pos (by decide)]
  simp only [emit_body_info, fputs, List.append_assoc]
  rfl

/-- The loop body on the line `* b` behind the long step line. -/
theorem long_step_second :
    process_line "* b\n".toList
      { state := RECIPE_INFO
        step_started := false
        color_index := 1
        html := "<!DOCTYPE html><html>".toList ++ title_block "T".toList ++
          ("<div class=\"step\"><ul>".toList ++
            ("<li>".toList ++ List.replicate 2046 'a' ++ "</li>".toList)) ++
          "</ul><div class=\"info c0\">n</div></div>".toList } = some
      { state := RECIPE_STEP
        step_started := true
        color_index := 1
        html := "<!DOCTYPE html><html>".toList ++ title_block "T".toList ++
          ("<div class=\"step\"><ul>".toList ++
            ("<li>".toList ++ List.replicate 2046 'a' ++ "</li>".toList)) ++
          "</ul><div class=\"info c0\">n</div></div>".toList ++
          "<div class=\"step\"><ul><li>b</li>".toList } := by
  have htl : trimmed_line "* b\n".toList = '*' :: " b".toList := by decide
  rw [process_line_step htl, if_neg (by decide), emit_body_step_first]
  rfl

/-- The loop body on the line `> real info` behind the line `* b`. -/
theorem long_step_real_info :
    process_line "> real info\n".toList
      { state := RECIPE_STEP
        step_started := true
        color_index := 1
        html := "<!DOCTYPE html><html>".toList ++ title_block "T".toList ++
          ("<div class=\"step\"><ul>".toList ++
            ("<li>".toList ++ List.replicate 2046 'a' ++ "</li>".toList)) ++
          "</ul><div class=\"info c0\">n</div></div>".toList ++
          "<div class=\"step\"><ul><li>b</li>".toList } = some
      { state := RECIPE_INFO
        step_started := false
        color_index := 2
        html := "<!DOCTYPE html><html>".toList ++ title_block "T".toList ++
          ("<div class=\"step\"><ul>".toList ++
            ("<li>".toList ++ List.replicate 2046 'a' ++ "</li>".toList)) ++
          "</ul><div class=\"info c0\">n</div></div>".toList ++
          "<div class=\"step\"><ul><li>b</li>".toList ++
          "</ul><div class=\"info c1\">real info</div></div>".toList } := by
  have htl : trimmed_line "> real info\n".toList = '>' :: " real info".toList := by decide
  rw [process_line_quote htl, if_neg (by decide), if_pos (by decide)]
  simp only [emit_body_info, fputs, List.append_assoc]
  rfl

/-- C8, the claim as stated fails: the last line of this document is a step line (of 2051
characters) and the document is accepted, but the text written does not end with
`</ul></div></body></html>`: the part of the line that `fgets` reads second, `> n`, is
written as an info line, which closes the step list before the end of the input. -/
theorem long_step_no_list_end :
    split_lines long_step_example =
      ["# T\n".toList, ('*' :: List.replicate 2046 'a') ++ "> n\n".toList] ∧
    last_line_char (split_lines long_step_example) = some '*' ∧
    emit_recipe long_step_example = (true,
      "<!DOCTYPE html><html>".toList ++ title_block "T".toList ++
      ("<div class=\"step\"><ul>".toList ++
        ("<li>".toList ++ List.replicate 2046 'a' ++ "</li>".toList)) ++
      "</ul><div class=\"info c0\">n</div></div>".toList ++ "</body></html>".toList) ∧
    ¬ ("</ul></div></body></html>".toList <:+ (emit_recipe long_step_example).2) := by
  have hlines := long_step_lines "> n\n".toList "> n\n".toList [] (by decide)
  have hbufs := long_step_buffers "> n\n".toList
  have h2 : read_lines "> n\n".toList.length "> n\n".toList = ["> n\n".toList] := by decide
  rw [h2] at hbufs
  have h1 : line_char "# T\n".toList = some '#' := by decide
  have hout : emit_recipe long_step_example = (true,
      "<!DOCTYPE html><html>".toList ++ title_block "T".toList ++
      ("<div class=\"step\"><ul>".toList ++
        ("<li>".toList ++ List.replicate 2046 'a' ++ "</li>".toList)) ++
      "</ul><div class=\"info c0\">n</div></div>".toList ++ "</body></html>".toList) := by
    unfold emit_recipe emit_lines long_step_example
    rw [hbufs, loop_step title_T_step, loop_step long_step_step, loop_step long_step_info]
    simp only [emit_recipe_loop, emit_recipe_finish, emit_html_end, fputs,
      Bool.false_eq_true, if_false]
  refine ⟨hlines, ?_, hout, ?_⟩
  · unfold long_step_example last_line_char
    rw [hlines, line_chars_cons h1, line_chars_cons (long_step_char _)]
    rfl
  · rw [hout]
    intro h
    have hT : ("</ul><div class=\"info c0\">n</div></div>".toList ++ "</body></html>".toList) <:+
        ("<!DOCTYPE html><html>".toList ++ title_block "T".toList ++
        ("<div class=\"step\"><ul>".toList ++
          ("<li>".toList ++ List.replicate 2046 'a' ++ "</li>".toList)) ++
        "</ul><div class=\"info c0\">n</div></div>".toList ++ "</body></html>".toList) := by
      rw [List.append_assoc]
      exact List.suffix_append _ _
    exact absurd (List.suffix_of_suffix_length_le h hT (by decide)) (by decide)

/-- C7, the claim as stated fails: in this accepted document the line `* b` is a step
line and the last line before it is a step line too (of 2051 characters), but the text
written for `* b` is `<div class="step"><ul><li>b</li>`, with a second `<ul>`: the part of
the long line that `fgets` reads second, `> n`, is written as an info line, which closes
the first step list. -/
theorem step_after_long_step_opens_list :
    split_lines long_step_example_b =
      ["# T\n".toList, ('*' :: List.replicate 2046 'a') ++ "> n\n".toList,
        "* b\n".toList] ∧
    last_line_char ["# T\n".toList, ('*' :: List.replicate 2046 'a') ++ "> n\n".toList] =
      some '*' ∧
    line_char "* b\n".toList = some '*' ∧
    rest_line "* b\n".toList = "b".toList ∧
    emit_recipe long_step_example_b = (true,
      "<!DOCTYPE html><html>".toList ++ title_block "T".toList ++
      ("<div class=\"step\"><ul>".toList ++
        ("<li>".toList ++ List.replicate 2046 'a' ++ "</li>".toList)) ++
      "</ul><div class=\"info c0\">n</div></div>".toList ++
      "<div class=\"step\"><ul><li>b</li>".toList ++
      "</ul></div>".toList ++ "</body></html>".toList) := by
  have hlines := long_step_lines "> n\n* b\n".toList "> n\n".toList ["* b\n".toList]
    (by decide)
  have hbufs := long_step_buffers "> n\n* b\n".toList
  have h2 : read_lines "> n\n* b\n".toList.length "> n\n* b\n".toList =
      ["> n\n".toList, "* b\n".toList] := by decide
  rw [h2] at hbufs
  have h1 : line_char "# T\n".toList = some '#' := by decide
  refine ⟨hlines, ?_, by decide, by decide, ?_⟩
  · unfold last_line_char
    rw [line_chars_cons h1, line_chars_cons (long_step_char _)]
    rfl
  · unfold emit_recipe emit_lines long_step_example_b
    rw [hbufs, loop_step title_T_step, loop_step long_step_step, loop_step long_step_info,
      loop_step long_step_second]
    simp only [emit_recipe_loop, emit_recipe_finish, emit_html_end, fputs, if_true]

/-- C6, the claim as stated fails: this accepted document has one annotation line,
`> real info`, its lines that are not skipped being a title line, two step lines and that
line; it is the annotation line number 0, but it is written with the colour class `c1`:
the second step line has 2051 characters, and the part of it that `fgets` reads second,
`> n`, is written as an info line with the class `c0`. -/
theorem info_after_long_step_colour :
    split_lines long_step_example_info =
      ["# T\n".toList, ('*' :: List.replicate 2046 'a') ++ "> n\n".toList,
        "* b\n".toList, "> real info\n".toList] ∧
    line_chars (split_lines long_step_example_info) = ['#', '*', '*', '>'] ∧
    emit_recipe long_step_example_info = (true,
      "<!DOCTYPE html><html>".toList ++ title_block "T".toList ++
      ("<div class=\"step\"><ul>".toList ++
        ("<li>".toList ++ List.replicate 2046 'a' ++ "</li>".toList)) ++
      "</ul><div class=\"info c0\">n</div></div>".toList ++
      "<div class=\"step\"><ul><li>b</li>".toList ++
      "</ul><div class=\"info c1\">real info</div></div>".toList ++
      "</body></html>".toList) := by
  have hlines := long_step_lines "> n\n* b\n> real info\n".toList "> n\n".toList
    ["* b\n".toList, "> real info\n".toList] (by decide)
  have hbufs := long_step_buffers "> n\n* b\n> real info\n".toList
  have h2 : read_lines "> n\n* b\n> real info\n".toList.length
      "> n\n* b\n> real info\n".toList =
      ["> n\n".toList, "* b\n".toList, "> real info\n".toList] := by decide
  rw [h2] at hbufs
  have h1 : line_char "# T\n".toList = some '#' := by decide
  refine ⟨hlines, ?_, ?_⟩
  · unfold long_step_example_info
    rw [hlines, line_chars_cons h1, line_chars_cons (long_step_char _)]
    rfl
  · unfold emit_recipe emit_lines long_step_example_info
    rw [hbufs, loop_step title_T_step, loop_step long_step_step, loop_step long_step_info,
      loop_step long_step_second, loop_step long_step_real_info]
    simp only [emit_recipe_loop, emit_recipe_finish, emit_html_end, fputs,
      Bool.false_eq_true, if_false]

theorem title_block_append (html title : List Char) :
    emit_body_title (emit_head html title) title = html ++ title_block title := by
  simp only [title_block, emit_body_title, emit_head, fputs, List.append_assoc,
    List.nil_append]

theorem marker_no_newline (m : Char) (hm : m ≠ '\n') (n : Nat) :
    '\n' ∉ m :: List.replicate n 'a' := by
  simp only [List.mem_cons, not_or]
  exact ⟨fun h => hm h.symm, replicate_no_newline _⟩

/-- The trimmed text of a line that starts with a marker and the letter `a` and ends with
its newline. -/
theorem trimmed_line_long (m : Char) (n : Nat) (t : List Char) (hm0 : m ≠ '\x00')
    (hmws : is_ws m = false) (ht0 : '\x00' ∉ t)
    (htl : ∀ ch, (List.replicate (n + 1) 'a' ++ t).getLast? = some ch → is_ws ch = false) :
    trimmed_line ((m :: List.replicate (n + 1) 'a') ++ (t ++ ['\n'])) =
      m :: (List.replicate (n + 1) 'a' ++ t) := by
  have h := trimmed_line_text (m :: (List.replicate (n + 1) 'a' ++ t))
    (by
      simp only [List.mem_cons, List.mem_append, not_or]
      exact ⟨fun h => hm0 h.symm, replicate_no_nul _, ht0⟩)
    (by
      intro ch h
      have : ch = m := (Option.some.inj h).symm
      subst this
      exact hmws)
    (by
      intro ch h
      have e : List.replicate (n + 1) 'a' ++ t = 'a' :: (List.replicate n 'a' ++ t) := by
        rw [List.replicate_succ]
        rfl
      rw [e, List.getLast?_cons_cons, ← e] at h
      exact htl ch h)
  rw [← h]
  simp only [List.cons_append, List.append_assoc]

theorem long_title_buffers :
    read_lines long_title_example.length long_title_example =
      ['#' :: List.replicate 2046 'a', "bcd\n".toList] := by
  have h := read_lines_long [] ('#' :: List.replicate 2046 'a') "bcd\n".toList
    (Or.inl rfl) (marker_no_newline '#' (by decide) _)
    (by rw [List.length_cons, List.length_replicate])
  have h0 : read_lines ([] : List Char).length [] = [] := rfl
  have h2 : read_lines "bcd\n".toList.length "bcd\n".toList = ["bcd\n".toList] := by decide
  rw [List.nil_append, h0, h2, List.nil_append] at h
  exact h

/-- The accepted document `long_title_example` is one title line of 2051 characters,
whose payload is 2046 times `a` and then `bcd`; the `<title>` and the heading written hold
the 2046 `a` only, and `bcd` is written as a paragraph. -/
theorem long_title_cut :
    split_lines long_title_example =
      [('#' :: List.replicate 2046 'a') ++ "bcd\n".toList] ∧
    rest_line (('#' :: List.replicate 2046 'a') ++ "bcd\n".toList) =
      List.replicate 2046 'a' ++ "bcd".toList ∧
    emit_recipe long_title_example = (true,
      "<!DOCTYPE html><html>".toList ++ title_block (List.replicate 2046 'a') ++
      "<div><p>bcd</p></div>".toList ++ "</body></html>".toList) := by
  have hlast : ∀ ch, (List.replicate (2045 + 1) 'a' ++ "bcd".toList).getLast? = some ch →
      is_ws ch = false := by
    intro ch h
    rw [List.getLast?_append_of_ne_nil _ (by decide)] at h
    have : ch = 'd' := (Option.some.inj h).symm
    subst this
    rfl
  refine ⟨?_, ?_, ?_⟩
  · unfold long_title_example
    exact split_lines_join ('#' :: List.replicate 2046 'a') "bcd\n".toList "bcd\n".toList []
      (marker_no_newline '#' (by decide) _) (by decide)
  · unfold rest_line
    have h := trimmed_line_long '#' 2045 "bcd".toList (by decide) (by decide) (by decide)
      hlast
    have e : ("bcd\n".toList : List Char) = "bcd".toList ++ ['\n'] := by decide
    rw [e, h, List.tail_cons]
    unfold trim
    rw [trim_right_eq_self _ _ hlast]
    exact trim_left_eq_self _ _ (replicate_append_head 2045 _)
  · have hp1 : process_line ('#' :: List.replicate 2046 'a') emit_recipe_init = some
        { state := RECIPE_TITLE
          step_started := false
          color_index := 0
          html := "<!DOCTYPE html><html>".toList ++
            title_block (List.replicate 2046 'a') } := by
      rw [process_line_title (trimmed_line_marker '#' 2046 (by decide) (by decide)),
        if_neg (by decide), trim_replicate, title_block_append]
      rfl
    have htl2 : trimmed_line "bcd\n".toList = 'b' :: "cd".toList := by decide
    have hp2 : process_line "bcd\n".toList
        { state := RECIPE_TITLE
          step_started := false
          color_index := 0
          html := "<!DOCTYPE html><html>".toList ++
            title_block (List.replicate 2046 'a') } = some
        { state := RECIPE_DESCRIPTION
          step_started := false
          color_index := 0
          html := "<!DOCTYPE html><html>".toList ++
            title_block (List.replicate 2046 'a') ++ "<div><p>bcd</p></div>".toList } := by
      rw [process_line_text htl2 (by decide) (by decide) (by decide) (by decide),
        if_neg (by decide)]
      rfl
    unfold emit_recipe emit_lines
    rw [long_title_buffers, loop_step hp1, loop_step hp2]
    simp only [emit_recipe_loop, emit_recipe_finish, emit_html_end, fputs,
      Bool.false_eq_true, if_false]

theorem trim_right_bracket_replicate (n : Nat) :
    trim_right (List.replicate n 'a') is_right_bracket = List.replicate n 'a' := by
  apply trim_right_eq_self
  intro ch h
  rw [List.getLast?_replicate] at h
  split at h
  · exact Option.noConfusion h
  · simp only [Option.some.injEq] at h
    subst h
    rfl

theorem long_image_buffers :
    read_lines long_image_example.length long_image_example =
      ["# T\n".toList, '[' :: List.replicate 2046 'a', "> sub]]\n".toList] := by
  unfold long_image_example
  rw [read_lines_long "# T\n".toList ('[' :: List.replicate 2046 'a') "> sub]]\n".toList
    (Or.inr (by decide)) (marker_no_newline '[' (by decide) _)
    (by rw [List.length_cons, List.length_replicate])]
  have h1 : read_lines "# T\n".toList.length "# T\n".toList = ["# T\n".toList] := by decide
  have h2 : read_lines "> sub]]\n".toList.length "> sub]]\n".toList =
      ["> sub]]\n".toList] := by decide
  rw [h1, h2]
  rfl

/-- C11, the claim as stated fails: the second line of this accepted document is an image
line of 2055 characters; its trimmed text behind `[`, without the closing brackets at its
end, is 2046 times `a` and then `> sub`, but the `src` written is the 2046 `a` only, and
the rest of the line is written as a subtitle. -/
theorem long_image_cut :
    split_lines long_image_example =
      ["# T\n".toList, ('[' :: List.replicate 2046 'a') ++ "> sub]]\n".toList] ∧
    line_char (('[' :: List.replicate 2046 'a') ++ "> sub]]\n".toList) = some '[' ∧
    trim_right (rest_line (('[' :: List.replicate 2046 'a') ++ "> sub]]\n".toList))
      is_right_bracket = List.replicate 2046 'a' ++ "> sub".toList ∧
    emit_recipe long_image_example = (true,
      "<!DOCTYPE html><html>".toList ++ title_block "T".toList ++
      ("<div><img src=\"".toList ++ List.replicate 2046 'a' ++ "\"></div>".toList) ++
      "<div><blockquote>sub]]</blockquote></div>".toList ++ "</body></html>".toList) := by
  have hlast : ∀ ch, (List.replicate (2045 + 1) 'a' ++ "> sub]]".toList).getLast? = some ch →
      is_ws ch = false := by
    intro ch h
    rw [List.getLast?_append_of_ne_nil _ (by decide)] at h
    have : ch = ']' := (Option.some.inj h).symm
    subst this
    rfl
  refine ⟨?_, line_char_cons _ _ (by decide) (by decide), ?_, ?_⟩
  · unfold long_image_example
    rw [split_lines_append _ _ (Or.inr (by decide)),
      split_lines_join ('[' :: List.replicate 2046 'a') "> sub]]\n".toList
        "> sub]]\n".toList [] (marker_no_newline '[' (by decide) _) (by decide)]
    have h1 : split_lines "# T\n".toList = ["# T\n".toList] := by decide
    rw [h1]
    rfl
  · unfold rest_line
    have h := trimmed_line_long '[' 2045 "> sub]]".toList (by decide) (by decide)
      (by decide) hlast
    have e : ("> sub]]\n".toList : List Char) = "> sub]]".toList ++ ['\n'] := by decide
    rw [e, h, List.tail_cons]
    have ht : trim (List.replicate (2045 + 1) 'a' ++ "> sub]]".toList) =
        List.replicate (2045 + 1) 'a' ++ "> sub]]".toList := by
      unfold trim
      rw [trim_right_eq_self _ _ hlast]
      exact trim_left_eq_self _ _ (replicate_append_head 2045 _)
    rw [ht]
    have e2 : List.replicate (2045 + 1) 'a' ++ "> sub]]".toList =
        ((List.replicate 2046 'a' ++ "> sub".toList) ++ [']']) ++ [']'] := by
      simp only [List.append_assoc]
      rfl
    rw [e2]
    have hr1 : trim_right (((List.replicate 2046 'a' ++ "> sub".toList) ++ [']']) ++ [']'])
        is_right_bracket =
        trim_right ((List.replicate 2046 'a' ++ "> sub".toList) ++ [']']) is_right_bracket :=
      List.rdropWhile_concat_pos is_right_bracket _ ']' rfl
    have hr2 : trim_right ((List.replicate 2046 'a' ++ "> sub".toList) ++ [']'])
        is_right_bracket =
        trim_right (List.replicate 2046 'a' ++ "> sub".toList) is_right_bracket :=
      List.rdropWhile_concat_pos is_right_bracket _ ']' rfl
    rw [hr1, hr2]
    apply trim_right_eq_self
    intro ch h
    rw [List.getLast?_append_of_ne_nil _ (by decide)] at h
    have : ch = 'b' := (Option.some.inj h).symm
    subst this
    rfl
  · have hp2 : process_line ('[' :: List.replicate 2046 'a')
        { state := RECIPE_TITLE
          step_started := false
          color_index := 0
          html := "<!DOCTYPE html><html>".toList ++ title_block "T".toList } = some
        { state := RECIPE_IMAGE
          step_started := false
          color_index := 0
          html := "<!DOCTYPE html><html>".toList ++ title_block "T".toList ++
            ("<div><img src=\"".toList ++ List.replicate 2046 'a' ++
              "\"></div>".toList) } := by
      rw [process_line_image (trimmed_line_marker '[' 2046 (by decide) (by decide)),
        if_neg (by decide), trim_replicate, trim_right_bracket_replicate]
      rfl
    have htl3 : trimmed_line "> sub]]\n".toList = '>' :: " sub]]".toList := by decide
    have hp3 : process_line "> sub]]\n".toList
        { state := RECIPE_IMAGE
          step_started := false
          color_index := 0
          html := "<!DOCTYPE html><html>".toList ++ title_block "T".toList ++
            ("<div><img src=\"".toList ++ List.replicate 2046 'a' ++
              "\"></div>".toList) } = some
        { state := RECIPE_SUBTITLE
          step_started := false
          color_index := 0
          html := "<!DOCTYPE html><html>".toList ++ title_block "T".toList ++
            ("<div><img src=\"".toList ++ List.replicate 2046 'a' ++
              "\"></div>".toList) ++
            "<div><blockquote>sub]]</blockquote></div>".toList } := by
      rw [process_line_quote htl3, if_pos (by decide)]
      rfl
    unfold emit_recipe emit_lines
    rw [long_image_buffers, loop_step title_T_step, loop_step hp2, loop_step hp3]
    simp only [emit_recipe_loop, emit_recipe_finish, emit_html_end, fputs,
      Bool.false_eq_true, if_false]

/-! ## Documents whose lines fit the buffer

For a stream whose lines hold at most 2047 characters each, the newline counted, the
buffers that `fgets` returns are the lines of the stream, so what holds for the loop on
buffers holds for `emit_recipe` on the lines of its input. -/

/-- The text written when the loop starts stays at the start of the output. -/
theorem loop_html_prefix (ls : List (List Char)) (c : emit_ctx) :
    ∃ rest, (emit_recipe_loop ls c).2 = c.html ++ rest := by
  induction ls generalizing c with
  | nil =>
    cases hb : c.step_started
    · exact ⟨"</body></html>".toList, by
        simp [emit_recipe_loop, emit_recipe_finish, emit_html_end, fputs, hb]⟩
    · exact ⟨"</ul></div>".toList ++ "</body></html>".toList, by
        simp [emit_recipe_loop, emit_recipe_finish, emit_html_end, fputs, hb]⟩
  | cons l ls ih =>
    cases hp : process_line l c with
    | none => exact ⟨[], by simp [emit_recipe_loop, hp]⟩
    | some c1 =>
      obtain ⟨frag, hf⟩ := process_line_html hp
      obtain ⟨rest, hr⟩ := ih c1
      exact ⟨frag ++ rest, by
        simp only [emit_recipe_loop, hp]
        rw [hr, hf, List.append_assoc]⟩

/-- The text written while the first lines of a document are processed is the start of
the text that `emit_recipe` writes. -/
theorem emit_recipe_prefix (recipe : List Char)
    (hfit : ∀ l ∈ split_lines recipe, l.length ≤ 2047) (pre post : List (List Char))
    (c : emit_ctx) (hsplit : split_lines recipe = pre ++ post)
    (hrun : run_lines pre emit_recipe_init = some c) :
    ∃ rest, (emit_recipe recipe).2 = c.html ++ rest := by
  rw [emit_recipe_fit recipe hfit, hsplit]
  unfold emit_lines
  rw [loop_append_some hrun]
  exact loop_html_prefix post c

theorem emit_recipe_prefix_line (recipe : List Char)
    (hfit : ∀ l ∈ split_lines recipe, l.length ≤ 2047) (pre post : List (List Char))
    (linebuf : List Char) (c c1 : emit_ctx)
    (hsplit : split_lines recipe = pre ++ linebuf :: post)
    (hrun : run_lines pre emit_recipe_init = some c)
    (hacc : process_line linebuf c = some c1) :
    ∃ rest, (emit_recipe recipe).2 = c1.html ++ rest := by
  have hrun1 : run_lines (pre ++ [linebuf]) emit_recipe_init = some c1 := by
    rw [run_lines_append, hrun]
    simp [run_lines, hacc]
  exact emit_recipe_prefix recipe hfit (pre ++ [linebuf]) post c1
    (by rw [hsplit, List.append_assoc]; rfl) hrun1

/-- C4, amended: for an input whose lines each fit the read buffer (at most 2047
characters, the newline counted): when two of its lines whose trimmed texts start with `>`
have only lines of whitespace characters (or nothing) between them, `emit_recipe` returns
false, whatever comes before and after. -/
theorem emit_recipe_fails_two_quotes (recipe : List Char)
    (hfit : ∀ l ∈ split_lines recipe, l.length ≤ 2047)
    (pre blanks post : List (List Char)) (q1 q2 : List Char)
    (hsplit : split_lines recipe = pre ++ q1 :: (blanks ++ q2 :: post))
    (h1 : line_char q1 = some '>') (hb : ∀ b ∈ blanks, ∀ ch ∈ b, is_ws ch = true)
    (h2 : line_char q2 = some '>') :
    (emit_recipe recipe).1 = false := by
  rw [emit_recipe_fit recipe hfit, hsplit]
  exact emit_fails_two_quotes pre blanks post q1 q2 h1 hb h2

theorem emit_recipe_fails_two_quotes_witness :
    (∀ l ∈ split_lines "# Title\n> Sub1\n> Sub2\n".toList, l.length ≤ 2047) ∧
    split_lines "# Title\n> Sub1\n> Sub2\n".toList =
      ["# Title\n".toList] ++ "> Sub1\n".toList :: ([] ++ "> Sub2\n".toList :: []) ∧
    (emit_recipe "# Title\n> Sub1\n> Sub2\n".toList).1 = false :=
  ⟨by decide, by decide,
   emit_recipe_fails_two_quotes "# Title\n> Sub1\n> Sub2\n".toList (by decide)
    ["# Title\n".toList] [] [] "> Sub1\n".toList "> Sub2\n".toList
    (by decide) (by decide) (by simp) (by decide)⟩

/-- C6, amended: for an input whose lines each fit the read buffer (at most 2047
characters, the newline counted): when the lines `pre` before a line of the input have
been processed without violation and that line is accepted as an info line, with `k` info
lines accepted before it, the colour index at that point is `k mod 4` and the line is
written as `</ul><div class="info c(k mod 4)">text</div></div>`, however many other lines
were read; the text that `emit_recipe` writes starts with the text written up to and
including this line. -/
theorem emit_recipe_info_colour (recipe : List Char)
    (hfit : ∀ l ∈ split_lines recipe, l.length ≤ 2047)
    (pre post : List (List Char)) (linebuf : List Char) (c : emit_ctx)
    (hsplit : split_lines recipe = pre ++ linebuf :: post)
    (hrun : run_lines pre emit_recipe_init = some c)
    (hinfo : is_info_line linebuf c = true) :
    c.color_index = info_count pre emit_recipe_init % 4 ∧
    info_count (pre ++ [linebuf]) emit_recipe_init = info_count pre emit_recipe_init + 1 ∧
    ∃ c1, process_line linebuf c = some c1 ∧
      c1.state = RECIPE_INFO ∧
      c1.html = c.html ++ ("</ul>".toList ++ ("<div class=\"info c".toList ++
        (Nat.repr (info_count pre emit_recipe_init % 4)).toList ++ "\">".toList ++
        rest_line linebuf ++ "</div>".toList) ++ "</div>".toList) ∧
      ∃ rest, (emit_recipe recipe).2 = c1.html ++ rest := by
  obtain ⟨hcol, hcount, c1, hacc, hstate, hhtml⟩ := info_line_colour pre linebuf c hrun hinfo
  exact ⟨hcol, hcount, c1, hacc, hstate, hhtml,
    emit_recipe_prefix_line recipe hfit pre post linebuf c c1 hsplit hrun hacc⟩

theorem emit_recipe_info_colour_witness :
    (∀ l ∈ split_lines "# T\n* a\n> n1\n* b\n> n2\n".toList, l.length ≤ 2047) ∧
    split_lines "# T\n* a\n> n1\n* b\n> n2\n".toList =
      ["# T\n".toList, "* a\n".toList, "> n1\n".toList, "* b\n".toList] ++
        "> n2\n".toList :: [] ∧
    ∃ c, run_lines ["# T\n".toList, "* a\n".toList, "> n1\n".toList, "* b\n".toList]
        emit_recipe_init = some c ∧
      is_info_line "> n2\n".toList c = true ∧
      c.color_index = 1 :=
  ⟨by decide, by decide, _, rfl, by decide,
   (emit_recipe_info_colour "# T\n* a\n> n1\n* b\n> n2\n".toList (by decide)
      ["# T\n".toList, "* a\n".toList, "> n1\n".toList, "* b\n".toList] []
      "> n2\n".toList _ (by decide) rfl (by decide)).1⟩

/-- C7, amended: for an input whose lines each fit the read buffer (at most 2047
characters, the newline counted): when the lines `pre` before a line of the input have
been processed without violation and that line is a step line that is accepted, the text
written for it is `<li>text</li>` when the last line before it that is not skipped is a
step line too, and `<div class="step"><ul><li>text</li>` otherwise; the step lines that
follow it directly in the input are all accepted and add one `<li>text</li>` each and
nothing else; the text that `emit_recipe` writes starts with the text written up to and
including these lines. -/
theorem emit_recipe_step_fragment (recipe : List Char)
    (hfit : ∀ l ∈ split_lines recipe, l.length ≤ 2047)
    (pre post : List (List Char)) (linebuf : List Char) (c c1 : emit_ctx)
    (hsplit : split_lines recipe = pre ++ linebuf :: post)
    (hrun : run_lines pre emit_recipe_init = some c)
    (hstep : line_char linebuf = some '*')
    (hacc : process_line linebuf c = some c1) :
    c1.html = c.html ++
      (if last_line_char pre = some '*' then
        "<li>".toList ++ rest_line linebuf ++ "</li>".toList
      else
        "<div class=\"step\"><ul>".toList ++
          ("<li>".toList ++ rest_line linebuf ++ "</li>".toList)) ∧
    (∃ rest, (emit_recipe recipe).2 = c1.html ++ rest) ∧
    ∀ steps more : List (List Char), post = steps ++ more →
      (∀ s ∈ steps, line_char s = some '*') →
      ∃ c2, run_lines steps c1 = some c2 ∧
        c2.html = c1.html ++ (steps.map (fun s =>
          "<li>".toList ++ rest_line s ++ "</li>".toList)).flatten ∧
        ∃ rest, (emit_recipe recipe).2 = c2.html ++ rest := by
  obtain ⟨hfrag, hsteps⟩ := step_line_fragment pre linebuf c c1 hrun hstep hacc
  refine ⟨hfrag, emit_recipe_prefix_line recipe hfit pre post linebuf c c1 hsplit hrun hacc,
    ?_⟩
  intro steps more hpost hall
  obtain ⟨c2, hrun2, hhtml2⟩ := hsteps steps hall
  refine ⟨c2, hrun2, hhtml2, ?_⟩
  have hrun1 : run_lines (pre ++ linebuf :: steps) emit_recipe_init = some c2 := by
    rw [run_lines_append, hrun]
    simp [run_lines, hacc, hrun2]
  exact emit_recipe_prefix recipe hfit (pre ++ linebuf :: steps) more c2
    (by rw [hsplit, hpost, List.append_assoc]; rfl) hrun1

theorem emit_recipe_step_fragment_witness :
    (∀ l ∈ split_lines "# T\n* a\n\n* b\n".toList, l.length ≤ 2047) ∧
    split_lines "# T\n* a\n\n* b\n".toList =
      ["# T\n".toList, "* a\n".toList, "\n".toList] ++ "* b\n".toList :: [] ∧
    ∃ c c1, run_lines ["# T\n".toList, "* a\n".toList, "\n".toList] emit_recipe_init =
        some c ∧
      process_line "* b\n".toList c = some c1 ∧
      c1.html = c.html ++ "<li>b</li>".toList :=
  ⟨by decide, by decide, _, _, rfl, rfl,
   (emit_recipe_step_fragment "# T\n* a\n\n* b\n".toList (by decide)
      ["# T\n".toList, "* a\n".toList, "\n".toList] [] "* b\n".toList _ _
      (by decide) rfl (by decide) rfl).1⟩

/-- C8, amended: for an input whose lines each fit the read buffer (at most 2047
characters, the newline counted): when `emit_recipe` returns true, the text written is
some `body` followed by `</body></html>`, and `body` ends with `</ul></div>` exactly when
the last line of the input that is not skipped is a step line. -/
theorem emit_recipe_end_tags (recipe : List Char)
    (hfit : ∀ l ∈ split_lines recipe, l.length ≤ 2047)
    (h : (emit_recipe recipe).1 = true) :
    ∃ body, (emit_recipe recipe).2 = body ++ "</body></html>".toList ∧
      ("</ul></div>".toList <:+ body ↔
        last_line_char (split_lines recipe) = some '*') := by
  rw [emit_recipe_fit recipe hfit] at h ⊢
  exact emit_end_tags (split_lines recipe) h

theorem emit_recipe_end_tags_witness :
    (∀ l ∈ split_lines "# T\n* a\n".toList, l.length ≤ 2047) ∧
    (emit_recipe "# T\n* a\n".toList).1 = true ∧
    last_line_char (split_lines "# T\n* a\n".toList) = some '*' ∧
    ∃ body, (emit_recipe "# T\n* a\n".toList).2 = body ++ "</body></html>".toList ∧
      ("</ul></div>".toList <:+ body ↔
        last_line_char (split_lines "# T\n* a\n".toList) = some '*') :=
  ⟨by decide, by decide, by decide,
   emit_recipe_end_tags "# T\n* a\n".toList (by decide) (by decide)⟩

/-- C10, the claim as stated fails, in two ways. On the empty stream `emit_recipe` returns
true and writes `<!DOCTYPE html><html></body></html>`, which has no head, no title and no
opened body. And the accepted document `long_title_example` is one title line of 2051
characters, whose payload is 2046 times `a` and then `bcd`: the `<title>` and the heading
written hold the 2046 `a` only, and `bcd` is written as a paragraph. -/
theorem emit_no_head_or_cut_title :
    (emit_recipe [] = (true, "<!DOCTYPE html><html></body></html>".toList) ∧
      ¬ ∃ title rest, (emit_recipe []).2 =
        "<!DOCTYPE html><html>".toList ++ title_block title ++ rest ++
          "</body></html>".toList) ∧
    split_lines long_title_example =
      [('#' :: List.replicate 2046 'a') ++ "bcd\n".toList] ∧
    rest_line (('#' :: List.replicate 2046 'a') ++ "bcd\n".toList) =
      List.replicate 2046 'a' ++ "bcd".toList ∧
    emit_recipe long_title_example = (true,
      "<!DOCTYPE html><html>".toList ++ title_block (List.replicate 2046 'a') ++
      "<div><p>bcd</p></div>".toList ++ "</body></html>".toList) :=
  ⟨emit_empty_no_head, long_title_cut⟩

/-- C10, amended: for an input whose lines each fit the read buffer (at most 2047
characters, the newline counted) and that has at least one line that is not skipped: when
`emit_recipe` returns true, the first such line is a title line, and the text written is
`<!DOCTYPE html><html>`, then the head block with the title payload in `<title>` and the
links to `css/style.css` and `css/colors.css`, then `<body>` and the title heading, then
the rest of the body, and at the end `</body></html>`. -/
theorem emit_recipe_complete_document (recipe : List Char)
    (hfit : ∀ l ∈ split_lines recipe, l.length ≤ 2047)
    (h : (emit_recipe recipe).1 = true) (hne : line_chars (split_lines recipe) ≠ []) :
    ∃ pre l post rest, split_lines recipe = pre ++ l :: post ∧
      (∀ b ∈ pre, line_char b = none) ∧
      line_char l = some '#' ∧
      (emit_recipe recipe).2 =
        "<!DOCTYPE html><html>".toList ++
        ("<head>".toList ++ ("<title>".toList ++ rest_line l ++ "</title>".toList) ++
          "<link rel=\"stylesheet\" type=\"text/css\" href=\"css/style.css\">".toList ++
          "<link rel=\"stylesheet\" type=\"text/css\" href=\"css/colors.css\">".toList ++
          "</head>".toList ++ "<body>".toList ++
          ("<div><h1>".toList ++ rest_line l ++ "</h1></div>".toList)) ++
        rest ++ "</body></html>".toList := by
  rw [emit_recipe_fit recipe hfit] at h ⊢
  exact emit_complete_document (split_lines recipe) h hne

theorem emit_recipe_complete_document_witness :
    (∀ l ∈ split_lines "\n# T\n* a\n".toList, l.length ≤ 2047) ∧
    (emit_recipe "\n# T\n* a\n".toList).1 = true ∧
    line_chars (split_lines "\n# T\n* a\n".toList) ≠ [] ∧
    ∃ pre l post rest, split_lines "\n# T\n* a\n".toList = pre ++ l :: post ∧
      (∀ b ∈ pre, line_char b = none) ∧
      line_char l = some '#' ∧
      (emit_recipe "\n# T\n* a\n".toList).2 =
        "<!DOCTYPE html><html>".toList ++
        ("<head>".toList ++ ("<title>".toList ++ rest_line l ++ "</title>".toList) ++
          "<link rel=\"stylesheet\" type=\"text/css\" href=\"css/style.css\">".toList ++
          "<link rel=\"stylesheet\" type=\"text/css\" href=\"css/colors.css\">".toList ++
          "</head>".toList ++ "<body>".toList ++
          ("<div><h1>".toList ++ rest_line l ++ "</h1></div>".toList)) ++
        rest ++ "</body></html>".toList :=
  ⟨by decide, by decide, by decide,
   emit_recipe_complete_document "\n# T\n* a\n".toList (by decide) (by decide) (by decide)⟩

/-- C11, amended: for an input whose lines each fit the read buffer (at most 2047
characters, the newline counted): when the lines `pre` before a line of the input have
been processed without violation and that line is an image line that is accepted, the text
written for it is `<div><img src="path"></div>`, where `path` is the trimmed text behind
`[` without its whole run of closing brackets at the end: the text behind `[` is `path`
followed by closing brackets only, and `path` does not end with a closing bracket; the
text that `emit_recipe` writes starts with the text written up to and including this
line. -/
theorem emit_recipe_image_path (recipe : List Char)
    (hfit : ∀ l ∈ split_lines recipe, l.length ≤ 2047)
    (pre post : List (List Char)) (linebuf : List Char) (c c1 : emit_ctx)
    (hsplit : split_lines recipe = pre ++ linebuf :: post)
    (hrun : run_lines pre emit_recipe_init = some c)
    (himg : line_char linebuf = some '[') (hacc : process_line linebuf c = some c1) :
    (∃ k, rest_line linebuf =
      trim_right (rest_line linebuf) is_right_bracket ++ List.replicate k ']') ∧
    (trim_right (rest_line linebuf) is_right_bracket).getLast? ≠ some ']' ∧
    c1.html = c.html ++ ("<div><img src=\"".toList ++
      trim_right (rest_line linebuf) is_right_bracket ++ "\"></div>".toList) ∧
    ∃ rest, (emit_recipe recipe).2 = c1.html ++ rest := by
  obtain ⟨hk, hlast, hhtml⟩ := image_line_path linebuf c c1 himg hacc
  exact ⟨hk, hlast, hhtml,
    emit_recipe_prefix_line recipe hfit pre post linebuf c c1 hsplit hrun hacc⟩

theorem emit_recipe_image_path_witness :
    (∀ l ∈ split_lines "# T\n[img.png]]]\n".toList, l.length ≤ 2047) ∧
    split_lines "# T\n[img.png]]]\n".toList = ["# T\n".toList] ++ "[img.png]]]\n".toList :: [] ∧
    trim_right (rest_line "[img.png]]]\n".toList) is_right_bracket = "img.png".toList ∧
    ∃ c c1, run_lines ["# T\n".toList] emit_recipe_init = some c ∧
      process_line "[img.png]]]\n".toList c = some c1 ∧
      c1.html = c.html ++ ("<div><img src=\"".toList ++
        trim_right (rest_line "[img.png]]]\n".toList) is_right_bracket ++
        "\"></div>".toList) :=
  ⟨by decide, by decide, by decide, _, _, rfl, rfl,
   (emit_recipe_image_path "# T\n[img.png]]]\n".toList (by decide)
      ["# T\n".toList] [] "[img.png]]]\n".toList _ _ (by decide) rfl (by decide) rfl).2.2.1⟩

/-- C13, amended: for an input whose lines each fit the read buffer (at most 2047
characters, the newline counted): when the first lines `pre` of the input have been
processed without violation, `step_started` is true exactly when there is a last step line
among them and no `>` line (an info line) behind it; the code behind the loop leaves the
flag false, and when `pre` is the whole input, `emit_recipe` returns true with the text
written by then. -/
theorem emit_recipe_step_started_iff_open (recipe : List Char)
    (hfit : ∀ l ∈ split_lines recipe, l.length ≤ 2047)
    (pre post : List (List Char)) (c : emit_ctx)
    (hsplit : split_lines recipe = pre ++ post)
    (hrun : run_lines pre emit_recipe_init = some c) :
    (c.step_started = true ↔
      ∃ a b, line_chars pre = a ++ '*' :: b ∧ '*' ∉ b ∧ '>' ∉ b) ∧
    (emit_recipe_close c).step_started = false ∧
    (∃ rest, (emit_recipe recipe).2 = c.html ++ rest) ∧
    (post = [] → emit_recipe recipe = (true, (emit_recipe_close c).html)) := by
  obtain ⟨hiff, hclose, hemit⟩ := step_started_iff_open pre c hrun
  refine ⟨hiff, hclose, emit_recipe_prefix recipe hfit pre post c hsplit hrun, ?_⟩
  intro hpost
  rw [emit_recipe_fit recipe hfit, hsplit, hpost, List.append_nil]
  exact hemit

theorem emit_recipe_step_started_iff_open_witness :
    (∀ l ∈ split_lines "# T\n* a\n> n\n* b\n".toList, l.length ≤ 2047) ∧
    split_lines "# T\n* a\n> n\n* b\n".toList =
      ["# T\n".toList, "* a\n".toList, "> n\n".toList, "* b\n".toList] ++ [] ∧
    ∃ c, run_lines ["# T\n".toList, "* a\n".toList, "> n\n".toList, "* b\n".toList]
        emit_recipe_init = some c ∧
      c.step_started = true ∧
      (c.step_started = true ↔ ∃ a b,
        line_chars ["# T\n".toList, "* a\n".toList, "> n\n".toList, "* b\n".toList] =
          a ++ '*' :: b ∧ '*' ∉ b ∧ '>' ∉ b) :=
  ⟨by decide, by decide, _, rfl, rfl,
   (emit_recipe_step_started_iff_open "# T\n* a\n> n\n* b\n".toList (by decide)
      ["# T\n".toList, "* a\n".toList, "> n\n".toList, "* b\n".toList] [] _
      (by decide) rfl).1⟩

/-- C16, amended: `trim` removes the longest run of `isspace` characters at each end of a
string: the string is whitespace, then the result, then whitespace; the result neither
starts nor ends with whitespace; it is empty for a string of whitespace only; trimming it
again changes nothing. So, for an input whose lines each fit the read buffer (at most 2047
characters, the newline counted) and every line of it that is accepted after the lines
before it, the text written for a title, subtitle, info or step line is `rest_line`, the
trimmed text behind the marker, and the text written for a description line is the whole
trimmed line; the text that `emit_recipe` writes starts with the text written up to and
including this line. -/
theorem emit_recipe_trim_spec (s : List Char) :
    (∃ pre suf, s = pre ++ trim s ++ suf ∧ (∀ ch ∈ pre, is_ws ch = true) ∧
      (∀ ch ∈ suf, is_ws ch = true)) ∧
    (∀ ch, (trim s).head? = some ch → is_ws ch = false) ∧
    (∀ ch, (trim s).getLast? = some ch → is_ws ch = false) ∧
    ((∀ ch ∈ s, is_ws ch = true) → trim s = []) ∧
    trim (trim s) = trim s ∧
    ∀ recipe : List Char, (∀ l ∈ split_lines recipe, l.length ≤ 2047) →
    ∀ (pre post : List (List Char)) (linebuf : List Char) (c c1 : emit_ctx),
      split_lines recipe = pre ++ linebuf :: post →
      run_lines pre emit_recipe_init = some c →
      process_line linebuf c = some c1 →
      rest_line linebuf = trim (trimmed_line linebuf).tail ∧
      (line_char linebuf = some '#' →
        c1.html = emit_body_title (emit_head c.html (rest_line linebuf)) (rest_line linebuf)) ∧
      (line_char linebuf = some '>' →
        c1.html = emit_body_subtitle c.html (rest_line linebuf) ∨
        c1.html = emit_body_info c.html (rest_line linebuf) c.color_index) ∧
      (line_char linebuf = some '*' →
        c1.html = emit_body_step c.html (rest_line linebuf) c.step_started) ∧
      (∀ ch, line_char linebuf = some ch → ch ≠ '#' → ch ≠ '>' → ch ≠ '[' → ch ≠ '*' →
        c1.html = emit_body_description c.html (trimmed_line linebuf)) ∧
      ∃ rest, (emit_recipe recipe).2 = c1.html ++ rest := by
  obtain ⟨t1, t2, t3, t4, t5, hline⟩ := trim_spec s
  refine ⟨t1, t2, t3, t4, t5, ?_⟩
  intro recipe hfit pre post linebuf c c1 hsplit hrun hacc
  obtain ⟨p1, p2, p3, p4, p5⟩ := hline linebuf c c1 hacc
  exact ⟨p1, p2, p3, p4, p5,
    emit_recipe_prefix_line recipe hfit pre post linebuf c c1 hsplit hrun hacc⟩

theorem emit_recipe_trim_spec_witness :
    trim " \t a b \n".toList = "a b".toList ∧
    (∀ l ∈ split_lines "# T\n  hello all \n".toList, l.length ≤ 2047) ∧
    split_lines "# T\n  hello all \n".toList =
      ["# T\n".toList] ++ "  hello all \n".toList :: [] ∧
    trimmed_line "  hello all \n".toList = "hello all".toList ∧
    ∃ c c1, run_lines ["# T\n".toList] emit_recipe_init = some c ∧
      process_line "  hello all \n".toList c = some c1 ∧
      c1.html = emit_body_description c.html (trimmed_line "  hello all \n".toList) :=
  ⟨by decide, by decide, by decide, by decide, _, _, rfl, rfl,
   ((emit_recipe_trim_spec " \t a b \n".toList).2.2.2.2.2 "# T\n  hello all \n".toList
      (by decide) ["# T\n".toList] [] "  hello all \n".toList _ _ (by decide) rfl
      rfl).2.2.2.2.1 'h' (by decide) (by decide) (by decide) (by decide) (by decide)⟩

/-- C18, amended: for an input whose lines each fit the read buffer (at most 2047
characters, the newline counted): `emit_recipe` returns true exactly when the kinds of the
lines that are not skipped form the empty sequence or match
`T ( I? (Q D*)? | D+ ) ( P+ (Q P+)* Q? )?`. So an input without lines, or with skipped
lines only, is accepted; a description line whose last line before it is an image line is
rejected; and behind an accepted step line only skipped lines, `*` lines and `>` lines
occur in an accepted input. -/
theorem emit_recipe_accepts_iff_grammar (recipe : List Char)
    (hfit : ∀ l ∈ split_lines recipe, l.length ≤ 2047) :
    ((emit_recipe recipe).1 = true ↔
      line_classes (split_lines recipe) = [] ∨
        line_classes (split_lines recipe) ∈ recipe_regex.matches') ∧
    ((∀ b ∈ split_lines recipe, line_char b = none) → (emit_recipe recipe).1 = true) ∧
    (∀ (pre post : List (List Char)) (d : List Char) (ch : Char),
      split_lines recipe = pre ++ d :: post → last_line_char pre = some '[' →
      line_char d = some ch → char_class ch = line_class.D →
      (emit_recipe recipe).1 = false) ∧
    (∀ (pre post : List (List Char)) (s : List Char),
      split_lines recipe = pre ++ s :: post → line_char s = some '*' →
      (emit_recipe recipe).1 = true →
      ∀ l ∈ post, line_char l = none ∨ line_char l = some '*' ∨ line_char l = some '>') := by
  rw [emit_recipe_fit recipe hfit]
  exact emit_accepts_iff_grammar (split_lines recipe)

theorem emit_recipe_accepts_iff_grammar_witness :
    (∀ l ∈ split_lines "# T\n[x]\n> s\n* a\n".toList, l.length ≤ 2047) ∧
    (emit_recipe "# T\n[x]\n> s\n* a\n".toList).1 = true ∧
    line_classes (split_lines "# T\n[x]\n> s\n* a\n".toList) =
      [line_class.T, line_class.I, line_class.Q, line_class.P] ∧
    (line_classes (split_lines "# T\n[x]\n> s\n* a\n".toList) = [] ∨
      line_classes (split_lines "# T\n[x]\n> s\n* a\n".toList) ∈ recipe_regex.matches') :=
  ⟨by decide, by decide, by decide,
   (emit_recipe_accepts_iff_grammar "# T\n[x]\n> s\n* a\n".toList (by decide)).1.mp
      (by decide)⟩

/-- C20, amended: two inputs whose lines each fit the read buffer (at most 2047
characters, the newline counted) and whose lines that are not skipped have the same kinds,
one by one, get the same boolean result from `emit_recipe`. -/
theorem emit_recipe_result_of_classes (recipe1 recipe2 : List Char)
    (hfit1 : ∀ l ∈ split_lines recipe1, l.length ≤ 2047)
    (hfit2 : ∀ l ∈ split_lines recipe2, l.length ≤ 2047)
    (h : line_classes (split_lines recipe1) = line_classes (split_lines recipe2)) :
    (emit_recipe recipe1).1 = (emit_recipe recipe2).1 := by
  rw [emit_recipe_fit recipe1 hfit1, emit_recipe_fit recipe2 hfit2]
  exact emit_result_of_classes _ _ h

theorem emit_recipe_result_of_classes_witness :
    (∀ l ∈ split_lines "# Tea\n\nBoil water.\n> no\n".toList, l.length ≤ 2047) ∧
    (∀ l ∈ split_lines "  # Soup  \nstir\n>\n".toList, l.length ≤ 2047) ∧
    line_classes (split_lines "# Tea\n\nBoil water.\n> no\n".toList) =
      line_classes (split_lines "  # Soup  \nstir\n>\n".toList) ∧
    (emit_recipe "# Tea\n\nBoil water.\n> no\n".toList).1 =
      (emit_recipe "  # Soup  \nstir\n>\n".toList).1 :=
  ⟨by decide, by decide, by decide,
   emit_recipe_result_of_classes _ _ (by decide) (by decide) (by decide)⟩

end Recipes
